import Mathlib

/-!
Verification of the UTXO block-indexer core of `backend-engineer-test`.

The repository ships two parallel implementations of the same design:

* the "Models" implementation (`src/services/blockchain.service.ts` first
  part, `src/models/block.model.ts`, `src/models/transaction.model.ts`,
  `src/models/index.ts` / `output.model.ts`, `src/utils/blockhain.util.ts`),
  which validates a block against the persisted store and then applies it
  inside an SQL transaction; and
* the "Repo" implementation (`src/services/blockchain.ts` second part,
  `src/database/repository.ts`, `src/services/validation.ts`), which
  validates height/hash/per-transaction balance and applies the block
  through `BlockchainRepository` primitives, also inside one SQL
  transaction.

Both are embedded below, each operation translated statement by statement
from its source.  Postgres tables are lists of row structures; SQL
`UPDATE ... WHERE` is a conditional `List.map`, `DELETE ... WHERE` a
`List.filter`, `INSERT` an append (with the table's uniqueness constraints
raising errors exactly where the schema declares them), and
`BEGIN/COMMIT/ROLLBACK` is `Except`: an error from the body leaves the
caller's state untouched, which is exactly what the SQL `ROLLBACK` in each
`catch` branch does.  Error messages built by string interpolation in the
source carry no control-flow weight and are represented by error codes.
-/

/-! ## SHA-256 (`crypto.createHash('sha256')`), on bytes, big-endian words

32-bit machine words are `Nat` reduced `% 2^32` wherever the source
arithmetic overflows. -/

def w32 (x : Nat) : Nat := x % 4294967296

def rotr32 (n x : Nat) : Nat :=
  w32 ((x >>> n) ||| (x <<< (32 - n)))

def sha256K : List Nat :=
  [1116352408, 1899447441, 3049323471, 3921009573, 961987163, 1508970993,
   2453635748, 2870763221, 3624381080, 310598401, 607225278, 1426881987,
   1925078388, 2162078206, 2614888103, 3248222580, 3835390401, 4022224774,
   264347078, 604807628, 770255983, 1249150122, 1555081692, 1996064986,
   2554220882, 2821834349, 2952996808, 3210313671, 3336571891, 3584528711,
   113926993, 338241895, 666307205, 773529912, 1294757372, 1396182291,
   1695183700, 1986661051, 2177026350, 2456956037, 2730485921, 2820302411,
   3259730800, 3345764771, 3516065817, 3600352804, 4094571909, 275423344,
   430227734, 506948616, 659060556, 883997877, 958139571, 1322822218,
   1537002063, 1747873779, 1955562222, 2024104815, 2227730452, 2361852424,
   2428436474, 2756734187, 3204031479, 3329325298]

def sha256H0 : List Nat :=
  [1779033703, 3144134277, 1013904242, 2773480762,
   1359893119, 2600822924, 528734635, 1541459225]

/-- Split the padded byte stream into 32-bit big-endian words. -/
def bytesToWords : List Nat → List Nat
  | b0 :: b1 :: b2 :: b3 :: rest =>
      (((b0 * 256 + b1) * 256 + b2) * 256 + b3) :: bytesToWords rest
  | _ => []

/-- SHA-256 padding: append 0x80, zeros to 56 mod 64, then the bit length
as an 8-byte big-endian integer. -/
def sha256Pad (msg : List Nat) : List Nat :=
  let len := msg.length
  let zeros := (64 - ((len + 9) % 64)) % 64
  let lenBits := len * 8
  msg ++ [0x80] ++ List.replicate zeros 0 ++
    [(lenBits >>> 56) % 256, (lenBits >>> 48) % 256, (lenBits >>> 40) % 256,
     (lenBits >>> 32) % 256, (lenBits >>> 24) % 256, (lenBits >>> 16) % 256,
     (lenBits >>> 8) % 256, lenBits % 256]

/-- Message schedule: extend the 16 block words to 64. -/
def sha256Schedule (ws : List Nat) : List Nat :=
  (List.range 48).foldl
    (fun acc i =>
      let g := fun j => acc.getD j 0
      let x := g (i + 1)
      let y := g (i + 14)
      let s0 := (rotr32 7 x) ^^^ (rotr32 18 x) ^^^ (x >>> 3)
      let s1 := (rotr32 17 y) ^^^ (rotr32 19 y) ^^^ (y >>> 10)
      acc ++ [w32 (g i + s0 + g (i + 9) + s1)])
    ws

/-- One compression round. -/
def sha256Round (st : List Nat) (kw : Nat × Nat) : List Nat :=
  let g := fun j => st.getD j 0
  let a := g 0
  let b := g 1
  let c := g 2
  let d := g 3
  let e := g 4
  let f := g 5
  let gg := g 6
  let h := g 7
  let s1 := (rotr32 6 e) ^^^ (rotr32 11 e) ^^^ (rotr32 25 e)
  let ch := (e &&& f) ^^^ ((4294967295 - e) &&& gg)
  let t1 := w32 (h + s1 + ch + kw.1 + kw.2)
  let s0 := (rotr32 2 a) ^^^ (rotr32 13 a) ^^^ (rotr32 22 a)
  let mj := (a &&& b) ^^^ (a &&& c) ^^^ (b &&& c)
  let t2 := w32 (s0 + mj)
  [w32 (t1 + t2), a, b, c, w32 (d + t1), e, f, gg]

/-- Process one 64-byte chunk. -/
def sha256Chunk (h : List Nat) (chunk : List Nat) : List Nat :=
  let ws := sha256Schedule (bytesToWords chunk)
  let st := (sha256K.zip ws).foldl sha256Round h
  (h.zip st).map fun p => w32 (p.1 + p.2)

/-- Split into 64-byte chunks; the first argument is fuel, always called
with the length of the list so it never runs out (structural recursion
keeps the definition kernel-reducible). -/
def listChunks64Go : Nat → List Nat → List (List Nat)
  | 0, _ => []
  | _ + 1, [] => []
  | fuel + 1, a :: l => (a :: l).take 64 :: listChunks64Go fuel (l.drop 63)

def listChunks64 (l : List Nat) : List (List Nat) :=
  listChunks64Go l.length l

def hexDigit (n : Nat) : Char :=
  if n < 10 then Char.ofNat (48 + n) else Char.ofNat (87 + n)

/-- Lower-case hex rendering of a 32-bit word, 8 digits. -/
def wordToHex (x : Nat) : List Char :=
  [hexDigit ((x >>> 28) % 16), hexDigit ((x >>> 24) % 16),
   hexDigit ((x >>> 20) % 16), hexDigit ((x >>> 16) % 16),
   hexDigit ((x >>> 12) % 16), hexDigit ((x >>> 8) % 16),
   hexDigit ((x >>> 4) % 16), hexDigit (x % 16)]

/-- UTF-8 encoding of one code point. -/
def charUtf8 (c : Char) : List Nat :=
  let n := c.toNat
  if n < 0x80 then [n]
  else if n < 0x800 then [0xc0 ||| (n >>> 6), 0x80 ||| (n &&& 0x3f)]
  else if n < 0x10000 then
    [0xe0 ||| (n >>> 12), 0x80 ||| ((n >>> 6) &&& 0x3f), 0x80 ||| (n &&& 0x3f)]
  else
    [0xf0 ||| (n >>> 18), 0x80 ||| ((n >>> 12) &&& 0x3f),
     0x80 ||| ((n >>> 6) &&& 0x3f), 0x80 ||| (n &&& 0x3f)]

def stringUtf8 (s : String) : List Nat := s.data.flatMap charUtf8

/-- `createHash('sha256').update(input).digest('hex')`. -/
def sha256hex (s : String) : String :=
  let chunks := listChunks64 (sha256Pad (stringUtf8 s))
  let h := chunks.foldl sha256Chunk sha256H0
  ⟨h.flatMap wordToHex⟩

/-! ## Domain values (`schemas/blockchain.schema.ts`, `types/domain.ts`)

`value` is a positive integer at the API boundary and is stored in a
`BIGINT` column; balances may go negative, so balances are `Int` while
output values are `Nat`. -/

structure Output where
  address : String
  value : Nat
deriving Repr, DecidableEq

structure Input where
  txId : String
  index : Nat
deriving Repr, DecidableEq

structure Transaction where
  id : String
  inputs : List Input
  outputs : List Output
deriving Repr, DecidableEq

structure Block where
  id : String
  height : Nat
  transactions : List Transaction
deriving Repr, DecidableEq


-- Decidable equality on results, for evaluating concrete runs.
deriving instance DecidableEq for Except

/-! ## The Models implementation

Translated from `src/utils/blockhain.util.ts`, `src/models/block.model.ts`,
`src/models/transaction.model.ts`, `src/models/output.model.ts` and the
first `BlockchainService` in `src/services/blockchain.service.ts`. -/

namespace Models

/-- calculateBlockId: decimal height, then the transaction ids joined with
no separator, hashed with SHA-256 and hex encoded. -/
def calculateBlockId (height : Nat) (transactions : List Transaction) : String :=
  let transactionIds := String.join (transactions.map (·.id))
  let input := toString height ++ transactionIds
  sha256hex input

/-- validateBlockId: exact string comparison with the recomputed id. -/
def validateBlockId (block : Block) : Bool :=
  let expectedId := calculateBlockId block.height block.transactions
  block.id == expectedId

/-- calculateTransactionValues: the source never accumulates into
totalInputValue (it stays the literal 0). -/
def calculateTransactionValues (transactions : List Transaction) : Nat × Nat :=
  let totalInputValue := 0
  let totalOutputValue :=
    transactions.foldl (fun acc t => t.outputs.foldl (fun a o => a + o.value) acc) 0
  (totalInputValue, totalOutputValue)

/-- The result shape of TransactionModel.validateInputsExist. -/
structure InputValidation where
  isValid : Bool
  totalInputValue : Nat
deriving Repr, DecidableEq

/-- The error codes of validateBlock (the interpolated messages carry no
control flow and are omitted). -/
inductive VCode where
  | INVALID_BLOCK_ID
  | INVALID_HEIGHT
  | INVALID_INPUTS
  | INVALID_BALANCE
deriving Repr, DecidableEq

/-- validateBlock from `src/utils/blockhain.util.ts`: block id, height,
inputs, then the three-branch balance rule; first failure wins. -/
def validateBlock (block : Block) (currentHeight : Nat) (iv : InputValidation) :
    Option VCode :=
  if !validateBlockId block then some .INVALID_BLOCK_ID
  else if block.height != currentHeight + 1 then some .INVALID_HEIGHT
  else if !iv.isValid then some .INVALID_INPUTS
  else
    let totalOutputValue := (calculateTransactionValues block.transactions).2
    let hasCoinbaseTransaction := block.transactions.any (fun tx => tx.inputs.length == 0)
    let regularInputValue := iv.totalInputValue
    let regularOutputValue := block.transactions.foldl
      (fun acc tx =>
        if tx.inputs.length != 0 then tx.outputs.foldl (fun a o => a + o.value) acc
        else acc) 0
    if hasCoinbaseTransaction && regularOutputValue == 0 then
      if iv.totalInputValue != 0 then some .INVALID_BALANCE else none
    else if !hasCoinbaseTransaction then
      if iv.totalInputValue != totalOutputValue then some .INVALID_BALANCE else none
    else
      if regularInputValue != regularOutputValue then some .INVALID_BALANCE else none

/-! ### Persisted state: one structure per table of the Models schema. -/

structure OutputRow where
  transaction_id : String
  output_index : Nat
  address : String
  value : Nat
  is_spent : Bool
  spent_in_transaction_id : Option String
  block_height : Nat
deriving Repr, DecidableEq

structure TxRow where
  id : String
  block_id : String
  block_height : Nat
deriving Repr, DecidableEq

structure BlockRow where
  id : String
  height : Nat
deriving Repr, DecidableEq

structure BalanceRow where
  address : String
  balance : Int
  last_updated_height : Nat
deriving Repr, DecidableEq

structure DB where
  blocks : List BlockRow
  transactions : List TxRow
  outputs : List OutputRow
  address_balances : List BalanceRow
deriving Repr, DecidableEq

def DB.empty : DB := ⟨[], [], [], []⟩

/-- SELECT COALESCE(MAX(height), 0) FROM blocks. -/
def getCurrentHeight (db : DB) : Nat :=
  db.blocks.foldl (fun m r => max m r.height) 0

/-- SELECT ... FROM outputs WHERE transaction_id = $1 AND output_index = $2
(the UNIQUE constraint makes the first match the only one). -/
def findOutput (db : DB) (txId : String) (index : Nat) : Option OutputRow :=
  db.outputs.find? (fun r => r.transaction_id == txId && r.output_index == index)

/-- OutputModel.updateAddressBalanceWithClient: INSERT .. ON CONFLICT
DO UPDATE SET balance = balance + delta. -/
def upsertBalance (rows : List BalanceRow) (address : String) (delta : Int)
    (height : Nat) : List BalanceRow :=
  if rows.any (fun r => r.address == address) then
    rows.map (fun r =>
      if r.address == address then
        { r with balance := r.balance + delta, last_updated_height := height }
      else r)
  else rows ++ [⟨address, delta, height⟩]

/-- Plain UPDATE address_balances ... WHERE address = $3 (no insert), as in
TransactionModel.rollbackBlock. -/
def updateBalanceRows (rows : List BalanceRow) (address : String) (delta : Int)
    (height : Nat) : List BalanceRow :=
  rows.map (fun r =>
    if r.address == address then
      { r with balance := r.balance + delta, last_updated_height := height }
    else r)

/-- TransactionModel.validateInputsExist: walk the inputs, bail out with
(false, 0) on a missing or spent output, otherwise sum the values. -/
def validateInputsExistGo (db : DB) : List Input → Nat → InputValidation
  | [], acc => ⟨true, acc⟩
  | i :: rest, acc =>
    match findOutput db i.txId i.index with
    | none => ⟨false, 0⟩
    | some row =>
      if row.is_spent then ⟨false, 0⟩
      else validateInputsExistGo db rest (acc + row.value)

def validateInputsExist (db : DB) (inputs : List Input) : InputValidation :=
  validateInputsExistGo db inputs 0

/-- Errors surfaced while applying a block: the two explicit existence
checks in the source, and the violation of UNIQUE(transaction_id,
output_index) that Postgres raises on a duplicate output insert. -/
inductive DbError where
  | txExists
  | blockExists
  | uniqueViolation
deriving Repr, DecidableEq

/-- INSERT INTO outputs, refused by the schema on a duplicate key. -/
def insertOutputRow (db : DB) (row : OutputRow) : Except DbError DB :=
  if db.outputs.any (fun r =>
      r.transaction_id == row.transaction_id && r.output_index == row.output_index) then
    .error .uniqueViolation
  else .ok { db with outputs := db.outputs ++ [row] }

/-- One iteration of the inputs loop of insertWithClient: mark the
referenced output spent, then (if the row exists) debit its address. -/
def applyInput (db : DB) (txid : String) (blockHeight : Nat) (input : Input) : DB :=
  let db1 := { db with outputs := db.outputs.map (fun r =>
    if r.transaction_id == input.txId && r.output_index == input.index then
      { r with is_spent := true, spent_in_transaction_id := some txid }
    else r) }
  match findOutput db1 input.txId input.index with
  | some row =>
    { db1 with address_balances :=
        upsertBalance db1.address_balances row.address (-(row.value : Int)) blockHeight }
  | none => db1

/-- The outputs loop of insertWithClient (i is the running index). -/
def applyOutputsGo (txid : String) (height : Nat) :
    List Output → Nat → DB → Except DbError DB
  | [], _, db => .ok db
  | o :: rest, i, db => do
    let db1 ← insertOutputRow db ⟨txid, i, o.address, o.value, false, none, height⟩
    let db2 := { db1 with
      address_balances := upsertBalance db1.address_balances o.address (o.value : Int) height }
    applyOutputsGo txid height rest (i + 1) db2

/-- TransactionModel.insertWithClient. -/
def insertWithClient (db : DB) (tx : Transaction) (block : Block) :
    Except DbError DB :=
  if db.transactions.any (fun r => r.id == tx.id) then .error .txExists
  else
    let db1 := { db with transactions :=
      db.transactions ++ [⟨tx.id, block.id, block.height⟩] }
    let db2 := tx.inputs.foldl (fun d i => applyInput d tx.id block.height i) db1
    applyOutputsGo tx.id block.height tx.outputs 0 db2

def insertTxsGo (block : Block) : List Transaction → DB → Except DbError DB
  | [], db => .ok db
  | t :: rest, db => do
    insertTxsGo block rest (← insertWithClient db t block)

/-- BlockModel.insert: the existence pre-check, the block row, then every
transaction; any error rolls the whole unit of work back (the caller keeps
its previous state). -/
def blockInsert (db : DB) (block : Block) : Except DbError DB :=
  if db.blocks.any (fun r => r.id == block.id || r.height == block.height) then
    .error .blockExists
  else
    let db1 := { db with blocks := db.blocks ++ [⟨block.id, block.height⟩] }
    insertTxsGo block block.transactions db1

/-- The Zod BlockSchema gate run by processBlock before anything else
(string fields non-empty, height positive, values positive). -/
def zodBlockOk (b : Block) : Bool :=
  b.id.length ≥ 1 && b.height ≥ 1 &&
  b.transactions.all (fun t =>
    t.id.length ≥ 1 &&
    t.inputs.all (fun i => i.txId.length ≥ 1) &&
    t.outputs.all (fun o => o.address.length ≥ 1 && o.value ≥ 1))

inductive ProcessError where
  | zodRejected
  | validation (c : VCode)
  | db (e : DbError)
deriving Repr, DecidableEq

/-- BlockchainService.processBlock (Models service). -/
def processBlock (db : DB) (block : Block) : Except ProcessError DB :=
  if !zodBlockOk block then .error .zodRejected
  else
    let currentHeight := getCurrentHeight db
    let allInputs := block.transactions.flatMap (·.inputs)
    let iv := validateInputsExist db allInputs
    match validateBlock block currentHeight iv with
    | some c => .error (.validation c)
    | none =>
      match blockInsert db block with
      | .ok db1 => .ok db1
      | .error e => .error (.db e)

/-- OutputModel.getAddressBalance: the stored row or 0. -/
def getAddressBalance (db : DB) (address : String) : Int :=
  match db.address_balances.find? (fun r => r.address == address) with
  | some r => r.balance
  | none => 0

/-! ### Rollback (TransactionModel.rollbackBlock, BlockModel.rollbackToHeight,
BlockchainService.rollbackToHeight). -/

/-- The outputs loop of rollbackBlock: debit every output of the
transaction from its address (plain UPDATE, last_updated_height becomes
blockHeight - 1). -/
def rollbackTxOutputs (db : DB) (txid : String) (blockHeight : Nat) : DB :=
  let rows := db.outputs.filter (fun r => r.transaction_id == txid)
  let bal1 := rows.foldl
    (fun bal r => updateBalanceRows bal r.address (-(r.value : Int)) (blockHeight - 1))
    db.address_balances
  { db with address_balances := bal1 }

/-- UPDATE outputs SET is_spent = FALSE, spent_in_transaction_id = NULL
WHERE spent_in_transaction_id = $1. -/
def unspendByTx (outs : List OutputRow) (txid : String) : List OutputRow :=
  outs.map (fun r =>
    if r.spent_in_transaction_id == some txid then
      { r with is_spent := false, spent_in_transaction_id := none }
    else r)

/-- The inputs loop of rollbackBlock: the source snapshots the rows spent
by the transaction, then inside the per-row loop unmarks them all (the
update is idempotent after the first pass) and credits each row back. -/
def rollbackTxInputs (db : DB) (txid : String) (blockHeight : Nat) : DB :=
  let rows := db.outputs.filter (fun r => r.spent_in_transaction_id == some txid)
  rows.foldl
    (fun d r =>
      { d with
        outputs := unspendByTx d.outputs txid,
        address_balances :=
          updateBalanceRows d.address_balances r.address (r.value : Int) (blockHeight - 1) })
    db

/-- TransactionModel.rollbackBlock: for each transaction of the block,
reverse its outputs then its inputs. -/
def rollbackBlock (db : DB) (blockId : String) (blockHeight : Nat) : DB :=
  let txs := db.transactions.filter (fun r => r.block_id == blockId)
  txs.foldl (fun d t => rollbackTxInputs (rollbackTxOutputs d t.id blockHeight) t.id blockHeight) db

/-- ORDER BY height DESC (insertion sort; heights are unique in the table). -/
def insertDesc (r : BlockRow) : List BlockRow → List BlockRow
  | [] => [r]
  | x :: xs => if r.height ≥ x.height then r :: x :: xs else x :: insertDesc r xs

def sortByHeightDesc (rows : List BlockRow) : List BlockRow :=
  rows.foldr insertDesc []

/-- DELETE FROM blocks WHERE height > $1, with the schema cascades:
transactions of the deleted blocks go, outputs of those transactions go,
and spent_in_transaction_id references to deleted transactions are set to
NULL. -/
def cascadeDeleteAbove (db : DB) (target : Int) : DB :=
  let deletedBlockIds := (db.blocks.filter (fun r => target < (r.height : Int))).map (·.id)
  let keptBlocks := db.blocks.filter (fun r => !(decide (target < (r.height : Int))))
  let deletedTxIds :=
    (db.transactions.filter (fun t => deletedBlockIds.contains t.block_id)).map (·.id)
  let keptTxs := db.transactions.filter (fun t => !deletedBlockIds.contains t.block_id)
  let keptOutputs :=
    (db.outputs.filter (fun o => !deletedTxIds.contains o.transaction_id)).map (fun o =>
      match o.spent_in_transaction_id with
      | some t => if deletedTxIds.contains t then { o with spent_in_transaction_id := none } else o
      | none => o)
  { db with blocks := keptBlocks, transactions := keptTxs, outputs := keptOutputs }

/-- BlockModel.rollbackToHeight: reverse each block above the target in
height-descending order, then delete them (one unit of work; the fold
cannot fail). -/
def blockRollbackToHeight (db : DB) (targetHeight : Int) : DB :=
  let blocksToRollback :=
    sortByHeightDesc (db.blocks.filter (fun r => targetHeight < (r.height : Int)))
  let db1 := blocksToRollback.foldl (fun d b => rollbackBlock d b.id b.height) db
  cascadeDeleteAbove db1 targetHeight

/-- AppConfig.MAX_ROLLBACK_BLOCKS (default configuration). -/
def MAX_ROLLBACK_BLOCKS : Nat := 2000

inductive RollbackErr where
  | higherThanCurrent
  | tooManyBlocks
deriving Repr, DecidableEq

/-- BlockchainService.rollbackToHeight (Models service): only two guards —
a target above the current height, and the depth ceiling. -/
def rollbackToHeight (db : DB) (targetHeight : Int) :
    Except RollbackErr (DB × Int × Nat) :=
  let currentHeight := getCurrentHeight db
  if targetHeight > (currentHeight : Int) then .error .higherThanCurrent
  else if (currentHeight : Int) - targetHeight > (MAX_ROLLBACK_BLOCKS : Int) then
    .error .tooManyBlocks
  else .ok (blockRollbackToHeight db targetHeight, targetHeight, currentHeight)

end Models

/-! ## The Repo implementation

Translated from `src/services/validation.ts`, `src/database/repository.ts`,
`src/database/schema.ts` and the second `BlockchainService` in
`src/services/blockchain.service.ts`. -/

namespace Repo

/-- calculateBlockHash from `src/services/validation.ts`: the same
height-then-ids SHA-256 as the Models calculateBlockId. -/
def calculateBlockHash (block : Block) : String :=
  let transactionIds := String.join (block.transactions.map (·.id))
  sha256hex (toString block.height ++ transactionIds)

structure OutputRow where
  tx_id : String
  idx : Nat
  address : String
  value : Nat
  is_spent : Bool
  spent_in_block_height : Option Nat
deriving Repr, DecidableEq

structure TxRow where
  id : String
  block_id : String
  block_height : Nat
deriving Repr, DecidableEq

structure BlockRow where
  id : String
  height : Nat
deriving Repr, DecidableEq

structure BalanceRow where
  address : String
  balance : Int
deriving Repr, DecidableEq

structure DB where
  blocks : List BlockRow
  transactions : List TxRow
  outputs : List OutputRow
  balances : List BalanceRow
deriving Repr, DecidableEq

def DB.empty : DB := ⟨[], [], [], []⟩

/-- SELECT COALESCE(MAX(height), 0) FROM blocks. -/
def getCurrentHeight (db : DB) : Nat :=
  db.blocks.foldl (fun m r => max m r.height) 0

/-- BlockchainRepository.getOutput. -/
def getOutput (db : DB) (txId : String) (index : Nat) : Option OutputRow :=
  db.outputs.find? (fun r => r.tx_id == txId && r.idx == index)

/-- BlockchainRepository.getBalance: the stored row or 0. -/
def getBalance (db : DB) (address : String) : Int :=
  match db.balances.find? (fun r => r.address == address) with
  | some r => r.balance
  | none => 0

/-- BlockchainRepository.updateBalance: INSERT ... ON CONFLICT DO UPDATE
SET balance = balance + delta. -/
def updateBalance (rows : List BalanceRow) (address : String) (delta : Int) :
    List BalanceRow :=
  if rows.any (fun r => r.address == address) then
    rows.map (fun r =>
      if r.address == address then { r with balance := r.balance + delta } else r)
  else rows ++ [⟨address, delta⟩]

/-- Errors thrown across processBlock (ValidationError instances and the
constraint violations the schema raises). -/
inductive RepoError where
  | invalidHeight
  | invalidHash
  | outputNotFoundRef
  | txUnbalanced
  | outputNotFound
  | outputAlreadySpent
  | constraintViolation
deriving Repr, DecidableEq

/-- The getOutputValue helper of processBlock: it resolves an input ONLY
against the transactions of the block being processed (the cache only ever
holds such same-block lookups and is semantically transparent); the source
loop takes the first transaction with the right id whose outputs array has
a truthy entry at the index. -/
def getOutputValue (block : Block) (txId : String) (index : Nat) : Option Nat :=
  match block.transactions.find? (fun tx => tx.id == txId && index < tx.outputs.length) with
  | some tx => (tx.outputs.get? index).map (·.value)
  | none => none

/-- calculateInputSum: resolve every input through getOutputValue (a
missing one throws in the source). -/
def calculateInputSum (block : Block) : List Input → Option Nat
  | [] => some 0
  | i :: rest => do
    let v ← getOutputValue block i.txId i.index
    let s ← calculateInputSum block rest
    pure (v + s)

/-- calculateOutputSum of one transaction. -/
def calculateOutputSum (t : Transaction) : Nat :=
  t.outputs.foldl (fun s o => s + o.value) 0

/-- validateBlockTransactions: coinbase transactions (no inputs) are
skipped; every other transaction must individually balance. -/
def validateBlockTransactions (block : Block) : List Transaction → Option RepoError
  | [] => none
  | t :: rest =>
    if t.inputs.length == 0 then validateBlockTransactions block rest
    else
      match calculateInputSum block t.inputs with
      | none => some .outputNotFoundRef
      | some s =>
        if s != calculateOutputSum t then some .txUnbalanced
        else validateBlockTransactions block rest

/-- INSERT INTO outputs, PRIMARY KEY (tx_id, idx). -/
def insertOutput (db : DB) (row : OutputRow) : Except RepoError DB :=
  if db.outputs.any (fun r => r.tx_id == row.tx_id && r.idx == row.idx) then
    .error .constraintViolation
  else .ok { db with outputs := db.outputs ++ [row] }

/-- The inputs loop of processBlock: look the referenced output up in the
store, reject a missing or spent one, mark it spent and debit its address. -/
def applyInputs (db : DB) (blockHeight : Nat) : List Input → Except RepoError DB
  | [] => .ok db
  | i :: rest =>
    match getOutput db i.txId i.index with
    | none => .error .outputNotFound
    | some referencedOutput =>
      if referencedOutput.is_spent then .error .outputAlreadySpent
      else
        let outs := db.outputs.map (fun r =>
          if r.tx_id == i.txId && r.idx == i.index then
            { r with is_spent := true, spent_in_block_height := some blockHeight }
          else r)
        let bals := updateBalance db.balances referencedOutput.address
          (-(referencedOutput.value : Int))
        applyInputs { db with outputs := outs, balances := bals } blockHeight rest

/-- The outputs loop of processBlock (i is the running index). -/
def applyOutputs (txId : String) : List Output → Nat → DB → Except RepoError DB
  | [], _, db => .ok db
  | o :: rest, i, db => do
    let db1 ← insertOutput db ⟨txId, i, o.address, o.value, false, none⟩
    let db2 := { db1 with balances := updateBalance db1.balances o.address (o.value : Int) }
    applyOutputs txId rest (i + 1) db2

/-- One iteration of the transactions loop of processBlock. -/
def applyTransaction (db : DB) (block : Block) (t : Transaction) :
    Except RepoError DB := do
  let db1 ←
    if db.transactions.any (fun r => r.id == t.id) then
      .error RepoError.constraintViolation
    else
      .ok { db with transactions := db.transactions ++ [⟨t.id, block.id, block.height⟩] }
  let db2 ← applyInputs db1 block.height t.inputs
  applyOutputs t.id t.outputs 0 db2

def applyTransactionsGo (block : Block) : List Transaction → DB → Except RepoError DB
  | [], db => .ok db
  | t :: rest, db => do
    applyTransactionsGo block rest (← applyTransaction db block t)

/-- BlockchainService.processBlock (Repo service): height, hash, the
per-transaction balance validation, then the apply loop; all inside
withTransaction, so an error leaves the caller state untouched. -/
def processBlock (db : DB) (block : Block) : Except RepoError DB :=
  let currentHeight := getCurrentHeight db
  if block.height != currentHeight + 1 then .error .invalidHeight
  else if block.id != calculateBlockHash block then .error .invalidHash
  else
    match validateBlockTransactions block block.transactions with
    | some e => .error e
    | none => do
      let db1 ←
        if db.blocks.any (fun r => r.id == block.id || r.height == block.height) then
          .error RepoError.constraintViolation
        else
          .ok { db with blocks := db.blocks ++ [⟨block.id, block.height⟩] }
      applyTransactionsGo block block.transactions db1

/-- ValidationError reasons of the rollback service. -/
inductive RollbackErr where
  | negativeHeight
  | notInPast
  | tooManyBlocks
deriving Repr, DecidableEq

/-- BlockchainRepository.unmarkOutputsSpentAfterHeight. -/
def unmarkOutputsSpentAfterHeight (db : DB) (height : Int) : DB :=
  { db with outputs := db.outputs.map (fun r =>
      match r.spent_in_block_height with
      | some h =>
        if height < (h : Int) then
          { r with is_spent := false, spent_in_block_height := none }
        else r
      | none => r) }

/-- BlockchainRepository.deleteBlocksAfterHeight, with the schema cascades
blocks → transactions → outputs. -/
def deleteBlocksAfterHeight (db : DB) (height : Int) : DB :=
  let deletedBlockIds := (db.blocks.filter (fun r => height < (r.height : Int))).map (·.id)
  let keptBlocks := db.blocks.filter (fun r => !(decide (height < (r.height : Int))))
  let deletedTxIds :=
    (db.transactions.filter (fun t => deletedBlockIds.contains t.block_id)).map (·.id)
  let keptTxs := db.transactions.filter (fun t => !deletedBlockIds.contains t.block_id)
  let keptOutputs := db.outputs.filter (fun o => !deletedTxIds.contains o.tx_id)
  { db with blocks := keptBlocks, transactions := keptTxs, outputs := keptOutputs }

def dedupAddresses (l : List String) : List String :=
  l.foldl (fun acc a => if acc.contains a then acc else acc ++ [a]) []

/-- BlockchainRepository.recalculateBalances: DELETE FROM balances, then
INSERT SELECT address, SUM(value) FROM outputs WHERE is_spent = FALSE
GROUP BY address. -/
def recalculateBalances (db : DB) : DB :=
  let unspent := db.outputs.filter (fun o => !o.is_spent)
  let addrs := dedupAddresses (unspent.map (·.address))
  { db with balances := addrs.map (fun a =>
      ⟨a, ((unspent.filter (fun o => o.address == a)).foldl (fun s o => s + o.value) 0 : Nat)⟩) }

/-- BlockchainService.rollback (Repo service): the three guards, then
unmark, delete, recalculate, in one unit of work. -/
def rollback (db : DB) (targetHeight : Int) : Except RollbackErr DB :=
  let currentHeight := getCurrentHeight db
  if targetHeight < 0 then .error .negativeHeight
  else if targetHeight ≥ (currentHeight : Int) then .error .notInPast
  else if (currentHeight : Int) - targetHeight > 2000 then .error .tooManyBlocks
  else
    let db1 := unmarkOutputsSpentAfterHeight db targetHeight
    let db2 := deleteBlocksAfterHeight db1 targetHeight
    .ok (recalculateBalances db2)

end Repo

/-! ## Spec-side derived quantities used by the theorems. -/

/-- Sum of the output values of one transaction. -/
def outputSum (t : Transaction) : Nat :=
  (t.outputs.map (·.value)).sum

/-- Sum of output values over the non-coinbase transactions (those with at
least one input) of a block, as the value-conservation rule reads. -/
def regularOutputSum (txs : List Transaction) : Nat :=
  ((txs.filter (fun t => !t.inputs.isEmpty)).map outputSum).sum

/-- Sum of output values over all transactions. -/
def totalOutputSum (txs : List Transaction) : Nat :=
  (txs.map outputSum).sum

/-- The derived balance of an address: the sum of the values of its
currently unspent stored outputs (the right-hand side of the
balance-derivation invariant). -/
def Models.unspentSum (db : Models.DB) (a : String) : Int :=
  (((db.outputs.filter (fun r => !r.is_spent && r.address == a)).map (·.value)).sum : Nat)

def Repo.unspentSum (db : Repo.DB) (a : String) : Int :=
  (((db.outputs.filter (fun r => !r.is_spent && r.address == a)).map (·.value)).sum : Nat)

/-! ## C9: block id computation and verification. -/

/-- C9: calculateBlockId is the hex SHA-256 of the decimal height
concatenated with the transaction ids in order with no separator; it
depends only on the height and the id sequence; validateBlockId holds
exactly on string equality with the recomputed id; and the Repo
calculateBlockHash computes the identical function. -/
theorem C9_block_id :
    (∀ (h : Nat) (txs : List Transaction),
        Models.calculateBlockId h txs =
          sha256hex (toString h ++ String.join (txs.map Transaction.id))) ∧
    (∀ (h : Nat) (t1 t2 : List Transaction),
        t1.map Transaction.id = t2.map Transaction.id →
        Models.calculateBlockId h t1 = Models.calculateBlockId h t2) ∧
    (∀ b : Block, Models.validateBlockId b = true ↔
        b.id = Models.calculateBlockId b.height b.transactions) ∧
    (∀ b : Block, Repo.calculateBlockHash b = Models.calculateBlockId b.height b.transactions) := by
  refine ⟨fun h txs => rfl, fun h t1 t2 hmap => ?_, fun b => ?_, fun b => rfl⟩
  · simp only [Models.calculateBlockId, hmap]
  · simp [Models.validateBlockId, Models.calculateBlockId]

/-- C9 witness: two transaction lists with the same ids but different
outputs get the same block id. -/
theorem C9_block_id_witness :
    Models.calculateBlockId 1 [⟨"tx1", [], [⟨"a", 1⟩]⟩] =
      Models.calculateBlockId 1 [⟨"tx1", [], [⟨"b", 2⟩]⟩] :=
  C9_block_id.2.1 1 _ _ rfl

/-! ## C10: balance of an unknown address. -/

/-- C10: an address with no stored balance row reads as balance 0 in both
implementations. -/
theorem C10_unknown_address_zero :
    ∀ (dbA : Models.DB) (dbB : Repo.DB) (a : String),
      dbA.address_balances.all (fun r => !(r.address == a)) = true →
      dbB.balances.all (fun r => !(r.address == a)) = true →
      Models.getAddressBalance dbA a = 0 ∧ Repo.getBalance dbB a = 0 := by
  intro dbA dbB a hA hB
  constructor
  · have : dbA.address_balances.find? (fun r => r.address == a) = none := by
      rw [List.find?_eq_none]
      intro x hx
      have := (List.all_eq_true.mp hA) x hx
      simpa using this
    simp [Models.getAddressBalance, this]
  · have : dbB.balances.find? (fun r => r.address == a) = none := by
      rw [List.find?_eq_none]
      intro x hx
      have := (List.all_eq_true.mp hB) x hx
      simpa using this
    simp [Repo.getBalance, this]

/-- C10 witness: the empty store answers 0 for an address it never saw. -/
theorem C10_unknown_address_zero_witness :
    Models.getAddressBalance Models.DB.empty "addr_unknown" = 0 ∧
    Repo.getBalance Repo.DB.empty "addr_unknown" = 0 :=
  C10_unknown_address_zero Models.DB.empty Repo.DB.empty "addr_unknown" rfl rfl

/-! ## Run wrappers: the visible state of a service call, with the SQL
ROLLBACK of a failed unit of work made explicit. -/

def Models.processBlockRun (db : Models.DB) (b : Block) :
    Models.DB × Option Models.ProcessError :=
  match Models.processBlock db b with
  | .ok d => (d, none)
  | .error e => (db, some e)

def Repo.processBlockRun (db : Repo.DB) (b : Block) :
    Repo.DB × Option Repo.RepoError :=
  match Repo.processBlock db b with
  | .ok d => (d, none)
  | .error e => (db, some e)

def Models.rollbackRun (db : Models.DB) (t : Int) :
    Models.DB × Option Models.RollbackErr :=
  match Models.rollbackToHeight db t with
  | .ok (d, _, _) => (d, none)
  | .error e => (db, some e)

def Repo.rollbackRun (db : Repo.DB) (t : Int) :
    Repo.DB × Option Repo.RollbackErr :=
  match Repo.rollback db t with
  | .ok d => (d, none)
  | .error e => (db, some e)

/-! ## C1: rollback preconditions. -/

/-- C1 counterexample: with the store empty the current height is 0, yet
the Models service accepts RollbackTo(0) — a rollback to the current
height — contradicting the claim that equality is rejected. -/
theorem C1_counterexample :
    Models.getCurrentHeight Models.DB.empty = 0 ∧
    Models.rollbackToHeight Models.DB.empty 0 = .ok (Models.DB.empty, 0, 0) := by
  constructor <;> rfl

/-- C1 amended: the Repo rollback rejects exactly the claimed three
precondition violations (negative target, target at or above the current
height, depth beyond 2000) and otherwise proceeds, a rejection leaving the
state unchanged; the Models rollbackToHeight rejects only a target
strictly above the current height or beyond MAX_ROLLBACK_BLOCKS — a
negative target or the current height itself is accepted there. -/
theorem C1_rollback_preconditions :
    (∀ (db : Repo.DB) (t : Int),
      ((Repo.rollback db t).isOk = false ↔
        t < 0 ∨ t ≥ (Repo.getCurrentHeight db : Int) ∨
          (Repo.getCurrentHeight db : Int) - t > 2000)) ∧
    (∀ (db : Repo.DB) (t : Int),
      (Repo.rollback db t).isOk = false → (Repo.rollbackRun db t).1 = db) ∧
    (∀ (db : Models.DB) (t : Int),
      ((Models.rollbackToHeight db t).isOk = false ↔
        t > (Models.getCurrentHeight db : Int) ∨
          (Models.getCurrentHeight db : Int) - t > (Models.MAX_ROLLBACK_BLOCKS : Int))) := by
  refine ⟨fun db t => ?_, fun db t h => ?_, fun db t => ?_⟩
  · simp only [Repo.rollback]
    split_ifs with h1 h2 h3
    · exact ⟨fun _ => Or.inl h1, fun _ => rfl⟩
    · exact ⟨fun _ => Or.inr (Or.inl h2), fun _ => rfl⟩
    · exact ⟨fun _ => Or.inr (Or.inr h3), fun _ => rfl⟩
    · refine ⟨fun hko => Bool.noConfusion hko, fun hd => ?_⟩
      rcases hd with h | h | h <;> omega
  · unfold Repo.rollbackRun
    rcases hr : Repo.rollback db t with e | d
    · simp
    · rw [hr] at h
      simp [Except.isOk, Except.toBool] at h
  · simp only [Models.rollbackToHeight]
    split_ifs with h1 h2
    · exact ⟨fun _ => Or.inl h1, fun _ => rfl⟩
    · exact ⟨fun _ => Or.inr h2, fun _ => rfl⟩
    · refine ⟨fun hko => Bool.noConfusion hko, fun hd => ?_⟩
      rcases hd with h | h <;> omega

/-- C1 witness: on the ledger that is one coinbase block tall, RollbackTo
at the current height is refused by the Repo service (target not in the
past) and the state is kept; the Models service refuses only a higher
target. -/
theorem C1_rollback_preconditions_witness :
    ((Repo.rollback Repo.DB.empty 0).isOk = false) ∧
    (Repo.rollbackRun Repo.DB.empty 0).1 = Repo.DB.empty ∧
    ((Models.rollbackToHeight Models.DB.empty 1).isOk = false) := by
  have h1 := (C1_rollback_preconditions.1 Repo.DB.empty 0).mpr (by right; left; decide)
  have h2 := C1_rollback_preconditions.2.1 Repo.DB.empty 0 h1
  have h3 := (C1_rollback_preconditions.2.2 Models.DB.empty 1).mpr (by left; decide)
  exact ⟨h1, h2, h3⟩

/-! ## C8: a rejected block has no observable effect. -/

/-- C8: whenever ProcessBlock reports a rejection (any reason, in either
implementation), the visible store is the one from before the call: same
current height, same balance for every address, and the block, transaction
and output tables untouched.  The Models service validates before any
write and both services apply inside one SQL transaction whose ROLLBACK
discards partial writes, which the run wrapper makes explicit. -/
theorem C8_rejection_no_side_effects :
    (∀ (db : Models.DB) (b : Block) (e : Models.ProcessError),
      (Models.processBlockRun db b).2 = some e →
      (Models.processBlockRun db b).1 = db ∧
      Models.getCurrentHeight (Models.processBlockRun db b).1 = Models.getCurrentHeight db ∧
      (∀ a, Models.getAddressBalance (Models.processBlockRun db b).1 a =
        Models.getAddressBalance db a)) ∧
    (∀ (db : Repo.DB) (b : Block) (e : Repo.RepoError),
      (Repo.processBlockRun db b).2 = some e →
      (Repo.processBlockRun db b).1 = db ∧
      Repo.getCurrentHeight (Repo.processBlockRun db b).1 = Repo.getCurrentHeight db ∧
      (∀ a, Repo.getBalance (Repo.processBlockRun db b).1 a = Repo.getBalance db a)) := by
  constructor
  · intro db b e h
    unfold Models.processBlockRun at h ⊢
    rcases hr : Models.processBlock db b with er | d
    · simp [hr]
    · rw [hr] at h
      simp at h
  · intro db b e h
    unfold Repo.processBlockRun at h ⊢
    rcases hr : Repo.processBlock db b with er | d
    · simp [hr]
    · rw [hr] at h
      simp at h

set_option maxRecDepth 40000 in
/-- C8 witness: a block at the wrong height (its id is consistent, so the
height check is what fires) is rejected by both services and the empty
store stays empty. -/
theorem C8_rejection_no_side_effects_witness :
    (Models.processBlockRun Models.DB.empty
        ⟨Models.calculateBlockId 5 [⟨"t", [], [⟨"a", 1⟩]⟩], 5, [⟨"t", [], [⟨"a", 1⟩]⟩]⟩).1 =
      Models.DB.empty ∧
    (Repo.processBlockRun Repo.DB.empty
        ⟨Models.calculateBlockId 5 [⟨"t", [], [⟨"a", 1⟩]⟩], 5, [⟨"t", [], [⟨"a", 1⟩]⟩]⟩).1 =
      Repo.DB.empty := by
  constructor
  · exact (C8_rejection_no_side_effects.1 Models.DB.empty _
      (.validation .INVALID_HEIGHT) (by decide)).1
  · exact (C8_rejection_no_side_effects.2 Repo.DB.empty _ .invalidHeight (by decide)).1

/-! ## Characterization helpers for the Models validator. -/

theorem foldl_value_sum (outs : List Output) (acc : Nat) :
    outs.foldl (fun a o => a + o.value) acc = acc + (outs.map (·.value)).sum := by
  induction outs generalizing acc with
  | nil => simp
  | cons o rest ih => simp [List.foldl_cons, ih]; omega

theorem regular_foldl_sum (txs : List Transaction) (acc : Nat) :
    txs.foldl
      (fun acc tx =>
        if tx.inputs.length != 0 then tx.outputs.foldl (fun a o => a + o.value) acc
        else acc) acc = acc + regularOutputSum txs := by
  induction txs generalizing acc with
  | nil => simp [regularOutputSum]
  | cons t rest ih =>
    simp only [List.foldl_cons]
    by_cases hi : t.inputs.length = 0
    · rw [if_neg (by simp [hi]), ih]
      have ht : t.inputs = [] := List.length_eq_zero.mp hi
      simp [regularOutputSum, List.filter_cons, ht]
    · rw [if_pos (by simp [hi]), foldl_value_sum, ih]
      have ht : t.inputs.isEmpty = false := by
        rcases he : t.inputs with _ | _
        · exact absurd (by simp [he]) hi
        · simp [he]
      simp [regularOutputSum, List.filter_cons, ht, outputSum]
      omega

theorem total_foldl_sum (txs : List Transaction) (acc : Nat) :
    txs.foldl (fun acc t => t.outputs.foldl (fun a o => a + o.value) acc) acc =
      acc + totalOutputSum txs := by
  induction txs generalizing acc with
  | nil => simp [totalOutputSum]
  | cons t rest ih =>
    simp only [List.foldl_cons]
    rw [foldl_value_sum, ih]
    simp [totalOutputSum, outputSum]
    omega

theorem total_outputs_snd (txs : List Transaction) :
    (Models.calculateTransactionValues txs).2 = totalOutputSum txs := by
  unfold Models.calculateTransactionValues
  simpa using total_foldl_sum txs 0

/-! ## C4: order of the validation checks. -/

set_option maxRecDepth 40000 in
/-- C4 counterexample: on the empty store, a block whose id is wrong AND
whose height is wrong (5 instead of 1) is rejected by the Repo service
with the height reason, not the id reason — its processBlock checks the
height before the hash. -/
theorem C4_counterexample :
    Repo.processBlock Repo.DB.empty ⟨"wrong", 5, [⟨"t", [], [⟨"a", 1⟩]⟩]⟩ =
      .error .invalidHeight ∧
    "wrong" ≠ Repo.calculateBlockHash ⟨"wrong", 5, [⟨"t", [], [⟨"a", 1⟩]⟩]⟩ := by
  constructor
  · rfl
  · decide

/-- C4 amended: the Models validateBlock does run its checks in the
claimed fixed order — id integrity first, then height sequencing, then
input resolvability, then value conservation — with the first failure
naming the reason; the Repo processBlock instead checks the height before
the block id, so a block with both a wrong id and a wrong height is
rejected there with the height reason. -/
theorem C4_validation_order :
    (∀ (b : Block) (h : Nat) (iv : Models.InputValidation),
      (Models.validateBlock b h iv = some .INVALID_BLOCK_ID ↔
        Models.validateBlockId b = false)) ∧
    (∀ (b : Block) (h : Nat) (iv : Models.InputValidation),
      Models.validateBlockId b = true →
      (Models.validateBlock b h iv = some .INVALID_HEIGHT ↔ b.height ≠ h + 1)) ∧
    (∀ (b : Block) (h : Nat) (iv : Models.InputValidation),
      Models.validateBlockId b = true → b.height = h + 1 →
      (Models.validateBlock b h iv = some .INVALID_INPUTS ↔ iv.isValid = false)) ∧
    (∀ (b : Block) (h : Nat) (iv : Models.InputValidation),
      Models.validateBlockId b = true → b.height = h + 1 → iv.isValid = true →
      (Models.validateBlock b h iv = none ∨
        Models.validateBlock b h iv = some .INVALID_BALANCE)) ∧
    (∀ (db : Repo.DB) (b : Block), b.height ≠ Repo.getCurrentHeight db + 1 →
      Repo.processBlock db b = .error .invalidHeight) := by
  refine ⟨fun b h iv => ?_, fun b h iv h1 => ?_, fun b h iv h1 h2 => ?_,
    fun b h iv h1 h2 h3 => ?_, fun db b hh => ?_⟩
  · rcases h1 : Models.validateBlockId b
    · simp [Models.validateBlock, h1]
    · simp [Models.validateBlock, h1]
      split_ifs <;> simp
  · by_cases h2 : b.height = h + 1
    · simp [Models.validateBlock, h1, h2]
      split_ifs <;> simp_all
    · simp [Models.validateBlock, h1, h2]
  · rcases h3 : iv.isValid
    · simp [Models.validateBlock, h1, h2, h3]
    · simp [Models.validateBlock, h1, h2, h3]
      split_ifs <;> simp
  · simp [Models.validateBlock, h1, h2, h3]
    split_ifs <;> simp
  · simp only [Repo.processBlock]
    rw [if_pos (by simpa using hh)]

/-- C4 witness: a block whose only defect is a bad input reference is
refused by the Models validator with the inputs reason. -/
theorem C4_validation_order_witness :
    Models.validateBlock
        ⟨Models.calculateBlockId 1 [⟨"t", [⟨"missing", 0⟩], [⟨"a", 1⟩]⟩], 1,
          [⟨"t", [⟨"missing", 0⟩], [⟨"a", 1⟩]⟩]⟩ 0 ⟨false, 0⟩ =
      some .INVALID_INPUTS := by
  refine (C4_validation_order.2.2.1 _ 0 ⟨false, 0⟩ ?_ rfl).mpr rfl
  simp [Models.validateBlockId]

/-- The balance section of the Models validateBlock, once the first three
checks pass, accepts exactly when the resolved input total equals the
output total of the non-coinbase transactions: the three source branches
(pure-coinbase, pure-regular, mixed) collapse to this single equation. -/
theorem Models.balance_iff (b : Block) (h : Nat) (iv : Models.InputValidation)
    (h1 : Models.validateBlockId b = true) (h2 : b.height = h + 1)
    (h3 : iv.isValid = true) :
    Models.validateBlock b h iv = none ↔
      iv.totalInputValue = regularOutputSum b.transactions := by
  have hreg : b.transactions.foldl
      (fun acc tx =>
        if tx.inputs.length != 0 then tx.outputs.foldl (fun a o => a + o.value) acc
        else acc) 0 = regularOutputSum b.transactions := by
    simpa using regular_foldl_sum b.transactions 0
  unfold Models.validateBlock
  rw [if_neg (by simp [h1]), if_neg (by simp [h2]), if_neg (by simp [h3])]
  rcases hc : b.transactions.any (fun tx => tx.inputs.length == 0)
  · have hall : ∀ t ∈ b.transactions, t.inputs ≠ [] := by
      intro t ht hemp
      have := List.any_eq_false.mp hc t ht
      simp [hemp] at this
    have heq : regularOutputSum b.transactions = totalOutputSum b.transactions := by
      unfold regularOutputSum totalOutputSum
      rw [List.filter_eq_self.mpr]
      intro t ht
      rcases he : t.inputs with _ | _
      · exact absurd he (hall t ht)
      · simp
    by_cases ht : iv.totalInputValue = regularOutputSum b.transactions <;>
      simp [total_outputs_snd, heq, ht]
  · rw [hreg]
    by_cases hz : regularOutputSum b.transactions = 0 <;>
      by_cases ht : iv.totalInputValue = regularOutputSum b.transactions <;>
        simp [hz, ht]

/-- The Repo validateBlockTransactions accepts exactly when every
non-coinbase transaction individually balances (inputs resolved through
the same-block resolver). -/
theorem Repo.vbt_iff (b : Block) (l : List Transaction) :
    Repo.validateBlockTransactions b l = none ↔
      ∀ t ∈ l, t.inputs ≠ [] →
        Repo.calculateInputSum b t.inputs = some (Repo.calculateOutputSum t) := by
  induction l with
  | nil => simp [Repo.validateBlockTransactions]
  | cons t rest ih =>
    rcases hi : t.inputs with _ | ⟨i, is⟩
    · simp only [Repo.validateBlockTransactions, hi, List.length_nil]
      rw [if_pos (by decide), ih]
      simp only [List.mem_cons]
      constructor
      · intro hall u hu hne
        rcases hu with hu | hu
        · subst hu; exact absurd hi hne
        · exact hall u hu hne
      · intro hall u hu hne
        exact hall u (Or.inr hu) hne
    · simp only [Repo.validateBlockTransactions, hi]
      rw [if_neg (by simp)]
      rcases hs : Repo.calculateInputSum b (i :: is) with _ | s
      · simp only [List.mem_cons]
        constructor
        · intro hfalse
          exact absurd hfalse (by simp)
        · intro hall
          have hx := hall t (Or.inl rfl) (by simp [hi])
          rw [hi, hs] at hx
          exact absurd hx (by simp)
      · by_cases hv : s = Repo.calculateOutputSum t
        · simp only [List.mem_cons]
          rw [if_neg (by simp [hv]), ih]
          constructor
          · intro hall u hu hne
            rcases hu with hu | hu
            · subst hu; rw [hi, hs, hv]
            · exact hall u hu hne
          · intro hall u hu hne
            exact hall u (Or.inr hu) hne
        · simp only [List.mem_cons]
          rw [if_pos (by simp [hv])]
          constructor
          · intro hfalse
            exact absurd hfalse (by simp)
          · intro hall
            have hx := hall t (Or.inl rfl) (by simp [hi])
            rw [hi, hs] at hx
            exact absurd (Option.some.inj hx) hv

/-! ## C5: the value-conservation rule. -/

/-- A block whose non-coinbase transactions cross-balance: the aggregate
input total (5 + 3) equals the aggregate non-coinbase output total
(3 + 5), but no single transaction balances. -/
def c5blk : Block :=
  ⟨"x", 1,
   [⟨"tx0", [], [⟨"a1", 5⟩, ⟨"a2", 3⟩]⟩,
    ⟨"tx1", [⟨"tx0", 0⟩], [⟨"b1", 3⟩]⟩,
    ⟨"tx2", [⟨"tx0", 1⟩], [⟨"c1", 5⟩]⟩]⟩

set_option maxRecDepth 40000 in
/-- C5 counterexample: the Repo balance check rejects `c5blk` even though
the aggregate equation of the claim holds for it (every input resolves and
the resolved total, 8, equals the non-coinbase output total, 8); the
Models validator, fed the same aggregate, accepts the same transactions.
The claim's "iff" therefore fails on the Repo implementation. -/
theorem C5_counterexample :
    Repo.validateBlockTransactions c5blk c5blk.transactions =
      some .txUnbalanced ∧
    Repo.calculateInputSum c5blk (c5blk.transactions.flatMap (·.inputs)) =
      some (regularOutputSum c5blk.transactions) ∧
    Models.validateBlock
        ⟨Models.calculateBlockId 1 c5blk.transactions, 1, c5blk.transactions⟩ 0
        ⟨true, 8⟩ = none := by
  refine ⟨by decide, by decide, ?_⟩
  rw [Models.balance_iff _ 0 ⟨true, 8⟩ (by decide) rfl rfl]
  decide

/-- C5 amended: for the Models validateBlock the claim holds as stated —
once id, height and inputs pass, the block is accepted iff the resolved
input total equals the non-coinbase output total, and a solely-coinbase
block (resolved total 0 over no inputs) is always accepted; the Repo
validateBlockTransactions instead demands that every non-coinbase
transaction balances individually, a strictly stronger condition. -/
theorem C5_value_conservation :
    (∀ (b : Block) (h : Nat) (iv : Models.InputValidation),
      Models.validateBlockId b = true → b.height = h + 1 → iv.isValid = true →
      (Models.validateBlock b h iv = none ↔
        iv.totalInputValue = regularOutputSum b.transactions)) ∧
    (∀ (b : Block) (h : Nat) (iv : Models.InputValidation),
      Models.validateBlockId b = true → b.height = h + 1 → iv.isValid = true →
      iv.totalInputValue = 0 → (∀ t ∈ b.transactions, t.inputs = []) →
      Models.validateBlock b h iv = none) ∧
    (∀ b : Block,
      (Repo.validateBlockTransactions b b.transactions = none ↔
        ∀ t ∈ b.transactions, t.inputs ≠ [] →
          Repo.calculateInputSum b t.inputs = some (Repo.calculateOutputSum t))) := by
  refine ⟨Models.balance_iff, fun b h iv h1 h2 h3 h0 hcb => ?_,
    fun b => Repo.vbt_iff b b.transactions⟩
  rw [Models.balance_iff b h iv h1 h2 h3, h0]
  unfold regularOutputSum
  rw [List.filter_eq_nil_iff.mpr]
  · simp
  · intro t ht
    simp [hcb t ht]

set_option maxRecDepth 40000 in
/-- C5 witness: a solely-coinbase block at height 1 passes the Models
validator outright. -/
theorem C5_value_conservation_witness :
    Models.validateBlock
        ⟨Models.calculateBlockId 1 [⟨"cb", [], [⟨"a", 7⟩]⟩], 1,
          [⟨"cb", [], [⟨"a", 7⟩]⟩]⟩ 0 ⟨true, 0⟩ = none :=
  C5_value_conservation.2.1 _ 0 ⟨true, 0⟩ (by decide) rfl rfl rfl (by decide)

/-! ## C6: input resolvability against the store. -/

def c6tx1 : Transaction := ⟨"tx1", [], [⟨"addr1", 100⟩]⟩

def c6b1 : Block := ⟨Models.calculateBlockId 1 [c6tx1], 1, [c6tx1]⟩

def c6tx2 : Transaction := ⟨"tx2", [⟨"tx1", 0⟩], [⟨"addr2", 60⟩, ⟨"addr3", 40⟩]⟩

def c6b2 : Block := ⟨Models.calculateBlockId 2 [c6tx2], 2, [c6tx2]⟩

/-- The Repo store after block 1: one block row, one transaction row, one
unspent 100-valued output for addr1, one balance row. -/
def c6db1 : Repo.DB :=
  ⟨[⟨c6b1.id, 1⟩], [⟨"tx1", c6b1.id, 1⟩],
   [⟨"tx1", 0, "addr1", 100, false, none⟩], [⟨"addr1", 100⟩]⟩

/-- The Models store after the same block 1. -/
def c6mdb1 : Models.DB :=
  ⟨[⟨c6b1.id, 1⟩], [⟨"tx1", c6b1.id, 1⟩],
   [⟨"tx1", 0, "addr1", 100, false, none, 1⟩], [⟨"addr1", 100, 1⟩]⟩

set_option maxRecDepth 100000 in
/-- C6: the failing input evaluated.  After the coinbase block, the store
holds tx1:0 as an existing unspent output, so the claim says block 2
(spending exactly that output) passes input resolution; the Models
implementation does resolve it against the store (valid, total 100) and
accepts the block, but the Repo processBlock rejects it with its
output-not-found validation error because its resolver only looks inside
the block being validated — contradicting the claim, the spec and the Repo
implementation's own API tests. -/
theorem C6_store_resolution :
    Repo.processBlock Repo.DB.empty c6b1 = .ok c6db1 ∧
    Repo.getOutput c6db1 "tx1" 0 = some ⟨"tx1", 0, "addr1", 100, false, none⟩ ∧
    Repo.processBlock c6db1 c6b2 = .error .outputNotFoundRef ∧
    Models.processBlock Models.DB.empty c6b1 = .ok c6mdb1 ∧
    Models.validateInputsExist c6mdb1 [⟨"tx1", 0⟩] = ⟨true, 100⟩ ∧
    (Models.processBlock c6mdb1 c6b2).isOk = true := by
  refine ⟨by decide, by decide, by decide, by decide, by decide, by decide⟩

/-! ## C7: intra-block chaining. -/

def c7tx2 : Transaction := ⟨"tx2", [⟨"tx1", 0⟩], [⟨"addr2", 60⟩, ⟨"addr3", 40⟩]⟩

/-- One block whose second transaction spends the first transaction's
output. -/
def c7chain : Block :=
  ⟨Models.calculateBlockId 1 [c6tx1, c7tx2], 1, [c6tx1, c7tx2]⟩

set_option maxRecDepth 100000 in
/-- C7 counterexample: the Models service rejects the intra-block chained
block with the InvalidInputs reason — validateInputsExist resolves inputs
only against outputs already persisted before the block. -/
theorem C7_counterexample :
    Models.processBlock Models.DB.empty c7chain =
      .error (.validation .INVALID_INPUTS) := by
  decide

/-- The Repo store after applying the chained block. -/
def c7db : Repo.DB :=
  ⟨[⟨c7chain.id, 1⟩],
   [⟨"tx1", c7chain.id, 1⟩, ⟨"tx2", c7chain.id, 1⟩],
   [⟨"tx1", 0, "addr1", 100, true, some 1⟩,
    ⟨"tx2", 0, "addr2", 60, false, none⟩,
    ⟨"tx2", 1, "addr3", 40, false, none⟩],
   [⟨"addr1", 0⟩, ⟨"addr2", 60⟩, ⟨"addr3", 40⟩]⟩

set_option maxRecDepth 100000 in
/-- C7 amended: the Repo implementation accepts the chained block and
applies it correctly — transactions processed in listed order, the output
created by tx1 visible to (and spent by) tx2, and the final balances
reflecting both the creation and the spend (and matching the unspent-sum
derivation); the Models implementation rejects such blocks (see the
counterexample). -/
theorem C7_intra_block_chaining :
    Repo.processBlock Repo.DB.empty c7chain = .ok c7db ∧
    Repo.getBalance c7db "addr1" = 0 ∧
    Repo.getBalance c7db "addr2" = 60 ∧
    Repo.getBalance c7db "addr3" = 40 ∧
    Repo.unspentSum c7db "addr1" = 0 ∧
    Repo.unspentSum c7db "addr2" = 60 ∧
    Repo.unspentSum c7db "addr3" = 40 := by
  refine ⟨by decide, by decide, by decide, by decide, by decide, by decide, by decide⟩

/-! ## C2: the balance-derivation invariant. -/

def c2b1 : Block :=
  ⟨Models.calculateBlockId 1 [⟨"tx1", [], [⟨"addr1", 10⟩]⟩], 1,
   [⟨"tx1", [], [⟨"addr1", 10⟩]⟩]⟩

/-- A transaction listing the same input twice: both references resolve to
the (still unspent) tx1:0 at validation time, so the resolved total is 20
and the block balances against its 20-valued output. -/
def c2dup : Transaction := ⟨"tx2", [⟨"tx1", 0⟩, ⟨"tx1", 0⟩], [⟨"addr2", 20⟩]⟩

def c2b2 : Block := ⟨Models.calculateBlockId 2 [c2dup], 2, [c2dup]⟩

set_option maxRecDepth 100000 in
/-- C2 at the failing input: both ProcessBlock calls complete in the
Models implementation, after which the stored balance of addr1 is -10
while the sum over its unspent outputs is 0 — the invariant the claim
asserts after every completed call is violated (the double-listed input
debits addr1 twice but removes only one 10-valued output). -/
theorem C2_invariant_at_failing_input :
    ((Models.processBlock Models.DB.empty c2b1).bind
        (fun d => Models.processBlock d c2b2)).map
      (fun d => (Models.getAddressBalance d "addr1", Models.unspentSum d "addr1",
                 Models.getAddressBalance d "addr2", Models.unspentSum d "addr2")) =
    .ok (-10, 0, 20, 20) := by
  decide

/-! ## C3: rollback is a true inverse (Models implementation).

The proof characterizes every state reachable by a chain of successful
processBlock calls from the empty store against canonical tables built
from the chain, and shows that blockRollbackToHeight maps the canonical
state of the chain to the canonical state of its prefix. -/

namespace Models

/-- Fold of BlockchainService.processBlock over a chain of blocks. -/
def processChain : DB → List Block → Except ProcessError DB
  | db, [] => .ok db
  | db, b :: bs => do processChain (← processBlock db b) bs

/-- The spec's at-most-once reference rule, per block: no output reference
is listed twice across the inputs of the block. -/
def dupFree (b : Block) : Prop :=
  (b.transactions.flatMap (·.inputs)).Nodup

/-- All transactions of a chain, in application order. -/
def chainTxs (bs : List Block) : List Transaction :=
  bs.flatMap (·.transactions)

def canonicalBlocks (bs : List Block) : List BlockRow :=
  bs.map (fun b => ⟨b.id, b.height⟩)

def canonicalTxs (bs : List Block) : List TxRow :=
  bs.flatMap (fun b => b.transactions.map (fun t => ⟨t.id, b.id, b.height⟩))

/-- The transaction of S (first in order, unique under validity) that
spends output (txId, idx). -/
def spenderIn (S : List Transaction) (txId : String) (idx : Nat) : Option String :=
  (S.find? (fun t => t.inputs.contains (⟨txId, idx⟩ : Input))).map (·.id)

/-- The stored row for output idx of transaction t, spent-state taken from
the spender set S. -/
def markRow (S : List Transaction) (height : Nat) (t : Transaction)
    (p : Nat × Output) : OutputRow :=
  match spenderIn S t.id p.1 with
  | some sid => ⟨t.id, p.1, p.2.address, p.2.value, true, some sid, height⟩
  | none => ⟨t.id, p.1, p.2.address, p.2.value, false, none, height⟩

/-- All output rows of the chain, in insertion order, marked by the
spender set S. -/
def outputsMarked (bs : List Block) (S : List Transaction) : List OutputRow :=
  bs.flatMap (fun b => b.transactions.flatMap (fun t =>
    t.outputs.enum.map (markRow S b.height t)))

def canonicalOutputs (bs : List Block) : List OutputRow :=
  outputsMarked bs (chainTxs bs)

/-- Balance value read from a row list (getAddressBalance on the rows). -/
def balVal (rows : List BalanceRow) (a : String) : Int :=
  match rows.find? (fun r => r.address == a) with
  | some r => r.balance
  | none => 0

/-- A row for the address exists. -/
def hasAddr (rows : List BalanceRow) (a : String) : Prop :=
  ∃ r ∈ rows, r.address = a

/-- The canonical balance of an address: the claim's derived sum over the
unspent canonical outputs. -/
def canonicalBal (bs : List Block) (a : String) : Int :=
  ((((canonicalOutputs bs).filter (fun r => !r.is_spent && r.address == a)).map
    (·.value)).sum : Nat)

theorem getAddressBalance_eq_balVal (db : DB) (a : String) :
    getAddressBalance db a = balVal db.address_balances a := rfl

/-- The row update applied by both balance writers. -/
def fupd (a : String) (δ : Int) (h : Nat) (r : BalanceRow) : BalanceRow :=
  if r.address == a then ⟨r.address, r.balance + δ, h⟩ else r

theorem fupd_address (a : String) (δ : Int) (h : Nat) (r : BalanceRow) :
    (fupd a δ h r).address = r.address := by
  unfold fupd
  split <;> rfl

theorem balVal_nil (x : String) : balVal [] x = 0 := rfl

theorem balVal_cons (r : BalanceRow) (rows : List BalanceRow) (x : String) :
    balVal (r :: rows) x = if r.address = x then r.balance else balVal rows x := by
  unfold balVal
  rcases hr : r.address == x
  · simp only [List.find?_cons, hr]
    rw [if_neg (by simpa using hr)]
  · simp only [List.find?_cons, hr]
    rw [if_pos (by simpa using hr)]

theorem hasAddr_cons (r : BalanceRow) (rows : List BalanceRow) (x : String) :
    hasAddr (r :: rows) x ↔ r.address = x ∨ hasAddr rows x := by
  unfold hasAddr
  constructor
  · rintro ⟨u, hu, hux⟩
    rcases List.mem_cons.mp hu with hu | hu
    · exact Or.inl (hu ▸ hux)
    · exact Or.inr ⟨u, hu, hux⟩
  · rintro (hr | ⟨u, hu, hux⟩)
    · exact ⟨r, List.mem_cons_self r rows, hr⟩
    · exact ⟨u, List.mem_cons_of_mem r hu, hux⟩

theorem updateBalanceRows_eq_map (rows : List BalanceRow) (a : String) (δ : Int)
    (h : Nat) : updateBalanceRows rows a δ h = rows.map (fupd a δ h) := by
  rfl

theorem balVal_map_other (rows : List BalanceRow) (a : String) (δ : Int) (h : Nat)
    (x : String) (hx : x ≠ a) :
    balVal (rows.map (fupd a δ h)) x = balVal rows x := by
  induction rows with
  | nil => rfl
  | cons r rest ih =>
    rw [List.map_cons, balVal_cons, balVal_cons, fupd_address]
    by_cases hrx : r.address = x
    · rw [if_pos hrx, if_pos hrx]
      have hna : r.address ≠ a := fun hcontra => hx (hrx ▸ hcontra)
      simp [fupd, hna]
    · rw [if_neg hrx, if_neg hrx]
      exact ih

theorem balVal_map_self (rows : List BalanceRow) (a : String) (δ : Int) (h : Nat)
    (ha : hasAddr rows a) :
    balVal (rows.map (fupd a δ h)) a = balVal rows a + δ := by
  induction rows with
  | nil => rcases ha with ⟨r, hr, _⟩; cases hr
  | cons r rest ih =>
    rw [List.map_cons, balVal_cons, balVal_cons, fupd_address]
    by_cases hra : r.address = a
    · rw [if_pos hra, if_pos hra]
      simp [fupd, hra]
    · rw [if_neg hra, if_neg hra]
      apply ih
      rcases (hasAddr_cons r rest a).mp ha with hc | hc
      · exact absurd hc hra
      · exact hc

theorem balVal_zero_of_miss (rows : List BalanceRow) (a : String)
    (ha : ¬hasAddr rows a) : balVal rows a = 0 := by
  unfold balVal
  rw [List.find?_eq_none.mpr]
  intro r hr
  simp only [beq_iff_eq]
  exact fun he => ha ⟨r, hr, he⟩

theorem balVal_append_miss (rows l2 : List BalanceRow) (x : String)
    (ha : ¬hasAddr rows x) : balVal (rows ++ l2) x = balVal l2 x := by
  induction rows with
  | nil => rfl
  | cons r rest ih =>
    rw [List.cons_append, balVal_cons]
    rw [if_neg (fun hc => ha ((hasAddr_cons r rest x).mpr (Or.inl hc)))]
    exact ih (fun hc => ha ((hasAddr_cons r rest x).mpr (Or.inr hc)))

theorem balVal_append_hit (rows l2 : List BalanceRow) (x : String)
    (ha : hasAddr rows x) : balVal (rows ++ l2) x = balVal rows x := by
  induction rows with
  | nil => rcases ha with ⟨r, hr, _⟩; cases hr
  | cons r rest ih =>
    rw [List.cons_append, balVal_cons, balVal_cons]
    by_cases hrx : r.address = x
    · rw [if_pos hrx, if_pos hrx]
    · rw [if_neg hrx, if_neg hrx]
      apply ih
      rcases (hasAddr_cons r rest x).mp ha with hc | hc
      · exact absurd hc hrx
      · exact hc

theorem balVal_upsert (rows : List BalanceRow) (a : String) (δ : Int) (h : Nat)
    (x : String) :
    balVal (upsertBalance rows a δ h) x =
      if x = a then balVal rows x + δ else balVal rows x := by
  unfold upsertBalance
  rcases he : rows.any (fun r => r.address == a)
  · have hnone : ¬hasAddr rows a := by
      rintro ⟨r, hr, hra⟩
      have := List.any_eq_false.mp he r hr
      simp [hra] at this
    simp only [Bool.false_eq_true, if_false]
    by_cases hx : x = a
    · subst hx
      rw [balVal_append_miss rows _ x hnone, balVal_cons, if_pos rfl,
        balVal_zero_of_miss rows x hnone]
      simp
    · rw [if_neg hx]
      by_cases hhx : hasAddr rows x
      · exact balVal_append_hit rows _ x hhx
      · rw [balVal_append_miss rows _ x hhx, balVal_cons,
          if_neg (fun hc : a = x => hx hc.symm), balVal_nil,
          balVal_zero_of_miss rows x hhx]
  · have hhas : hasAddr rows a := by
      rcases List.any_eq_true.mp he with ⟨r, hr, hra⟩
      exact ⟨r, hr, by simpa using hra⟩
    simp only [if_true]
    by_cases hx : x = a
    · subst hx
      rw [if_pos rfl]
      exact balVal_map_self rows x δ h hhas
    · rw [if_neg hx]
      exact balVal_map_other rows a δ h x hx

theorem balVal_update_other (rows : List BalanceRow) (a : String) (δ : Int)
    (h : Nat) (x : String) (hx : x ≠ a) :
    balVal (updateBalanceRows rows a δ h) x = balVal rows x := by
  rw [updateBalanceRows_eq_map]
  exact balVal_map_other rows a δ h x hx

theorem balVal_update_self (rows : List BalanceRow) (a : String) (δ : Int)
    (h : Nat) (ha : hasAddr rows a) :
    balVal (updateBalanceRows rows a δ h) a = balVal rows a + δ := by
  rw [updateBalanceRows_eq_map]
  exact balVal_map_self rows a δ h ha

theorem hasAddr_map_fupd (rows : List BalanceRow) (a : String) (δ : Int) (h : Nat)
    (x : String) : hasAddr (rows.map (fupd a δ h)) x ↔ hasAddr rows x := by
  constructor
  · rintro ⟨r, hr, hra⟩
    rcases List.mem_map.mp hr with ⟨u, hu, hur⟩
    exact ⟨u, hu, by rw [← hra, ← hur, fupd_address]⟩
  · rintro ⟨r, hr, hra⟩
    exact ⟨fupd a δ h r, List.mem_map_of_mem _ hr, by rw [fupd_address, hra]⟩

theorem hasAddr_update (rows : List BalanceRow) (a : String) (δ : Int) (h : Nat)
    (x : String) : hasAddr (updateBalanceRows rows a δ h) x ↔ hasAddr rows x := by
  rw [updateBalanceRows_eq_map]
  exact hasAddr_map_fupd rows a δ h x

theorem hasAddr_upsert (rows : List BalanceRow) (a : String) (δ : Int) (h : Nat)
    (x : String) :
    hasAddr (upsertBalance rows a δ h) x ↔ hasAddr rows x ∨ x = a := by
  unfold upsertBalance
  rcases he : rows.any (fun r => r.address == a)
  · simp only [Bool.false_eq_true, if_false]
    constructor
    · rintro ⟨r, hr, hra⟩
      rcases List.mem_append.mp hr with hr | hr
      · exact Or.inl ⟨r, hr, hra⟩
      · simp only [List.mem_singleton] at hr
        subst hr
        exact Or.inr hra.symm
    · rintro (⟨r, hr, hra⟩ | hx)
      · exact ⟨r, List.mem_append_left _ hr, hra⟩
      · exact ⟨⟨a, δ, h⟩, List.mem_append_right _ (by simp), hx.symm⟩
  · simp only [if_true]
    have hmap : hasAddr (rows.map (fun r =>
        if r.address == a then
          { r with balance := r.balance + δ, last_updated_height := h }
        else r)) x ↔ hasAddr rows x := hasAddr_map_fupd rows a δ h x
    rw [hmap]
    constructor
    · exact Or.inl
    · rintro (hx | hx)
      · exact hx
      · subst hx
        rcases List.any_eq_true.mp he with ⟨r, hr, hra⟩
        exact ⟨r, hr, by simpa using hra⟩

end Models

namespace Models

/-! ### Output-table machinery for the chain characterization. -/

/-- The fresh rows insertWithClient appends for one transaction. -/
def txRows (h : Nat) (t : Transaction) : List OutputRow :=
  t.outputs.enum.map (fun p => ⟨t.id, p.1, p.2.address, p.2.value, false, none, h⟩)

/-- All fresh rows of a block, in insertion order. -/
def blockNewRows (b : Block) : List OutputRow :=
  b.transactions.flatMap (fun t => txRows b.height t)

/-- The (spending transaction id, reference) pairs of a block, in
processing order. -/
def refPairs (b : Block) : List (String × Input) :=
  b.transactions.flatMap (fun t => t.inputs.map (fun i => (t.id, i)))

/-- Does row r hold the output referenced by i. -/
def keyMatch (i : Input) (r : OutputRow) : Bool :=
  r.transaction_id == i.txId && r.output_index == i.index

/-- The in-place effect of the UPDATE fired for one input. -/
def mark1 (txid : String) (i : Input) (r : OutputRow) : OutputRow :=
  if keyMatch i r then
    { r with is_spent := true, spent_in_transaction_id := some txid }
  else r

def markOne (txid : String) (i : Input) (rows : List OutputRow) : List OutputRow :=
  rows.map (mark1 txid i)

/-- The combined effect on one row of all UPDATEs of a block. -/
def markFn (ps : List (String × Input)) (r : OutputRow) : OutputRow :=
  ps.foldl (fun r p => mark1 p.1 p.2 r) r

def markAll (ps : List (String × Input)) (rows : List OutputRow) : List OutputRow :=
  ps.foldl (fun rs p => markOne p.1 p.2 rs) rows

theorem markAll_map (ps : List (String × Input)) (rows : List OutputRow) :
    markAll ps rows = rows.map (markFn ps) := by
  induction ps generalizing rows with
  | nil =>
    unfold markAll markFn
    simp
  | cons p ps ih =>
    unfold markAll markOne at ih ⊢
    simp only [List.foldl_cons]
    rw [ih, List.map_map]
    rfl

theorem mark1_keys (txid : String) (i : Input) (r : OutputRow) :
    (mark1 txid i r).transaction_id = r.transaction_id ∧
    (mark1 txid i r).output_index = r.output_index ∧
    (mark1 txid i r).address = r.address ∧
    (mark1 txid i r).value = r.value ∧
    (mark1 txid i r).block_height = r.block_height := by
  unfold mark1
  split <;> exact ⟨rfl, rfl, rfl, rfl, rfl⟩

theorem markFn_keys (ps : List (String × Input)) (r : OutputRow) :
    (markFn ps r).transaction_id = r.transaction_id ∧
    (markFn ps r).output_index = r.output_index ∧
    (markFn ps r).address = r.address ∧
    (markFn ps r).value = r.value ∧
    (markFn ps r).block_height = r.block_height := by
  induction ps generalizing r with
  | nil => exact ⟨rfl, rfl, rfl, rfl, rfl⟩
  | cons p ps ih =>
    unfold markFn at ih ⊢
    rw [List.foldl_cons]
    have hr := ih (mark1 p.1 p.2 r)
    have hm := mark1_keys p.1 p.2 r
    exact ⟨hr.1.trans hm.1, hr.2.1.trans hm.2.1, hr.2.2.1.trans hm.2.2.1,
      hr.2.2.2.1.trans hm.2.2.2.1, hr.2.2.2.2.trans hm.2.2.2.2⟩

theorem markFn_no_match (ps : List (String × Input)) (r : OutputRow)
    (h : ∀ p ∈ ps, keyMatch p.2 r = false) : markFn ps r = r := by
  induction ps with
  | nil => rfl
  | cons p ps ih =>
    unfold markFn at ih ⊢
    rw [List.foldl_cons]
    rw [show mark1 p.1 p.2 r = r by
      unfold mark1
      rw [if_neg (by simp [h p (List.mem_cons_self p ps)])]]
    exact ih (fun q hq => h q (List.mem_cons_of_mem p hq))

theorem markFn_fixed (ps : List (String × Input)) (r : OutputRow)
    (h : ∀ p ∈ ps, mark1 p.1 p.2 r = r) : markFn ps r = r := by
  induction ps with
  | nil => rfl
  | cons p ps ih =>
    unfold markFn at ih ⊢
    rw [List.foldl_cons, h p (List.mem_cons_self p ps)]
    exact ih (fun q hq => h q (List.mem_cons_of_mem p hq))

theorem markFn_single (ps : List (String × Input)) (r : OutputRow)
    (txid : String) (i : Input) (hmem : (txid, i) ∈ ps)
    (hmatch : keyMatch i r = true)
    (huniq : ∀ p ∈ ps, keyMatch p.2 r = true → p = (txid, i)) :
    markFn ps r =
      { r with is_spent := true, spent_in_transaction_id := some txid } := by
  induction ps with
  | nil => cases hmem
  | cons p ps ih =>
    unfold markFn at ih ⊢
    rw [List.foldl_cons]
    by_cases hp : p = (txid, i)
    · have h1 : mark1 p.1 p.2 r =
          { r with is_spent := true, spent_in_transaction_id := some txid } := by
        rw [hp]
        unfold mark1
        rw [if_pos hmatch]
      rw [h1]
      apply markFn_fixed
      intro q hq
      unfold mark1
      by_cases hqm : keyMatch q.2
          { r with is_spent := true, spent_in_transaction_id := some txid } = true
      · have hqr : keyMatch q.2 r = true := by
          unfold keyMatch at hqm ⊢
          exact hqm
        have hqe := huniq q (List.mem_cons_of_mem _ hq) hqr
        rw [if_pos hqm, hqe]
      · rw [if_neg hqm]
    · have hpm : keyMatch p.2 r = false := by
        rcases hk : keyMatch p.2 r
        · rfl
        · exact absurd (huniq p (List.mem_cons_self p ps) hk) hp
      rw [show mark1 p.1 p.2 r = r by
        unfold mark1
        rw [if_neg (by simp [hpm])]]
      rcases List.mem_cons.mp hmem with hm | hm
      · exact absurd hm.symm hp
      · exact ih hm (fun q hq hqk => huniq q (List.mem_cons_of_mem p hq) hqk)

theorem findOutput_rows (db : DB) (txId : String) (idx : Nat) :
    findOutput db txId idx =
      db.outputs.find? (fun r => r.transaction_id == txId && r.output_index == idx) := rfl

theorem find?_map_keys (rows : List OutputRow) (f : OutputRow → OutputRow)
    (hf : ∀ r, (f r).transaction_id = r.transaction_id ∧
      (f r).output_index = r.output_index)
    (txId : String) (idx : Nat) :
    (rows.map f).find? (fun r => r.transaction_id == txId && r.output_index == idx) =
      (rows.find? (fun r => r.transaction_id == txId && r.output_index == idx)).map f := by
  induction rows with
  | nil => rfl
  | cons r rest ih =>
    simp only [List.map_cons, List.find?_cons]
    rw [(hf r).1, (hf r).2]
    rcases hk : (r.transaction_id == txId && r.output_index == idx)
    · exact ih
    · rfl

theorem spenderIn_append (S1 S2 : List Transaction) (txId : String) (idx : Nat) :
    spenderIn (S1 ++ S2) txId idx =
      (spenderIn S1 txId idx).or (spenderIn S2 txId idx) := by
  have hmo : ∀ (o1 o2 : Option Transaction) (f : Transaction → String),
      (o1.or o2).map f = (o1.map f).or (o2.map f) := by
    intro o1 o2 f
    cases o1 <;> rfl
  unfold spenderIn
  rw [List.find?_append]
  exact hmo _ _ _

theorem spenderIn_none (S : List Transaction) (txId : String) (idx : Nat)
    (h : ∀ t ∈ S, (⟨txId, idx⟩ : Input) ∉ t.inputs) :
    spenderIn S txId idx = none := by
  unfold spenderIn
  rw [List.find?_eq_none.mpr]
  · rfl
  · intro t ht
    simpa using h t ht

/-- validateInputsExist semantics: a valid report means every input finds
an unspent stored row. -/
theorem validateInputsExistGo_valid (db : DB) (inputs : List Input) (acc : Nat)
    (h : (validateInputsExistGo db inputs acc).isValid = true) :
    ∀ i ∈ inputs, ∃ r, findOutput db i.txId i.index = some r ∧ r.is_spent = false := by
  induction inputs generalizing acc with
  | nil => intro i hi; cases hi
  | cons i rest ih =>
    intro j hj
    unfold validateInputsExistGo at h
    rcases hf : findOutput db i.txId i.index with _ | r
    · simp only [hf] at h
      cases h
    · simp only [hf] at h
      rcases hs : r.is_spent
      · rw [hs] at h
        simp only [Bool.false_eq_true, if_false] at h
        rcases List.mem_cons.mp hj with hji | hji
        · subst hji
          exact ⟨r, hf, hs⟩
        · exact ih (acc + r.value) h j hji
      · rw [hs] at h
        simp at h

/-- Balance contribution of a transaction's new outputs to one address. -/
def outDelta (t : Transaction) (a : String) : Int :=
  ((t.outputs.filter (fun o => o.address == a)).map (fun o => (o.value : Int))).sum

/-- The stored rows a transaction's inputs resolve to (against a fixed
output table). -/
def resolvedRows (rows : List OutputRow) (inputs : List Input) : List OutputRow :=
  inputs.filterMap (fun i =>
    rows.find? (fun r => r.transaction_id == i.txId && r.output_index == i.index))

/-- Balance contribution removed by a transaction's inputs at one address. -/
def inDelta (rows : List OutputRow) (inputs : List Input) (a : String) : Int :=
  (((resolvedRows rows inputs).filter (fun r => r.address == a)).map
    (fun r => (r.value : Int))).sum

/-- The rows the outputs loop appends when starting at index idx. -/
def txRowsFrom (txid : String) (h : Nat) (idx : Nat) (outs : List Output) :
    List OutputRow :=
  (outs.enumFrom idx).map (fun p => ⟨txid, p.1, p.2.address, p.2.value, false, none, h⟩)

theorem txRows_eq_from (h : Nat) (t : Transaction) :
    txRows h t = txRowsFrom t.id h 0 t.outputs := rfl

/-- The outputs loop of insertWithClient: on success it appends the fresh
rows and credits each receiving address. -/
theorem applyOutputsGo_ok (txid : String) (h : Nat) :
    ∀ (outs : List Output) (idx : Nat) (st st2 : DB),
    applyOutputsGo txid h outs idx st = .ok st2 →
    st2.blocks = st.blocks ∧
    st2.transactions = st.transactions ∧
    st2.outputs = st.outputs ++ txRowsFrom txid h idx outs ∧
    (∀ a, balVal st2.address_balances a = balVal st.address_balances a +
      ((outs.filter (fun o => o.address == a)).map (fun o => (o.value : Int))).sum) ∧
    (∀ x, hasAddr st.address_balances x → hasAddr st2.address_balances x) ∧
    (∀ o ∈ outs, hasAddr st2.address_balances o.address) := by
  intro outs
  induction outs with
  | nil =>
    intro idx st st2 hok
    unfold applyOutputsGo at hok
    cases hok
    refine ⟨rfl, rfl, by simp [txRowsFrom, List.enumFrom], fun a => by simp,
      fun x hx => hx, fun o ho => absurd ho (List.not_mem_nil o)⟩
  | cons o rest ih =>
    intro idx st st2 hok
    unfold applyOutputsGo at hok
    rcases hin : insertOutputRow st ⟨txid, idx, o.address, o.value, false, none, h⟩
        with e | st1
    · rw [hin] at hok
      cases hok
    · rw [hin] at hok
      replace hok : applyOutputsGo txid h rest (idx + 1)
          { st1 with address_balances :=
              upsertBalance st1.address_balances o.address (o.value : Int) h } =
            .ok st2 := hok
      have hst1 : st1 = { st with outputs :=
          st.outputs ++ [⟨txid, idx, o.address, o.value, false, none, h⟩] } := by
        unfold insertOutputRow at hin
        rcases hdup : st.outputs.any (fun r =>
            r.transaction_id == txid && r.output_index == idx)
        · rw [hdup] at hin
          simp only [Bool.false_eq_true, if_false] at hin
          exact (Except.ok.inj hin).symm
        · rw [hdup] at hin
          simp at hin
      obtain ⟨hb, ht, ho, hbal, hmono, hcov⟩ := ih (idx + 1) _ st2 hok
      subst hst1
      refine ⟨hb, ht, ?_, ?_, ?_, ?_⟩
      · rw [ho]
        simp only [txRowsFrom]
        rw [show (o :: rest).enumFrom idx = (idx, o) :: rest.enumFrom (idx + 1) from rfl]
        simp
      · intro a
        rw [hbal a]
        simp only []
        rw [balVal_upsert]
        by_cases ha : a = o.address
        · rw [if_pos ha, List.filter_cons, if_pos (by simp [ha])]
          simp only [List.map_cons, List.sum_cons]
          ring
        · rw [if_neg ha, List.filter_cons,
            if_neg (by simp only [beq_iff_eq]; exact fun hc => ha hc.symm)]
      · intro x hx
        apply hmono
        simp only []
        rw [show hasAddr (upsertBalance st.address_balances o.address (o.value : Int) h) x ↔
            hasAddr st.address_balances x ∨ x = o.address from
          hasAddr_upsert st.address_balances o.address (o.value : Int) h x]
        exact Or.inl hx
      · intro u hu
        rcases List.mem_cons.mp hu with hu | hu
        · subst hu
          apply hmono
          simp only []
          rw [show hasAddr (upsertBalance st.address_balances u.address (u.value : Int) h)
              u.address ↔ hasAddr st.address_balances u.address ∨ u.address = u.address from
            hasAddr_upsert st.address_balances u.address (u.value : Int) h u.address]
          exact Or.inr rfl
        · exact hcov u hu

theorem resolvedRows_map (rows : List OutputRow) (f : OutputRow → OutputRow)
    (hf : ∀ r, (f r).transaction_id = r.transaction_id ∧
      (f r).output_index = r.output_index) (inputs : List Input) :
    resolvedRows (rows.map f) inputs = (resolvedRows rows inputs).map f := by
  unfold resolvedRows
  induction inputs with
  | nil => rfl
  | cons i rest ih =>
    simp only [List.filterMap_cons]
    rw [find?_map_keys rows f hf i.txId i.index]
    rcases hfd : rows.find? (fun r => r.transaction_id == i.txId && r.output_index == i.index)
        with _ | r
    · rw [hfd]
      exact ih
    · rw [hfd]
      exact congrArg (List.cons (f r)) ih

theorem inDelta_map (rows : List OutputRow) (f : OutputRow → OutputRow)
    (hf : ∀ r, (f r).transaction_id = r.transaction_id ∧
      (f r).output_index = r.output_index)
    (hav : ∀ r, (f r).address = r.address ∧ (f r).value = r.value)
    (inputs : List Input) (a : String) :
    inDelta (rows.map f) inputs a = inDelta rows inputs a := by
  unfold inDelta
  rw [resolvedRows_map rows f hf inputs]
  induction resolvedRows rows inputs with
  | nil => rfl
  | cons r rest ih =>
    simp only [List.map_cons, List.filter_cons, (hav r).1]
    rcases hra : (r.address == a)
    · simpa using ih
    · simp only [if_true]
      simp only [List.map_cons, List.sum_cons, (hav r).2]
      rw [ih]

/-- The inputs loop of insertWithClient: all referenced rows get marked
spent-by-txid and each referenced address is debited by the referenced
value (the snapshot of the resolved rows is taken against the incoming
table; marking preserves keys, addresses and values). -/
theorem applyInputs_fold (txid : String) (h : Nat) :
    ∀ (inputs : List Input) (st : DB),
    (∀ i ∈ inputs, ∃ r, findOutput st i.txId i.index = some r) →
    (inputs.foldl (fun d i => applyInput d txid h i) st).blocks = st.blocks ∧
    (inputs.foldl (fun d i => applyInput d txid h i) st).transactions = st.transactions ∧
    (inputs.foldl (fun d i => applyInput d txid h i) st).outputs =
      markAll (inputs.map (fun i => (txid, i))) st.outputs ∧
    (∀ a, balVal (inputs.foldl (fun d i => applyInput d txid h i) st).address_balances a =
      balVal st.address_balances a - inDelta st.outputs inputs a) ∧
    (∀ x, hasAddr st.address_balances x →
      hasAddr (inputs.foldl (fun d i => applyInput d txid h i) st).address_balances x) := by
  intro inputs
  induction inputs with
  | nil =>
    intro st hres
    refine ⟨rfl, rfl, rfl, fun a => ?_, fun x hx => hx⟩
    simp [inDelta, resolvedRows]
  | cons i rest ih =>
    intro st hres
    obtain ⟨r, hfind⟩ := hres i (List.mem_cons_self i rest)
    have hm1 : ∀ u, (mark1 txid i u).transaction_id = u.transaction_id ∧
        (mark1 txid i u).output_index = u.output_index :=
      fun u => ⟨(mark1_keys txid i u).1, (mark1_keys txid i u).2.1⟩
    have hstep : applyInput st txid h i =
        { st with
          outputs := markOne txid i st.outputs,
          address_balances :=
            upsertBalance st.address_balances r.address (-(r.value : Int)) h } := by
      unfold applyInput
      have hfind2 : findOutput { st with outputs := st.outputs.map (mark1 txid i) }
          i.txId i.index = some (mark1 txid i r) := by
        unfold findOutput
        simp only []
        rw [find?_map_keys st.outputs (mark1 txid i) hm1 i.txId i.index]
        rw [show st.outputs.find? (fun u => u.transaction_id == i.txId &&
            u.output_index == i.index) = some r from hfind]
        rfl
      rw [show ({ st with outputs := st.outputs.map (fun u =>
          if u.transaction_id == i.txId && u.output_index == i.index then
            { u with is_spent := true, spent_in_transaction_id := some txid }
          else u) } : DB) =
          { st with outputs := st.outputs.map (mark1 txid i) } from rfl]
      simp only [hfind2]
      rw [(mark1_keys txid i r).2.2.1, (mark1_keys txid i r).2.2.2.1]
      rfl
    rw [List.foldl_cons, hstep]
    have hres2 : ∀ j ∈ rest, ∃ u, findOutput
        { st with
          outputs := markOne txid i st.outputs,
          address_balances :=
            upsertBalance st.address_balances r.address (-(r.value : Int)) h }
        j.txId j.index = some u := by
      intro j hj
      obtain ⟨u, hu⟩ := hres j (List.mem_cons_of_mem i hj)
      refine ⟨mark1 txid i u, ?_⟩
      unfold findOutput markOne
      simp only []
      rw [find?_map_keys st.outputs (mark1 txid i) hm1 j.txId j.index]
      rw [show st.outputs.find? (fun v => v.transaction_id == j.txId &&
          v.output_index == j.index) = some u from hu]
      rfl
    obtain ⟨hb, ht, ho, hbal, hmono⟩ := ih _ hres2
    refine ⟨hb, ht, ?_, ?_, ?_⟩
    · rw [ho]
      rfl
    · intro a
      rw [hbal a]
      simp only []
      rw [balVal_upsert]
      have hmav : ∀ u, (mark1 txid i u).address = u.address ∧
          (mark1 txid i u).value = u.value :=
        fun u => ⟨(mark1_keys txid i u).2.2.1, (mark1_keys txid i u).2.2.2.1⟩
      rw [show inDelta (markOne txid i st.outputs) rest a =
          inDelta st.outputs rest a from inDelta_map st.outputs (mark1 txid i) hm1 hmav rest a]
      rw [show inDelta st.outputs (i :: rest) a =
          (if r.address = a then (r.value : Int) else 0) + inDelta st.outputs rest a from ?_]
      · by_cases hra : a = r.address
        · rw [if_pos hra, if_pos hra.symm]
          ring
        · rw [if_neg hra, if_neg (fun hc => hra hc.symm)]
          ring
      · unfold inDelta resolvedRows
        simp only [List.filterMap_cons]
        rw [show st.outputs.find? (fun u => u.transaction_id == i.txId &&
            u.output_index == i.index) = some r from hfind]
        rw [List.filter_cons]
        by_cases hra : r.address = a
        · rw [if_pos (by simpa using hra), if_pos hra]
          simp
        · rw [if_neg (by simpa using hra), if_neg hra]
          simp
    · intro x hx
      apply hmono
      simp only []
      rw [show hasAddr (upsertBalance st.address_balances r.address (-(r.value : Int)) h) x ↔
          hasAddr st.address_balances x ∨ x = r.address from
        hasAddr_upsert st.address_balances r.address (-(r.value : Int)) h x]
      exact Or.inl hx

/-- insertWithClient on success: appends the transaction row, marks the
referenced rows spent, appends the fresh output rows, and moves each
address balance by the transaction's net effect; the transaction id is
fresh. -/
theorem insertWithClient_ok (db : DB) (t : Transaction) (b : Block) (db2 : DB)
    (hok : insertWithClient db t b = .ok db2)
    (hres : ∀ i ∈ t.inputs, ∃ r, findOutput db i.txId i.index = some r) :
    db2.blocks = db.blocks ∧
    db2.transactions = db.transactions ++ [⟨t.id, b.id, b.height⟩] ∧
    db2.outputs =
      markAll (t.inputs.map (fun i => (t.id, i))) db.outputs ++ txRows b.height t ∧
    (∀ a, balVal db2.address_balances a = balVal db.address_balances a
        + outDelta t a - inDelta db.outputs t.inputs a) ∧
    (∀ x, hasAddr db.address_balances x → hasAddr db2.address_balances x) ∧
    (∀ o ∈ t.outputs, hasAddr db2.address_balances o.address) ∧
    (∀ u ∈ db.transactions, u.id ≠ t.id) := by
  unfold insertWithClient at hok
  rcases hex : db.transactions.any (fun r => r.id == t.id)
  · rw [hex] at hok
    simp only [Bool.false_eq_true, if_false] at hok
    replace hok : applyOutputsGo t.id b.height t.outputs 0
        (t.inputs.foldl (fun d i => applyInput d t.id b.height i)
          { db with transactions := db.transactions ++ [⟨t.id, b.id, b.height⟩] }) =
        .ok db2 := hok
    have hres1 : ∀ i ∈ t.inputs, ∃ r, findOutput
        { db with transactions := db.transactions ++ [⟨t.id, b.id, b.height⟩] }
        i.txId i.index = some r := hres
    obtain ⟨ab, at_, ao, abal, amono⟩ :=
      applyInputs_fold t.id b.height t.inputs
        { db with transactions := db.transactions ++ [⟨t.id, b.id, b.height⟩] } hres1
    obtain ⟨bb, bt, bo, bbal, bmono, bcov⟩ :=
      applyOutputsGo_ok t.id b.height t.outputs 0 _ db2 hok
    refine ⟨?_, ?_, ?_, ?_, ?_, ?_, ?_⟩
    · rw [bb, ab]
    · rw [bt, at_]
    · rw [bo, ao, ← txRows_eq_from]
    · intro a
      rw [bbal a, abal a]
      rw [show outDelta t a =
          ((t.outputs.filter (fun o => o.address == a)).map (fun o => (o.value : Int))).sum
        from rfl]
      ring
    · intro x hx
      exact bmono x (amono x hx)
    · exact bcov
    · intro u hu
      have := List.any_eq_false.mp hex u hu
      simpa using this
  · rw [hex] at hok
    simp at hok

theorem markAll_append_rows (ps : List (String × Input)) (l1 l2 : List OutputRow) :
    markAll ps (l1 ++ l2) = markAll ps l1 ++ markAll ps l2 := by
  rw [markAll_map, markAll_map, markAll_map, List.map_append]

theorem markAll_append_pairs (ps1 ps2 : List (String × Input)) (rows : List OutputRow) :
    markAll (ps1 ++ ps2) rows = markAll ps2 (markAll ps1 rows) := by
  unfold markAll
  rw [List.foldl_append]

theorem markAll_no_match (ps : List (String × Input)) (rows : List OutputRow)
    (h : ∀ p ∈ ps, ∀ r ∈ rows, keyMatch p.2 r = false) :
    markAll ps rows = rows := by
  rw [markAll_map]
  induction rows with
  | nil => rfl
  | cons r rest ih =>
    rw [List.map_cons, markFn_no_match ps r (fun p hp => h p hp r (List.mem_cons_self r rest))]
    rw [ih (fun p hp u hu => h p hp u (List.mem_cons_of_mem r hu))]

theorem resolvedRows_append_left (rows1 rows2 : List OutputRow) (inputs : List Input)
    (h : ∀ i ∈ inputs, ∃ r, rows1.find? (fun u =>
      u.transaction_id == i.txId && u.output_index == i.index) = some r) :
    resolvedRows (rows1 ++ rows2) inputs = resolvedRows rows1 inputs := by
  unfold resolvedRows
  induction inputs with
  | nil => rfl
  | cons i rest ih =>
    simp only [List.filterMap_cons]
    obtain ⟨r, hr⟩ := h i (List.mem_cons_self i rest)
    rw [List.find?_append, hr, ih (fun j hj => h j (List.mem_cons_of_mem i hj))]
    rfl

theorem inDelta_append_left (rows1 rows2 : List OutputRow) (inputs : List Input)
    (a : String)
    (h : ∀ i ∈ inputs, ∃ r, rows1.find? (fun u =>
      u.transaction_id == i.txId && u.output_index == i.index) = some r) :
    inDelta (rows1 ++ rows2) inputs a = inDelta rows1 inputs a := by
  unfold inDelta
  rw [resolvedRows_append_left rows1 rows2 inputs h]

theorem txRows_txid (h : Nat) (t : Transaction) :
    ∀ r ∈ txRows h t, r.transaction_id = t.id := by
  intro r hr
  unfold txRows at hr
  rcases List.mem_map.mp hr with ⟨p, _, hp⟩
  rw [← hp]

/-- The transactions loop of BlockModel.insert, characterized against the
incoming state: the new transaction rows and fresh outputs are appended,
every reference of the block is marked, and each balance moves by the
block's net effect.  Also extracts freshness of the block's transaction
ids. -/
theorem insertTxsGo_ok (b : Block) : ∀ (txs : List Transaction) (db db2 : DB),
    insertTxsGo b txs db = .ok db2 →
    (∀ r ∈ db.outputs, ∃ u ∈ db.transactions, u.id = r.transaction_id) →
    (∀ t ∈ txs, ∀ i ∈ t.inputs, ∃ r, findOutput db i.txId i.index = some r) →
    db2.blocks = db.blocks ∧
    db2.transactions =
      db.transactions ++ txs.map (fun t => (⟨t.id, b.id, b.height⟩ : TxRow)) ∧
    db2.outputs =
      markAll (txs.flatMap (fun t => t.inputs.map (fun i => (t.id, i)))) db.outputs ++
        txs.flatMap (fun t => txRows b.height t) ∧
    (∀ a, balVal db2.address_balances a = balVal db.address_balances a
        + (txs.map (fun t => outDelta t a)).sum
        - (txs.map (fun t => inDelta db.outputs t.inputs a)).sum) ∧
    (∀ x, hasAddr db.address_balances x → hasAddr db2.address_balances x) ∧
    (∀ t ∈ txs, ∀ o ∈ t.outputs, hasAddr db2.address_balances o.address) ∧
    (∀ t ∈ txs, ∀ u ∈ db.transactions, u.id ≠ t.id) ∧
    (txs.map (·.id)).Nodup := by
  intro txs
  induction txs with
  | nil =>
    intro db db2 hok hclosed hres
    unfold insertTxsGo at hok
    cases hok
    refine ⟨rfl, by simp, by simp [markAll], fun a => by simp, fun x hx => hx,
      fun t ht => absurd ht (List.not_mem_nil t),
      fun t ht => absurd ht (List.not_mem_nil t), List.nodup_nil⟩
  | cons t rest ih =>
    intro db db2 hok hclosed hres
    unfold insertTxsGo at hok
    rcases hmid : insertWithClient db t b with e | dmid
    · rw [hmid] at hok
      cases hok
    · rw [hmid] at hok
      replace hok : insertTxsGo b rest dmid = .ok db2 := hok
      have hrest : ∀ i ∈ t.inputs, ∃ r, findOutput db i.txId i.index = some r :=
        hres t (List.mem_cons_self t rest)
      obtain ⟨ab, at_, ao, abal, amono, acov, afresh⟩ :=
        insertWithClient_ok db t b dmid hmid hrest
      have hkeys : ∀ r, (markFn (t.inputs.map (fun i => (t.id, i))) r).transaction_id =
          r.transaction_id ∧
          (markFn (t.inputs.map (fun i => (t.id, i))) r).output_index = r.output_index :=
        fun r => ⟨(markFn_keys _ r).1, (markFn_keys _ r).2.1⟩
      -- resolution against the original table transfers to dmid
      have hfinddmid : ∀ (i : Input) (r0 : OutputRow),
          findOutput db i.txId i.index = some r0 →
          findOutput dmid i.txId i.index =
            some (markFn (t.inputs.map (fun i => (t.id, i))) r0) := by
        intro i r0 hr0
        unfold findOutput at hr0 ⊢
        rw [ao, List.find?_append, markAll_map,
          find?_map_keys db.outputs _ hkeys i.txId i.index, hr0]
        rfl
      have hres2 : ∀ u ∈ rest, ∀ i ∈ u.inputs, ∃ r,
          findOutput dmid i.txId i.index = some r := by
        intro u hu i hi
        obtain ⟨r0, hr0⟩ := hres u (List.mem_cons_of_mem t hu) i hi
        exact ⟨_, hfinddmid i r0 hr0⟩
      have hclosed2 : ∀ r ∈ dmid.outputs, ∃ u ∈ dmid.transactions,
          u.id = r.transaction_id := by
        intro r hr
        rw [ao] at hr
        rcases List.mem_append.mp hr with hr | hr
        · rw [markAll_map] at hr
          rcases List.mem_map.mp hr with ⟨r0, hr0, hrr⟩
          obtain ⟨u, hu, huid⟩ := hclosed r0 hr0
          refine ⟨u, ?_, ?_⟩
          · rw [at_]
            exact List.mem_append_left _ hu
          · rw [← hrr, (hkeys r0).1, huid]
        · refine ⟨⟨t.id, b.id, b.height⟩, ?_, ?_⟩
          · rw [at_]
            exact List.mem_append_right _ (by simp)
          · exact (txRows_txid b.height t r hr).symm
      obtain ⟨bb, bt, bo, bbal, bmono, bcov, bfresh, bnodup⟩ :=
        ih dmid db2 hok hclosed2 hres2
      -- references of later transactions never hit the fresh rows of t
      have hnomatch : ∀ p ∈ rest.flatMap (fun u => u.inputs.map (fun i => (u.id, i))),
          ∀ r ∈ txRows b.height t, keyMatch p.2 r = false := by
        intro p hp r hr
        rcases List.mem_flatMap.mp hp with ⟨u, hu, hpu⟩
        rcases List.mem_map.mp hpu with ⟨i, hi, hip⟩
        obtain ⟨r0, hr0⟩ := hres u (List.mem_cons_of_mem t hu) i hi
        have hr0mem := List.mem_of_find?_eq_some hr0
        have hr0p := List.find?_some hr0
        have htxid : r0.transaction_id = i.txId := by
          have := (Bool.and_eq_true _ _).mp hr0p
          simpa using this.1
        obtain ⟨w, hw, hwid⟩ := hclosed r0 hr0mem
        have hne : i.txId ≠ t.id := by
          rw [← htxid, ← hwid]
          exact afresh w hw
        rw [← hip]
        unfold keyMatch
        rw [txRows_txid b.height t r hr]
        rw [show (t.id == i.txId) = false from
          beq_eq_false_iff_ne.mpr (fun hc => hne hc.symm), Bool.false_and]
      refine ⟨?_, ?_, ?_, ?_, ?_, ?_, ?_, ?_⟩
      · rw [bb, ab]
      · rw [bt, at_, List.append_assoc]
        rfl
      · rw [bo, ao, markAll_append_rows,
          markAll_no_match _ _ hnomatch,
          ← markAll_append_pairs, List.append_assoc]
        rfl
      · intro a
        have hindelta : ∀ u ∈ rest, inDelta dmid.outputs u.inputs a =
            inDelta db.outputs u.inputs a := by
          intro u hu
          rw [ao]
          rw [inDelta_append_left _ _ _ _ (fun i hi => by
            obtain ⟨r0, hr0⟩ := hres u (List.mem_cons_of_mem t hu) i hi
            refine ⟨markFn (t.inputs.map (fun j => (t.id, j))) r0, ?_⟩
            rw [markAll_map, find?_map_keys db.outputs _ hkeys i.txId i.index,
              show db.outputs.find? (fun v => v.transaction_id == i.txId &&
                v.output_index == i.index) = some r0 from hr0]
            rfl)]
          rw [markAll_map]
          exact inDelta_map db.outputs _ hkeys
            (fun r => ⟨(markFn_keys _ r).2.2.1, (markFn_keys _ r).2.2.2.1⟩) u.inputs a
        rw [bbal a, abal a]
        rw [List.map_congr_left hindelta]
        simp only [List.map_cons, List.sum_cons]
        ring
      · intro x hx
        exact bmono x (amono x hx)
      · intro u hu o ho
        rcases List.mem_cons.mp hu with hu | hu
        · subst hu
          exact bmono o.address (acov o ho)
        · exact bcov u hu o ho
      · intro u hu w hw
        rcases List.mem_cons.mp hu with hu | hu
        · subst hu
          exact afresh w hw
        · have := bfresh u hu w (by rw [at_]; exact List.mem_append_left _ hw)
          exact this
      · rw [List.map_cons]
        refine List.nodup_cons.mpr ⟨?_, bnodup⟩
        intro hmem
        rcases List.mem_map.mp hmem with ⟨u, hu, huid⟩
        have := bfresh u hu ⟨t.id, b.id, b.height⟩
          (by rw [at_]; exact List.mem_append_right _ (by simp))
        exact this huid.symm

/-- BlockModel.insert on success, characterized against the incoming
state. -/
theorem blockInsert_ok (db : DB) (b : Block) (db2 : DB)
    (hok : blockInsert db b = .ok db2)
    (hclosed : ∀ r ∈ db.outputs, ∃ u ∈ db.transactions, u.id = r.transaction_id)
    (hres : ∀ t ∈ b.transactions, ∀ i ∈ t.inputs, ∃ r,
      findOutput db i.txId i.index = some r) :
    db2.blocks = db.blocks ++ [⟨b.id, b.height⟩] ∧
    db2.transactions = db.transactions ++
      b.transactions.map (fun t => (⟨t.id, b.id, b.height⟩ : TxRow)) ∧
    db2.outputs = markAll (refPairs b) db.outputs ++ blockNewRows b ∧
    (∀ a, balVal db2.address_balances a = balVal db.address_balances a
        + (b.transactions.map (fun t => outDelta t a)).sum
        - (b.transactions.map (fun t => inDelta db.outputs t.inputs a)).sum) ∧
    (∀ x, hasAddr db.address_balances x → hasAddr db2.address_balances x) ∧
    (∀ t ∈ b.transactions, ∀ o ∈ t.outputs, hasAddr db2.address_balances o.address) ∧
    (∀ t ∈ b.transactions, ∀ u ∈ db.transactions, u.id ≠ t.id) ∧
    (b.transactions.map (·.id)).Nodup ∧
    (∀ br ∈ db.blocks, br.id ≠ b.id ∧ br.height ≠ b.height) := by
  unfold blockInsert at hok
  rcases hex : db.blocks.any (fun r => r.id == b.id || r.height == b.height)
  · rw [hex] at hok
    simp only [Bool.false_eq_true, if_false] at hok
    replace hok : insertTxsGo b b.transactions
        { db with blocks := db.blocks ++ [⟨b.id, b.height⟩] } = .ok db2 := hok
    obtain ⟨cb, ct, co, cbal, cmono, ccov, cfresh, cnodup⟩ :=
      insertTxsGo_ok b b.transactions
        { db with blocks := db.blocks ++ [⟨b.id, b.height⟩] } db2 hok hclosed hres
    refine ⟨cb, ct, co, cbal, cmono, ccov, cfresh, cnodup, ?_⟩
    intro br hbr
    have := List.any_eq_false.mp hex br hbr
    constructor
    · intro hc
      simp [hc] at this
    · intro hc
      simp [hc] at this
  · rw [hex] at hok
    simp at hok

/-- A passing validateBlock pins the height and the input report. -/
theorem validateBlock_none_facts (b : Block) (h : Nat) (iv : InputValidation)
    (hv : validateBlock b h iv = none) :
    b.height = h + 1 ∧ iv.isValid = true := by
  unfold validateBlock at hv
  rcases h1 : validateBlockId b
  · rw [h1] at hv
    simp at hv
  · rw [h1] at hv
    by_cases h2 : b.height = h + 1
    · refine ⟨h2, ?_⟩
      rcases h3 : iv.isValid
      · rw [h2] at hv
        simp [h3] at hv
      · rfl
    · exfalso
      simp only [Bool.not_true, Bool.false_eq_true, if_false] at hv
      rw [if_pos (by simpa using h2)] at hv
      cases hv

/-- The anatomy of a successful processBlock call. -/
theorem processBlock_ok_decomp (db : DB) (b : Block) (db2 : DB)
    (hok : processBlock db b = .ok db2) :
    zodBlockOk b = true ∧
    b.height = getCurrentHeight db + 1 ∧
    (validateInputsExist db (b.transactions.flatMap (·.inputs))).isValid = true ∧
    blockInsert db b = .ok db2 := by
  unfold processBlock at hok
  rcases hz : zodBlockOk b
  · rw [hz] at hok
    simp at hok
  · rw [hz] at hok
    simp only [Bool.not_true, Bool.false_eq_true, if_false] at hok
    rcases hv : validateBlock b (getCurrentHeight db)
        (validateInputsExist db (b.transactions.flatMap (·.inputs))) with _ | c
    · rw [hv] at hok
      obtain ⟨hh, hiv⟩ := validateBlock_none_facts _ _ _ hv
      rcases hbi : blockInsert db b with e | d
      · rw [hbi] at hok
        cases hok
      · rw [hbi] at hok
        replace hok : (Except.ok d : Except ProcessError DB) = Except.ok db2 := hok
        refine ⟨rfl, hh, hiv, ?_⟩
        rw [← Except.ok.inj hok]
    · rw [hv] at hok
      cases hok

/-! ### Structural lemmas about the canonical tables. -/

theorem markRow_fields (S : List Transaction) (h : Nat) (t : Transaction)
    (p : Nat × Output) :
    (markRow S h t p).transaction_id = t.id ∧
    (markRow S h t p).output_index = p.1 ∧
    (markRow S h t p).address = p.2.address ∧
    (markRow S h t p).value = p.2.value ∧
    (markRow S h t p).block_height = h ∧
    (markRow S h t p).is_spent = (spenderIn S t.id p.1).isSome ∧
    (markRow S h t p).spent_in_transaction_id = spenderIn S t.id p.1 := by
  rcases hs : spenderIn S t.id p.1 with _ | sid <;> simp [markRow, hs]

theorem outputsMarked_append (bs1 bs2 : List Block) (S : List Transaction) :
    outputsMarked (bs1 ++ bs2) S = outputsMarked bs1 S ++ outputsMarked bs2 S := by
  unfold outputsMarked
  rw [List.flatMap_append]

theorem chainTxs_append (bs1 bs2 : List Block) :
    chainTxs (bs1 ++ bs2) = chainTxs bs1 ++ chainTxs bs2 := by
  unfold chainTxs
  rw [List.flatMap_append]

theorem canonicalTxs_append (bs1 bs2 : List Block) :
    canonicalTxs (bs1 ++ bs2) = canonicalTxs bs1 ++ canonicalTxs bs2 := by
  unfold canonicalTxs
  rw [List.flatMap_append]

theorem canonicalBlocks_append (bs1 bs2 : List Block) :
    canonicalBlocks (bs1 ++ bs2) = canonicalBlocks bs1 ++ canonicalBlocks bs2 := by
  unfold canonicalBlocks
  rw [List.map_append]

theorem canonicalTxs_ids (bs : List Block) :
    (canonicalTxs bs).map (·.id) = (chainTxs bs).map (·.id) := by
  unfold canonicalTxs chainTxs
  induction bs with
  | nil => rfl
  | cons b rest ih =>
    simp only [List.flatMap_cons, List.map_append, List.map_map, ih]
    rfl

theorem mem_chainTxs_canonicalTxs (bs : List Block) (u : Transaction)
    (hu : u ∈ chainTxs bs) : ∃ row ∈ canonicalTxs bs, TxRow.id row = u.id := by
  unfold chainTxs at hu
  rcases List.mem_flatMap.mp hu with ⟨b, hb, hub⟩
  refine ⟨⟨u.id, b.id, b.height⟩, ?_, rfl⟩
  unfold canonicalTxs
  exact List.mem_flatMap.mpr ⟨b, hb, List.mem_map_of_mem _ hub⟩

theorem outputsMarked_mem_inv (bs : List Block) (S : List Transaction)
    (r : OutputRow) (hr : r ∈ outputsMarked bs S) :
    ∃ b ∈ bs, ∃ t ∈ b.transactions, ∃ p ∈ t.outputs.enum,
      r = markRow S b.height t p := by
  unfold outputsMarked at hr
  rcases List.mem_flatMap.mp hr with ⟨b, hb, hrb⟩
  rcases List.mem_flatMap.mp hrb with ⟨t, ht, hrt⟩
  rcases List.mem_map.mp hrt with ⟨p, hp, hpr⟩
  exact ⟨b, hb, t, ht, p, hp, hpr.symm⟩

theorem enumFrom_bound (outs : List Output) (i : Nat) (p : Nat × Output)
    (hp : p ∈ outs.enumFrom i) : i ≤ p.1 ∧ p.1 < i + outs.length := by
  induction outs generalizing i with
  | nil => cases hp
  | cons o rest ih =>
    rw [show (o :: rest).enumFrom i = (i, o) :: rest.enumFrom (i + 1) from rfl] at hp
    rcases List.mem_cons.mp hp with h | h
    · subst h; exact ⟨Nat.le_refl _, by simp⟩
    · rcases ih (i + 1) h with ⟨h1, h2⟩
      exact ⟨Nat.le_of_succ_le h1, by simpa [Nat.add_comm, Nat.add_left_comm] using h2⟩

theorem enum_snd_lt (outs : List Output) (p : Nat × Output) (hp : p ∈ outs.enum) :
    p.1 < outs.length := by
  simpa using (enumFrom_bound outs 0 p hp).2

theorem foldl_max_range (n : Nat) : (List.range' 1 n).foldl max 0 = n := by
  induction n with
  | zero => rfl
  | succ m ih =>
    rw [List.range'_concat, List.foldl_append, ih]
    simp only [List.foldl_cons, List.foldl_nil]
    omega

theorem getCurrentHeight_range (db : DB) (n : Nat)
    (hh : db.blocks.map (·.height) = List.range' 1 n) :
    getCurrentHeight db = n := by
  unfold getCurrentHeight
  rw [show (db.blocks.foldl (fun m r => max m r.height) 0) =
      ((db.blocks.map (·.height)).foldl max 0) from (List.foldl_map _ _ _ _).symm, hh]
  exact foldl_max_range n

/-! ### Generic list helpers. -/

theorem flatMap_congr_mem {α β : Type} (l : List α) (f g : α → List β)
    (h : ∀ x ∈ l, f x = g x) : l.flatMap f = l.flatMap g := by
  induction l with
  | nil => rfl
  | cons x xs ih =>
    simp only [List.flatMap_cons]
    rw [h x (List.mem_cons_self x xs),
      ih (fun y hy => h y (List.mem_cons_of_mem x hy))]

theorem find?_eq_some_of_unique {α : Type} (l : List α) (p : α → Bool) (u : α)
    (hu : u ∈ l) (hp : p u = true) (huniq : ∀ v ∈ l, p v = true → v = u) :
    l.find? p = some u := by
  induction l with
  | nil => cases hu
  | cons x xs ih =>
    rcases hx : p x
    · simp only [List.find?_cons, hx]
      rcases List.mem_cons.mp hu with h | h
    
      · subst h
        rw [hp] at hx
        cases hx
      · exact ih h (fun v hv hpv => huniq v (List.mem_cons_of_mem x hv) hpv)
    · simp only [List.find?_cons, hx]
      rw [huniq x (List.mem_cons_self x xs) hx]

theorem nodup_flatMap_each {α β : Type} (l : List α) (f : α → List β)
    (h : (l.flatMap f).Nodup) : ∀ x ∈ l, (f x).Nodup := by
  induction l with
  | nil => intro x hx; cases hx
  | cons y ys ih =>
    rw [List.flatMap_cons] at h
    obtain ⟨h1, h2, _⟩ := List.nodup_append.mp h
    intro x hx
    rcases List.mem_cons.mp hx with hx | hx
    · exact hx ▸ h1
    · exact ih h2 x hx

theorem nodup_flatMap_inj {α β : Type} (l : List α) (f : α → List β)
    (h : (l.flatMap f).Nodup) :
    ∀ a ∈ l, ∀ b ∈ l, ∀ x, x ∈ f a → x ∈ f b → a = b := by
  induction l with
  | nil => intro a ha; cases ha
  | cons y ys ih =>
    rw [List.flatMap_cons] at h
    obtain ⟨h1, h2, hdisj⟩ := List.nodup_append.mp h
    intro a ha b hb x hxa hxb
    rcases List.mem_cons.mp ha with ha | ha <;> rcases List.mem_cons.mp hb with hb | hb
    · rw [ha, hb]
    · exact absurd (List.mem_flatMap.mpr ⟨b, hb, hxb⟩) (hdisj (ha ▸ hxa))
    · exact absurd (List.mem_flatMap.mpr ⟨a, ha, hxa⟩) (hdisj (hb ▸ hxb))
    · exact ih h2 a ha b hb x hxa hxb

theorem flatMap_nodup_of_key {α β γ : Type} (l : List α) (f : α → List β)
    (g : α → γ) (key : β → γ) (hg : (l.map g).Nodup)
    (hf : ∀ x ∈ l, (f x).Nodup)
    (hk : ∀ x ∈ l, ∀ y ∈ f x, key y = g x) : (l.flatMap f).Nodup := by
  induction l with
  | nil => exact List.nodup_nil
  | cons x xs ih =>
    rw [List.flatMap_cons]
    rw [List.map_cons, List.nodup_cons] at hg
    refine List.nodup_append.mpr ⟨hf x (List.mem_cons_self x xs),
      ih hg.2 (fun z hz => hf z (List.mem_cons_of_mem x hz))
        (fun z hz y hy => hk z (List.mem_cons_of_mem x hz) y hy), ?_⟩
    intro y hy hy2
    rcases List.mem_flatMap.mp hy2 with ⟨b, hb, hyb⟩
    have h1 : key y = g x := hk x (List.mem_cons_self x xs) y hy
    have h2 : key y = g b := hk b (List.mem_cons_of_mem x hb) y hyb
    exact hg.1 (h1 ▸ h2 ▸ List.mem_map_of_mem g hb)

theorem map_nodup_mem_inj {α γ : Type} (l : List α) (g : α → γ)
    (h : (l.map g).Nodup) : ∀ t ∈ l, ∀ u ∈ l, g t = g u → t = u := by
  induction l with
  | nil => intro t ht; cases ht
  | cons x xs ih =>
    rw [List.map_cons, List.nodup_cons] at h
    intro t ht u hu he
    rcases List.mem_cons.mp ht with ht | ht <;> rcases List.mem_cons.mp hu with hu | hu
    · rw [ht, hu]
    · refine absurd ?_ h.1
      rw [ht] at he
      rw [he]
      exact List.mem_map_of_mem g hu
    · refine absurd ?_ h.1
      rw [hu] at he
      rw [← he]
      exact List.mem_map_of_mem g ht
    · exact ih h.2 t ht u hu he

theorem enumFrom_get (outs : List Output) (i : Nat) (p : Nat × Output)
    (hp : p ∈ outs.enumFrom i) : outs[p.1 - i]? = some p.2 := by
  induction outs generalizing i with
  | nil => cases hp
  | cons o rest ih =>
    rw [show (o :: rest).enumFrom i = (i, o) :: rest.enumFrom (i + 1) from rfl] at hp
    rcases List.mem_cons.mp hp with h | h
    · subst h
      simp
    · have hb := (enumFrom_bound rest (i + 1) p h).1
      have := ih (i + 1) h
      rw [show p.1 - i = (p.1 - (i + 1)) + 1 by omega]
      simpa using this

theorem enum_get (outs : List Output) (p : Nat × Output) (hp : p ∈ outs.enum) :
    outs[p.1]? = some p.2 := by
  simpa using enumFrom_get outs 0 p hp

theorem get_enumFrom (outs : List Output) (i k : Nat) (o : Output)
    (hk : outs[k]? = some o) : (i + k, o) ∈ outs.enumFrom i := by
  induction outs generalizing i k with
  | nil => cases hk
  | cons x rest ih =>
    rw [show (x :: rest).enumFrom i = (i, x) :: rest.enumFrom (i + 1) from rfl]
    cases k with
    | zero =>
      simp only [List.getElem?_cons_zero, Option.some.injEq] at hk
      subst hk
      exact List.mem_cons.mpr (Or.inl (by simp))
    | succ m =>
      simp only [List.getElem?_cons_succ] at hk
      have := ih (i + 1) m hk
      exact List.mem_cons.mpr (Or.inr (by
        rw [show i + (m + 1) = (i + 1) + m by omega]
        exact this))

theorem get_enum (outs : List Output) (k : Nat) (o : Output)
    (hk : outs[k]? = some o) : (k, o) ∈ outs.enum := by
  simpa using get_enumFrom outs 0 k o hk

theorem flatMap_assoc' {α β γ : Type} (l : List α) (f : α → List β)
    (g : β → List γ) :
    (l.flatMap f).flatMap g = l.flatMap (fun x => (f x).flatMap g) := by
  induction l with
  | nil => rfl
  | cons x xs ih => simp only [List.flatMap_cons, List.flatMap_append, ih]

/-! ### The chain as an output dictionary. -/

/-- The output a reference (tid, idx) denotes, read off the chain itself. -/
def chainOutput (bs : List Block) (tid : String) (idx : Nat) : Option Output :=
  match (chainTxs bs).find? (fun t => t.id == tid) with
  | some t => t.outputs[idx]?
  | none => none

theorem chainOutput_of_row (bs : List Block) (S : List Transaction)
    (htids : ((chainTxs bs).map (·.id)).Nodup) (r : OutputRow)
    (hr : r ∈ outputsMarked bs S) :
    chainOutput bs r.transaction_id r.output_index = some ⟨r.address, r.value⟩ := by
  obtain ⟨b, hb, t, ht, p, hp, hpr⟩ := outputsMarked_mem_inv bs S r hr
  obtain ⟨f1, f2, f3, f4, _, _, _⟩ := markRow_fields S b.height t p
  rw [← hpr] at f1 f2 f3 f4
  have htmem : t ∈ chainTxs bs := List.mem_flatMap.mpr ⟨b, hb, ht⟩
  have hfind : (chainTxs bs).find? (fun u => u.id == r.transaction_id) = some t := by
    apply find?_eq_some_of_unique _ _ t htmem (by simp [f1])
    intro v hv hpv
    exact map_nodup_mem_inj _ _ htids v hv t htmem (by
      have := beq_iff_eq.mp hpv
      rw [this, f1])
  unfold chainOutput
  rw [hfind]
  show t.outputs[r.output_index]? = some ⟨r.address, r.value⟩
  rw [f2, f3, f4]
  exact enum_get t.outputs p hp

theorem row_of_chainOutput (bs : List Block) (S : List Transaction)
    (tid : String) (idx : Nat) (o : Output)
    (ho : chainOutput bs tid idx = some o) :
    ∃ r ∈ outputsMarked bs S, r.transaction_id = tid ∧ r.output_index = idx ∧
      r.address = o.address ∧ r.value = o.value ∧
      r.is_spent = (spenderIn S tid idx).isSome ∧
      r.spent_in_transaction_id = spenderIn S tid idx := by
  unfold chainOutput at ho
  rcases hf : (chainTxs bs).find? (fun t => t.id == tid) with _ | t
  · rw [hf] at ho
    cases ho
  · rw [hf] at ho
    have htid : t.id = tid := by
      have := List.find?_some hf
      simpa using this
    have htmem : t ∈ chainTxs bs := List.mem_of_find?_eq_some hf
    rcases List.mem_flatMap.mp htmem with ⟨b, hb, ht⟩
    have hpmem : (idx, o) ∈ t.outputs.enum := get_enum t.outputs idx o ho
    refine ⟨markRow S b.height t (idx, o), ?_, ?_⟩
    · unfold outputsMarked
      exact List.mem_flatMap.mpr ⟨b, hb, List.mem_flatMap.mpr
        ⟨t, ht, List.mem_map_of_mem _ hpmem⟩⟩
    · obtain ⟨f1, f2, f3, f4, _, f6, f7⟩ := markRow_fields S b.height t (idx, o)
      exact ⟨f1.trans htid, f2, f3, f4, by rw [f6, htid], by rw [f7, htid]⟩

/-! ### Keys of the output table. -/

def keysOf (l : List OutputRow) : List (String × Nat) :=
  l.map (fun r => (r.transaction_id, r.output_index))

theorem keysOf_outputsMarked (bs : List Block) (S : List Transaction) :
    keysOf (outputsMarked bs S) =
      (chainTxs bs).flatMap (fun t =>
        (List.range t.outputs.length).map (fun idx => (t.id, idx))) := by
  unfold keysOf outputsMarked chainTxs
  rw [List.map_flatMap, flatMap_assoc']
  apply flatMap_congr_mem
  intro b _
  rw [List.map_flatMap]
  apply flatMap_congr_mem
  intro t _
  rw [List.map_map]
  have : ((fun r => (r.transaction_id, r.output_index)) ∘ markRow S b.height t) =
      fun p : Nat × Output => (t.id, p.1) := by
    funext p
    obtain ⟨f1, f2, _⟩ := markRow_fields S b.height t p
    simp [Function.comp, f1, f2]
  rw [this]
  rw [show (fun p : Nat × Output => (t.id, p.1)) =
    ((fun idx => (t.id, idx)) ∘ Prod.fst) from rfl]
  rw [← List.map_map, List.enum_map_fst]

theorem keys_nodup_of_tids (bs : List Block) (S : List Transaction)
    (htids : ((chainTxs bs).map (·.id)).Nodup) :
    (keysOf (outputsMarked bs S)).Nodup := by
  rw [keysOf_outputsMarked]
  apply flatMap_nodup_of_key _ _ (fun t : Transaction => t.id) Prod.fst htids
  · intro t _
    apply List.Nodup.map
    · intro a b hab
      simpa using hab
    · exact List.nodup_range _
  · intro t _ y hy
    rcases List.mem_map.mp hy with ⟨idx, _, hidx⟩
    rw [← hidx]

theorem find?_key_of_mem (l : List OutputRow) (hk : (keysOf l).Nodup)
    (r : OutputRow) (hr : r ∈ l) :
    l.find? (fun u => u.transaction_id == r.transaction_id &&
      u.output_index == r.output_index) = some r := by
  apply find?_eq_some_of_unique _ _ r hr (by simp)
  intro v hv hpv
  have hvk : (v.transaction_id, v.output_index) = (r.transaction_id, r.output_index) := by
    simp only [Bool.and_eq_true, beq_iff_eq] at hpv
    rw [hpv.1, hpv.2]
  exact map_nodup_mem_inj l (fun u => (u.transaction_id, u.output_index)) hk v hv r hr hvk

/-! ### Sums over the output table. -/

/-- Unspent value at an address, as a single pass over the rows. -/
def unspentSumI (l : List OutputRow) (a : String) : Int :=
  (l.map (fun r => if !r.is_spent && r.address == a then (r.value : Int) else 0)).sum

/-- Value contributed at an address by the output a reference denotes. -/
def refVal (bs : List Block) (a : String) (i : Input) : Int :=
  match chainOutput bs i.txId i.index with
  | some o => if o.address == a then (o.value : Int) else 0
  | none => 0

def refSum (bs : List Block) (inputs : List Input) (a : String) : Int :=
  (inputs.map (refVal bs a)).sum

/-- Value contributed at an address by the stored row a reference resolves to. -/
def spentVal (rows : List OutputRow) (i : Input) (a : String) : Int :=
  match rows.find? (fun u => u.transaction_id == i.txId && u.output_index == i.index) with
  | some r => if r.address == a then (r.value : Int) else 0
  | none => 0

theorem natSum_filter_eq_sumI (l : List OutputRow) (a : String) :
    ((((l.filter (fun r => !r.is_spent && r.address == a)).map (·.value)).sum : Nat) : Int)
      = unspentSumI l a := by
  induction l with
  | nil => rfl
  | cons r rest ih =>
    unfold unspentSumI at ih ⊢
    rcases hp : (!r.is_spent && r.address == a)
    · rw [List.filter_cons_of_neg (by simp [hp]), List.map_cons, List.sum_cons, hp]
      simpa using ih
    · rw [List.filter_cons_of_pos (by simp [hp]), List.map_cons, List.map_cons,
        List.sum_cons, List.sum_cons, hp]
      rw [Nat.cast_add, ih]
      simp

theorem canonicalBal_eq_sumI (bs : List Block) (a : String) :
    canonicalBal bs a = unspentSumI (canonicalOutputs bs) a := by
  unfold canonicalBal
  exact natSum_filter_eq_sumI (canonicalOutputs bs) a

theorem unspentSum_eq_sumI (db : DB) (a : String) :
    unspentSum db a = unspentSumI db.outputs a := by
  unfold unspentSum
  exact natSum_filter_eq_sumI db.outputs a

theorem unspentSumI_append (l1 l2 : List OutputRow) (a : String) :
    unspentSumI (l1 ++ l2) a = unspentSumI l1 a + unspentSumI l2 a := by
  unfold unspentSumI
  rw [List.map_append, List.sum_append]

theorem sumI_flatMap {α : Type} (l : List α) (f : α → List OutputRow) (a : String) :
    unspentSumI (l.flatMap f) a = (l.map (fun x => unspentSumI (f x) a)).sum := by
  induction l with
  | nil => rfl
  | cons x xs ih =>
    rw [List.flatMap_cons, unspentSumI_append, List.map_cons, List.sum_cons, ih]

theorem enumFrom_map_snd (outs : List Output) (i : Nat) :
    (outs.enumFrom i).map Prod.snd = outs := by
  induction outs generalizing i with
  | nil => rfl
  | cons o rest ih =>
    rw [show (o :: rest).enumFrom i = (i, o) :: rest.enumFrom (i + 1) from rfl,
      List.map_cons, ih (i + 1)]

theorem outDelta_eq_mapIf (t : Transaction) (a : String) :
    outDelta t a =
      (t.outputs.map (fun o => if o.address == a then (o.value : Int) else 0)).sum := by
  unfold outDelta
  induction t.outputs with
  | nil => rfl
  | cons o rest ih =>
    rcases hp : (o.address == a)
    · rw [List.filter_cons_of_neg (by simp [hp]), List.map_cons, List.sum_cons, hp]
      simpa using ih
    · rw [List.filter_cons_of_pos (by simp [hp]), List.map_cons, List.map_cons,
        List.sum_cons, List.sum_cons, hp]
      rw [ih]
      simp

theorem unspentSumI_txRows (h : Nat) (t : Transaction) (a : String) :
    unspentSumI (txRows h t) a = outDelta t a := by
  unfold unspentSumI txRows
  rw [List.map_map, outDelta_eq_mapIf]
  have : ((fun r : OutputRow => if !r.is_spent && r.address == a then (r.value : Int) else 0)
      ∘ (fun p : Nat × Output => (⟨t.id, p.1, p.2.address, p.2.value, false, none, h⟩ : OutputRow)))
      = (fun o : Output => if o.address == a then (o.value : Int) else 0) ∘ Prod.snd := by
    funext p
    simp [Function.comp]
  rw [this, ← List.map_map]
  rw [show t.outputs.enum.map Prod.snd = t.outputs from by
    unfold List.enum
    exact enumFrom_map_snd t.outputs 0]

theorem unspentSumI_blockNewRows (b : Block) (a : String) :
    unspentSumI (blockNewRows b) a = (b.transactions.map (fun t => outDelta t a)).sum := by
  unfold blockNewRows
  rw [sumI_flatMap]
  congr 1
  apply List.map_congr_left
  intro t _
  exact unspentSumI_txRows b.height t a

theorem map_id_of_eq {α : Type} (l : List α) (f : α → α) (h : ∀ x ∈ l, f x = x) :
    l.map f = l := by
  induction l with
  | nil => rfl
  | cons x xs ih =>
    rw [List.map_cons, h x (List.mem_cons_self x xs),
      ih (fun y hy => h y (List.mem_cons_of_mem x hy))]

theorem markOne_no_match (tid : String) (i : Input) (rows : List OutputRow)
    (h : ∀ r ∈ rows, keyMatch i r = false) : markOne tid i rows = rows := by
  unfold markOne
  apply map_id_of_eq
  intro r hr
  unfold mark1
  rw [if_neg (by simp [h r hr])]

theorem keysOf_markOne (tid : String) (i : Input) (rows : List OutputRow) :
    keysOf (markOne tid i rows) = keysOf rows := by
  unfold keysOf markOne
  rw [List.map_map]
  apply List.map_congr_left
  intro r _
  obtain ⟨k1, k2, _⟩ := mark1_keys tid i r
  simp [Function.comp, k1, k2]

theorem markOne_sum (tid : String) (i : Input) (rows : List OutputRow) (a : String)
    (hkeys : (keysOf rows).Nodup)
    (hres : ∃ r, rows.find? (fun u => u.transaction_id == i.txId &&
      u.output_index == i.index) = some r ∧ r.is_spent = false) :
    unspentSumI (markOne tid i rows) a = unspentSumI rows a - spentVal rows i a := by
  induction rows with
  | nil =>
    rcases hres with ⟨r, hr, _⟩
    cases hr
  | cons r rest ih =>
    have hk2 : ((r.transaction_id, r.output_index) :: keysOf rest).Nodup := hkeys
    have hpred : (fun u : OutputRow => u.transaction_id == i.txId &&
        u.output_index == i.index) r = keyMatch i r := rfl
    rcases km : keyMatch i r
    · have hfind : (r :: rest).find? (fun u => u.transaction_id == i.txId &&
          u.output_index == i.index) = rest.find? (fun u => u.transaction_id == i.txId &&
          u.output_index == i.index) := by
        simp only [List.find?_cons, hpred, km]
      have htail : ∃ u, rest.find? (fun u => u.transaction_id == i.txId &&
          u.output_index == i.index) = some u ∧ u.is_spent = false := by
        rcases hres with ⟨u, hu, hsu⟩
        rw [hfind] at hu
        exact ⟨u, hu, hsu⟩
      have hm1 : mark1 tid i r = r := by
        unfold mark1
        rw [if_neg (by simp [km])]
      show unspentSumI (mark1 tid i r :: markOne tid i rest) a = _
      unfold unspentSumI at ih ⊢
      rw [List.map_cons, List.sum_cons, List.map_cons, List.sum_cons, hm1]
      rw [show spentVal (r :: rest) i a = spentVal rest i a by
        unfold spentVal
        rw [hfind]]
      rw [ih (List.nodup_cons.mp hk2).2 htail]
      ring
    · have hfind : (r :: rest).find? (fun u => u.transaction_id == i.txId &&
          u.output_index == i.index) = some r := by
        simp only [List.find?_cons, hpred, km]
      have hspent : r.is_spent = false := by
        rcases hres with ⟨u, hu, hsu⟩
        rw [hfind] at hu
        rw [← Option.some.inj hu] at hsu
        exact hsu
      have hnorest : ∀ u ∈ rest, keyMatch i u = false := by
        intro u hu
        rcases hk : keyMatch i u
        · rfl
        · exfalso
          have hkey : u.transaction_id = i.txId ∧ u.output_index = i.index := by
            unfold keyMatch at hk
            simpa using hk
          have hkeyr : r.transaction_id = i.txId ∧ r.output_index = i.index := by
            unfold keyMatch at km
            simpa using km
          have hrows : (r :: rest).Nodup := List.Nodup.of_map _ hkeys
          have hur : u = r := map_nodup_mem_inj (r :: rest)
            (fun w => (w.transaction_id, w.output_index)) hkeys u
            (List.mem_cons_of_mem r hu) r (List.mem_cons_self r rest)
            (by
              show (u.transaction_id, u.output_index) = (r.transaction_id, r.output_index)
              rw [hkey.1, hkey.2, hkeyr.1, hkeyr.2])
          exact (List.nodup_cons.mp hrows).1 (hur ▸ hu)
      have hm1 : mark1 tid i r =
          { r with is_spent := true, spent_in_transaction_id := some tid } := by
        unfold mark1
        rw [if_pos km]
      show unspentSumI (mark1 tid i r :: markOne tid i rest) a = _
      rw [markOne_no_match tid i rest hnorest]
      unfold unspentSumI
      rw [List.map_cons, List.sum_cons, List.map_cons, List.sum_cons, hm1]
      rw [show spentVal (r :: rest) i a =
          if r.address == a then (r.value : Int) else 0 by
        unfold spentVal
        rw [hfind]]
      rw [hspent]
      rcases ha : (r.address == a) <;> simp [ha]

theorem Input_ext (i j : Input) (h1 : i.txId = j.txId) (h2 : i.index = j.index) :
    i = j := by
  cases i
  cases j
  simp only [Input.mk.injEq]
  exact ⟨h1, h2⟩

theorem find?_markOne (tid : String) (i : Input) (rows : List OutputRow) (j : Input) :
    (markOne tid i rows).find? (fun u => u.transaction_id == j.txId &&
        u.output_index == j.index) =
      (rows.find? (fun u => u.transaction_id == j.txId &&
        u.output_index == j.index)).map (mark1 tid i) := by
  unfold markOne
  exact find?_map_keys rows (mark1 tid i)
    (fun r => ⟨(mark1_keys tid i r).1, (mark1_keys tid i r).2.1⟩) j.txId j.index

theorem markAll_sum (ps : List (String × Input)) (rows : List OutputRow) (a : String)
    (hkeys : (keysOf rows).Nodup)
    (hdist : (ps.map (·.2)).Nodup)
    (hres : ∀ p ∈ ps, ∃ r, rows.find? (fun u => u.transaction_id == p.2.txId &&
      u.output_index == p.2.index) = some r ∧ r.is_spent = false) :
    unspentSumI (markAll ps rows) a =
      unspentSumI rows a - (ps.map (fun p => spentVal rows p.2 a)).sum := by
  induction ps generalizing rows with
  | nil =>
    show unspentSumI rows a = _
    simp
  | cons p ps ih =>
    have hd2 : (p.2 :: ps.map (·.2)).Nodup := hdist
    show unspentSumI (markAll ps (markOne p.1 p.2 rows)) a = _
    have hkeys2 : (keysOf (markOne p.1 p.2 rows)).Nodup := by
      rw [keysOf_markOne]
      exact hkeys
    have hstable : ∀ q ∈ ps,
        (markOne p.1 p.2 rows).find? (fun u => u.transaction_id == q.2.txId &&
          u.output_index == q.2.index) =
        rows.find? (fun u => u.transaction_id == q.2.txId &&
          u.output_index == q.2.index) := by
      intro q hq
      obtain ⟨r', hr', hs'⟩ := hres q (List.mem_cons_of_mem p hq)
      have hne : q.2 ≠ p.2 := by
        intro he
        exact (List.nodup_cons.mp hd2).1 (he ▸ List.mem_map_of_mem (·.2) hq)
      have h1 : r'.transaction_id = q.2.txId ∧ r'.output_index = q.2.index := by
        have := List.find?_some hr'
        simpa using this
      have hkm : keyMatch p.2 r' = false := by
        rcases hkmb : keyMatch p.2 r'
        · rfl
        · exfalso
          have h2 : r'.transaction_id = p.2.txId ∧ r'.output_index = p.2.index := by
            unfold keyMatch at hkmb
            simpa using hkmb
          refine hne (Input_ext q.2 p.2 ?_ ?_)
          · rw [← h1.1]
            exact h2.1
          · rw [← h1.2]
            exact h2.2
      have hm1 : mark1 p.1 p.2 r' = r' := by
        unfold mark1
        rw [if_neg (by simp [hkm])]
      rw [find?_markOne, hr']
      simp [hm1]
    have hres2 : ∀ q ∈ ps, ∃ r, (markOne p.1 p.2 rows).find? (fun u =>
        u.transaction_id == q.2.txId && u.output_index == q.2.index) = some r ∧
        r.is_spent = false := by
      intro q hq
      obtain ⟨r', hr', hs'⟩ := hres q (List.mem_cons_of_mem p hq)
      exact ⟨r', (hstable q hq).trans hr', hs'⟩
    rw [ih (markOne p.1 p.2 rows) hkeys2 (List.nodup_cons.mp hd2).2 hres2]
    rw [markOne_sum p.1 p.2 rows a hkeys (hres p (List.mem_cons_self p ps))]
    have hsv : (ps.map (fun q => spentVal (markOne p.1 p.2 rows) q.2 a)).sum =
        (ps.map (fun q => spentVal rows q.2 a)).sum := by
      congr 1
      apply List.map_congr_left
      intro q hq
      unfold spentVal
      rw [hstable q hq]
    rw [hsv, List.map_cons, List.sum_cons]
    ring

theorem inDelta_cons (rows : List OutputRow) (i : Input) (rest : List Input)
    (a : String) :
    inDelta rows (i :: rest) a = spentVal rows i a + inDelta rows rest a := by
  unfold inDelta resolvedRows spentVal
  rw [List.filterMap_cons]
  rcases hf : rows.find? (fun r => r.transaction_id == i.txId &&
      r.output_index == i.index) with _ | r
  · simp only [hf]
    simp
  · simp only [hf]
    rcases ha : (r.address == a)
    · rw [List.filter_cons_of_neg (by simp [ha])]
      simp [ha]
    · rw [List.filter_cons_of_pos (by simp [ha])]
      rw [List.map_cons, List.sum_cons]
      simp

theorem refSum_cons (bs : List Block) (i : Input) (rest : List Input) (a : String) :
    refSum bs (i :: rest) a = refVal bs a i + refSum bs rest a := by
  unfold refSum
  rw [List.map_cons, List.sum_cons]

theorem spentVal_eq_refVal (bs : List Block) (rows : List OutputRow) (i : Input)
    (a : String) (r : OutputRow)
    (hfind : rows.find? (fun u => u.transaction_id == i.txId &&
      u.output_index == i.index) = some r)
    (hco : chainOutput bs i.txId i.index = some ⟨r.address, r.value⟩) :
    spentVal rows i a = refVal bs a i := by
  unfold spentVal refVal
  rw [hfind, hco]

theorem inDelta_eq_refSum (bs : List Block) (rows : List OutputRow)
    (inputs : List Input) (a : String)
    (h : ∀ i ∈ inputs, ∃ r, rows.find? (fun u => u.transaction_id == i.txId &&
      u.output_index == i.index) = some r ∧
      chainOutput bs i.txId i.index = some ⟨r.address, r.value⟩) :
    inDelta rows inputs a = refSum bs inputs a := by
  induction inputs with
  | nil => rfl
  | cons i rest ih =>
    obtain ⟨r, hr, hco⟩ := h i (List.mem_cons_self i rest)
    rw [inDelta_cons, refSum_cons, spentVal_eq_refVal bs rows i a r hr hco,
      ih (fun j hj => h j (List.mem_cons_of_mem i hj))]

/-! ### Spender-set characterizations. -/

theorem chainTxs_singleton (b : Block) : chainTxs [b] = b.transactions := by
  unfold chainTxs
  simp

theorem outputsMarked_singleton (b : Block) (S : List Transaction) :
    outputsMarked [b] S =
      b.transactions.flatMap (fun t => t.outputs.enum.map (markRow S b.height t)) := by
  unfold outputsMarked
  simp

theorem spenderIn_eq_none_inv (S : List Transaction) (tid : String) (idx : Nat)
    (h : spenderIn S tid idx = none) :
    ∀ u ∈ S, (⟨tid, idx⟩ : Input) ∉ u.inputs := by
  intro u hu hmem
  unfold spenderIn at h
  rcases hf : S.find? (fun t => t.inputs.contains (⟨tid, idx⟩ : Input)) with _ | v
  · have := List.find?_eq_none.mp hf u hu
    simp only [List.elem_iff] at this
    exact this hmem
  · rw [hf] at h
    cases h

theorem spenderIn_eq_some_inv (S : List Transaction) (tid : String) (idx : Nat)
    (sid : String) (h : spenderIn S tid idx = some sid) :
    ∃ v ∈ S, v.id = sid ∧ (⟨tid, idx⟩ : Input) ∈ v.inputs := by
  unfold spenderIn at h
  rcases hf : S.find? (fun t => t.inputs.contains (⟨tid, idx⟩ : Input)) with _ | v
  · rw [hf] at h
    cases h
  · rw [hf] at h
    have hv : v.id = sid := by simpa using h
    have hmem : (⟨tid, idx⟩ : Input) ∈ v.inputs := by
      have := List.find?_some hf
      simpa [List.elem_iff] using this
    exact ⟨v, List.mem_of_find?_eq_some hf, hv, hmem⟩

theorem spenderIn_eq_some_of (S : List Transaction) (u : Transaction) (i : Input)
    (hu : u ∈ S) (hi : i ∈ u.inputs)
    (huniq : ∀ v ∈ S, i ∈ v.inputs → v = u) :
    spenderIn S i.txId i.index = some u.id := by
  unfold spenderIn
  rw [find?_eq_some_of_unique S _ u hu (by simpa [List.elem_iff] using hi)
    (fun v hv hpv => huniq v hv (by simpa [List.elem_iff] using hpv))]
  rfl

theorem dupFree_unique (b : Block) (hdf : dupFree b) :
    ∀ t ∈ b.transactions, ∀ u ∈ b.transactions, ∀ i : Input,
      i ∈ t.inputs → i ∈ u.inputs → t = u :=
  fun t ht u hu i hit hiu =>
    nodup_flatMap_inj b.transactions (·.inputs) hdf t ht u hu i hit hiu

theorem refPairs_mem_inv (b : Block) (p : String × Input) (hp : p ∈ refPairs b) :
    ∃ t ∈ b.transactions, p.1 = t.id ∧ p.2 ∈ t.inputs := by
  unfold refPairs at hp
  rcases List.mem_flatMap.mp hp with ⟨t, ht, hpt⟩
  rcases List.mem_map.mp hpt with ⟨i, hi, hip⟩
  exact ⟨t, ht, by rw [← hip], by rw [← hip]; exact hi⟩

theorem mem_refPairs (b : Block) (t : Transaction) (i : Input)
    (ht : t ∈ b.transactions) (hi : i ∈ t.inputs) : (t.id, i) ∈ refPairs b := by
  unfold refPairs
  exact List.mem_flatMap.mpr ⟨t, ht, List.mem_map_of_mem _ hi⟩

theorem refPairs_map_snd (b : Block) :
    (refPairs b).map (·.2) = b.transactions.flatMap (·.inputs) := by
  unfold refPairs
  rw [List.map_flatMap]
  apply flatMap_congr_mem
  intro t _
  rw [List.map_map]
  exact List.map_id _

theorem sum_map_flatMap {α β : Type} (l : List α) (f : α → List β) (g : β → Int) :
    ((l.flatMap f).map g).sum = (l.map (fun x => ((f x).map g).sum)).sum := by
  induction l with
  | nil => rfl
  | cons x xs ih =>
    rw [List.flatMap_cons, List.map_append, List.sum_append, List.map_cons,
      List.sum_cons, ih]

theorem inDelta_eq_spentSum (rows : List OutputRow) (inputs : List Input)
    (a : String) :
    inDelta rows inputs a = (inputs.map (fun i => spentVal rows i a)).sum := by
  induction inputs with
  | nil => rfl
  | cons i rest ih =>
    rw [inDelta_cons, List.map_cons, List.sum_cons, ih]

theorem refPairs_sum_inDelta (b : Block) (rows : List OutputRow) (a : String) :
    ((refPairs b).map (fun p => spentVal rows p.2 a)).sum =
      (b.transactions.map (fun t => inDelta rows t.inputs a)).sum := by
  unfold refPairs
  rw [show (fun p : String × Input => spentVal rows p.2 a) =
    (fun i => spentVal rows i a) ∘ (·.2) from rfl, ← List.map_map, List.map_flatMap]
  rw [flatMap_congr_mem b.transactions _ (fun t : Transaction => t.inputs) (by
    intro t _
    rw [List.map_map]
    exact List.map_id _)]
  rw [sum_map_flatMap]
  congr 1
  apply List.map_congr_left
  intro t _
  rw [inDelta_eq_spentSum]

/-- Appending one block to the chain marks the referenced rows and appends
the block's fresh rows; the canonical table evolves exactly as BlockModel
insert writes it. -/
theorem canonicalOutputs_snoc (bs : List Block) (b : Block)
    (htids : ((chainTxs (bs ++ [b])).map (·.id)).Nodup)
    (hold : ∀ u ∈ chainTxs bs, ∀ i ∈ u.inputs, ∃ w ∈ chainTxs bs, w.id = i.txId)
    (hdf : dupFree b)
    (hres : ∀ t ∈ b.transactions, ∀ i ∈ t.inputs, ∃ r,
      (canonicalOutputs bs).find? (fun u => u.transaction_id == i.txId &&
        u.output_index == i.index) = some r ∧ r.is_spent = false) :
    canonicalOutputs (bs ++ [b]) =
      markAll (refPairs b) (canonicalOutputs bs) ++ blockNewRows b := by
  have hS : chainTxs (bs ++ [b]) = chainTxs bs ++ b.transactions := by
    rw [chainTxs_append, chainTxs_singleton]
  have htids2 : ((chainTxs bs).map (·.id) ++ b.transactions.map (·.id)).Nodup := by
    have h0 := htids
    rw [hS, List.map_append] at h0
    exact h0
  obtain ⟨hnodupOld, hnodupNew, hdisj⟩ := List.nodup_append.mp htids2
  have hfresh : ∀ t ∈ b.transactions, ∀ u ∈ chainTxs bs, u.id ≠ t.id := by
    intro t ht u hu he
    apply hdisj (List.mem_map_of_mem (·.id) hu)
    rw [he]
    exact List.mem_map_of_mem (·.id) ht
  have hkeys : (keysOf (canonicalOutputs bs)).Nodup :=
    keys_nodup_of_tids bs (chainTxs bs) hnodupOld
  show outputsMarked (bs ++ [b]) (chainTxs (bs ++ [b])) = _
  rw [hS, outputsMarked_append]
  congr 1
  · -- the pre-existing rows, re-marked by the new block's references
    rw [markAll_map]
    unfold canonicalOutputs outputsMarked
    rw [List.map_flatMap]
    apply flatMap_congr_mem
    intro b' hb'
    rw [List.map_flatMap]
    apply flatMap_congr_mem
    intro t ht
    rw [List.map_map]
    apply List.map_congr_left
    intro p hp
    show markRow (chainTxs bs ++ b.transactions) b'.height t p
      = markFn (refPairs b) (markRow (chainTxs bs) b'.height t p)
    have htmem : t ∈ chainTxs bs := List.mem_flatMap.mpr ⟨b', hb', ht⟩
    rcases hs : spenderIn (chainTxs bs) t.id p.1 with _ | sid
    · have hrow : markRow (chainTxs bs) b'.height t p =
          ⟨t.id, p.1, p.2.address, p.2.value, false, none, b'.height⟩ := by
        unfold markRow
        rw [hs]
      rcases hrb : spenderIn b.transactions t.id p.1 with _ | sid2
      · have hS2 : spenderIn (chainTxs bs ++ b.transactions) t.id p.1 = none := by
          rw [spenderIn_append, hs, hrb]
          rfl
        rw [show markRow (chainTxs bs ++ b.transactions) b'.height t p =
            ⟨t.id, p.1, p.2.address, p.2.value, false, none, b'.height⟩ from by
          unfold markRow
          rw [hS2]]
        rw [hrow]
        symm
        apply markFn_no_match
        intro q hq
        rcases hk : keyMatch q.2
            (⟨t.id, p.1, p.2.address, p.2.value, false, none, b'.height⟩ : OutputRow)
        · rfl
        · exfalso
          have hq2 : q.2 = (⟨t.id, p.1⟩ : Input) := by
            unfold keyMatch at hk
            simp only [Bool.and_eq_true, beq_iff_eq] at hk
            exact Input_ext _ _ hk.1.symm hk.2.symm
          obtain ⟨v, hv, hvid, hvin⟩ := refPairs_mem_inv b q hq
          rw [hq2] at hvin
          exact (spenderIn_eq_none_inv b.transactions t.id p.1 hrb v hv) hvin
      · obtain ⟨v, hv, hvid, hvin⟩ :=
          spenderIn_eq_some_inv b.transactions t.id p.1 sid2 hrb
        have hS2 : spenderIn (chainTxs bs ++ b.transactions) t.id p.1 = some sid2 := by
          rw [spenderIn_append, hs, hrb]
          rfl
        rw [show markRow (chainTxs bs ++ b.transactions) b'.height t p =
            ⟨t.id, p.1, p.2.address, p.2.value, true, some sid2, b'.height⟩ from by
          unfold markRow
          rw [hS2]]
        rw [hrow]
        rw [markFn_single (refPairs b)
          (⟨t.id, p.1, p.2.address, p.2.value, false, none, b'.height⟩ : OutputRow)
          sid2 (⟨t.id, p.1⟩ : Input)
          (by
            have := mem_refPairs b v (⟨t.id, p.1⟩ : Input) hv hvin
            rw [hvid] at this
            exact this)
          (by simp [keyMatch])
          ?_]
        intro q hq hqk
        have hq2 : q.2 = (⟨t.id, p.1⟩ : Input) := by
          unfold keyMatch at hqk
          simp only [Bool.and_eq_true, beq_iff_eq] at hqk
          exact Input_ext _ _ hqk.1.symm hqk.2.symm
        obtain ⟨v2, hv2, hv2id, hv2in⟩ := refPairs_mem_inv b q hq
        rw [hq2] at hv2in
        have hv2v : v2 = v := dupFree_unique b hdf v2 hv2 v hv _ hv2in hvin
        refine Prod.ext_iff.mpr ⟨?_, hq2⟩
        rw [hv2id, hv2v, hvid]
    · have hrow : markRow (chainTxs bs) b'.height t p =
          ⟨t.id, p.1, p.2.address, p.2.value, true, some sid, b'.height⟩ := by
        unfold markRow
        rw [hs]
      have hS2 : spenderIn (chainTxs bs ++ b.transactions) t.id p.1 = some sid := by
        rw [spenderIn_append, hs]
        rfl
      rw [show markRow (chainTxs bs ++ b.transactions) b'.height t p =
          ⟨t.id, p.1, p.2.address, p.2.value, true, some sid, b'.height⟩ from by
        unfold markRow
        rw [hS2]]
      rw [hrow]
      symm
      apply markFn_no_match
      intro q hq
      rcases hk : keyMatch q.2
          (⟨t.id, p.1, p.2.address, p.2.value, true, some sid, b'.height⟩ : OutputRow)
      · rfl
      · exfalso
        have hq2 : q.2 = (⟨t.id, p.1⟩ : Input) := by
          unfold keyMatch at hk
          simp only [Bool.and_eq_true, beq_iff_eq] at hk
          exact Input_ext _ _ hk.1.symm hk.2.symm
        obtain ⟨v, hv, hvid, hvin⟩ := refPairs_mem_inv b q hq
        rw [hq2] at hvin
        obtain ⟨r, hr, hrs⟩ := hres v hv (⟨t.id, p.1⟩ : Input) hvin
        have hmem2 : (⟨t.id, p.1, p.2.address, p.2.value, true, some sid, b'.height⟩ :
            OutputRow) ∈ canonicalOutputs bs := by
          rw [← hrow]
          unfold canonicalOutputs outputsMarked
          exact List.mem_flatMap.mpr ⟨b', hb', List.mem_flatMap.mpr
            ⟨t, ht, List.mem_map_of_mem _ hp⟩⟩
        have hfind1 : (canonicalOutputs bs).find? (fun u =>
            u.transaction_id == t.id && u.output_index == p.1) = some
            (⟨t.id, p.1, p.2.address, p.2.value, true, some sid, b'.height⟩ :
              OutputRow) := find?_key_of_mem (canonicalOutputs bs) hkeys _ hmem2
        have hfind2 : (canonicalOutputs bs).find? (fun u =>
            u.transaction_id == t.id && u.output_index == p.1) = some r := hr
        rw [hfind1] at hfind2
        have := Option.some.inj hfind2
        rw [← this] at hrs
        cases hrs
  · -- the new block's own rows are inserted unspent
    rw [outputsMarked_singleton]
    unfold blockNewRows
    apply flatMap_congr_mem
    intro t' ht'
    unfold txRows
    apply List.map_congr_left
    intro q hq
    have h1 : spenderIn (chainTxs bs) t'.id q.1 = none := by
      apply spenderIn_none
      intro u hu hmem
      obtain ⟨w, hw, hwid⟩ := hold u hu _ hmem
      exact absurd (by simpa using hwid) (hfresh t' ht' w hw)
    have h2 : spenderIn b.transactions t'.id q.1 = none := by
      apply spenderIn_none
      intro v hv hmem
      obtain ⟨r, hr, hrs⟩ := hres v hv _ hmem
      have hrmem : r ∈ canonicalOutputs bs := List.mem_of_find?_eq_some hr
      have hrid : r.transaction_id = t'.id := by
        have h3 := List.find?_some hr
        simp only [Bool.and_eq_true, beq_iff_eq] at h3
        exact h3.1
      obtain ⟨b2, hb2, t2, ht2, p2, hp2, hp2r⟩ :=
        outputsMarked_mem_inv bs _ r hrmem
      have ht2id : t2.id = t'.id := by
        have hf1 := (markRow_fields (chainTxs bs) b2.height t2 p2).1
        rw [← hp2r] at hf1
        rw [← hf1]
        exact hrid
      exact absurd ht2id (hfresh t' ht' t2 (List.mem_flatMap.mpr ⟨b2, hb2, ht2⟩))
    have hnone : spenderIn (chainTxs bs ++ b.transactions) t'.id q.1 = none := by
      rw [spenderIn_append, h1, h2]
      rfl
    unfold markRow
    rw [hnone]

/-- The canonical balance evolves across one block exactly by the credit
of its new outputs and the debit of its resolved inputs. -/
theorem canonicalBal_snoc (bs : List Block) (b : Block)
    (htids : ((chainTxs (bs ++ [b])).map (·.id)).Nodup)
    (hold : ∀ u ∈ chainTxs bs, ∀ i ∈ u.inputs, ∃ w ∈ chainTxs bs, w.id = i.txId)
    (hdf : dupFree b)
    (hres : ∀ t ∈ b.transactions, ∀ i ∈ t.inputs, ∃ r,
      (canonicalOutputs bs).find? (fun u => u.transaction_id == i.txId &&
        u.output_index == i.index) = some r ∧ r.is_spent = false) (a : String) :
    canonicalBal (bs ++ [b]) a = canonicalBal bs a
      + (b.transactions.map (fun t => outDelta t a)).sum
      - (b.transactions.map (fun t => inDelta (canonicalOutputs bs) t.inputs a)).sum := by
  have hS : chainTxs (bs ++ [b]) = chainTxs bs ++ b.transactions := by
    rw [chainTxs_append, chainTxs_singleton]
  have htids2 : ((chainTxs bs).map (·.id) ++ b.transactions.map (·.id)).Nodup := by
    have h0 := htids
    rw [hS, List.map_append] at h0
    exact h0
  obtain ⟨hnodupOld, _, _⟩ := List.nodup_append.mp htids2
  have hkeys : (keysOf (canonicalOutputs bs)).Nodup :=
    keys_nodup_of_tids bs (chainTxs bs) hnodupOld
  have hdist : ((refPairs b).map (·.2)).Nodup := by
    rw [refPairs_map_snd]
    exact hdf
  have hresp : ∀ p ∈ refPairs b, ∃ r, (canonicalOutputs bs).find? (fun u =>
      u.transaction_id == p.2.txId && u.output_index == p.2.index) = some r ∧
      r.is_spent = false := by
    intro p hp
    obtain ⟨t, ht, _, hin⟩ := refPairs_mem_inv b p hp
    exact hres t ht p.2 hin
  rw [canonicalBal_eq_sumI, canonicalBal_eq_sumI,
    canonicalOutputs_snoc bs b htids hold hdf hres, unspentSumI_append,
    unspentSumI_blockNewRows,
    markAll_sum (refPairs b) (canonicalOutputs bs) a hkeys hdist hresp,
    refPairs_sum_inDelta]
  ring

/-! ### Chain characterization. -/

theorem canonicalBlocks_heights (bs : List Block) :
    (canonicalBlocks bs).map (·.height) = bs.map (·.height) := by
  unfold canonicalBlocks
  rw [List.map_map]
  rfl

theorem canonicalBlocks_ids (bs : List Block) :
    (canonicalBlocks bs).map (·.id) = bs.map (·.id) := by
  unfold canonicalBlocks
  rw [List.map_map]
  rfl

theorem canonicalBlocks_singleton (b : Block) :
    canonicalBlocks [b] = [⟨b.id, b.height⟩] := rfl

theorem canonicalTxs_singleton (b : Block) :
    canonicalTxs [b] = b.transactions.map (fun t => (⟨t.id, b.id, b.height⟩ : TxRow)) := by
  unfold canonicalTxs
  simp

theorem row_gen_id (bs : List Block) (S : List Transaction) (r : OutputRow)
    (hr : r ∈ outputsMarked bs S) : ∃ w ∈ chainTxs bs, w.id = r.transaction_id := by
  obtain ⟨b, hb, t, ht, p, hp, hpr⟩ := outputsMarked_mem_inv bs S r hr
  refine ⟨t, List.mem_flatMap.mpr ⟨b, hb, ht⟩, ?_⟩
  rw [hpr]
  exact ((markRow_fields S b.height t p).1).symm

theorem snoc_eq_split {α : Type} (bs : List α) (b : α) (pre : List α) (B : α)
    (suf : List α) (h : bs ++ [b] = pre ++ B :: suf) :
    (suf = [] ∧ pre = bs ∧ B = b) ∨
    (∃ suf2, bs = pre ++ B :: suf2 ∧ suf = suf2 ++ [b]) := by
  rcases List.eq_nil_or_concat suf with hs | ⟨suf2, x, hs⟩
  · subst hs
    obtain ⟨h1, h2⟩ := List.append_inj' h (by simp)
    exact Or.inl ⟨rfl, h1.symm, by simpa using h2.symm⟩
  · subst hs
    simp only [List.concat_eq_append] at h ⊢
    rw [show pre ++ B :: (suf2 ++ [x]) = (pre ++ B :: suf2) ++ [x] by simp] at h
    obtain ⟨h1, h2⟩ := List.append_inj' h (by simp)
    have hx : b = x := by simpa using h2
    exact Or.inr ⟨suf2, h1, by rw [hx]⟩

/-- Canonical shape of a database reachable by a chain of processed blocks. -/
structure ChainChar (bs : List Block) (db : DB) : Prop where
  blocks_eq : db.blocks = canonicalBlocks bs
  txs_eq : db.transactions = canonicalTxs bs
  outs_eq : db.outputs = canonicalOutputs bs
  bal_eq : ∀ a, balVal db.address_balances a = canonicalBal bs a
  cover : ∀ r ∈ canonicalOutputs bs, hasAddr db.address_balances r.address
  heights : bs.map (·.height) = List.range' 1 bs.length
  tids : ((chainTxs bs).map (·.id)).Nodup
  bids : (bs.map (·.id)).Nodup
  refs_pos : ∀ pre B suf, bs = pre ++ B :: suf → ∀ t ∈ B.transactions,
    ∀ i ∈ t.inputs, ∃ r, (canonicalOutputs pre).find? (fun u =>
      u.transaction_id == i.txId && u.output_index == i.index) = some r ∧
      r.is_spent = false
  spend_unique : ∀ (i : Input), ∀ t ∈ chainTxs bs, ∀ u ∈ chainTxs bs,
    i ∈ t.inputs → i ∈ u.inputs → t = u

theorem refs_ids_of_refs_pos (bs : List Block)
    (hrp : ∀ pre B suf, bs = pre ++ B :: suf → ∀ t ∈ B.transactions,
      ∀ i ∈ t.inputs, ∃ r, (canonicalOutputs pre).find? (fun u =>
        u.transaction_id == i.txId && u.output_index == i.index) = some r ∧
        r.is_spent = false) :
    ∀ u ∈ chainTxs bs, ∀ i ∈ u.inputs, ∃ w ∈ chainTxs bs, w.id = i.txId := by
  intro u hu i hi
  rcases List.mem_flatMap.mp hu with ⟨B, hB, huB⟩
  obtain ⟨pre, suf, hsplit⟩ := List.append_of_mem hB
  obtain ⟨r, hr, _⟩ := hrp pre B suf hsplit u huB i hi
  have hrmem : r ∈ canonicalOutputs pre := List.mem_of_find?_eq_some hr
  obtain ⟨w, hw, hwid⟩ := row_gen_id pre (chainTxs pre) r hrmem
  have hrid : r.transaction_id = i.txId := by
    have h3 := List.find?_some hr
    simp only [Bool.and_eq_true, beq_iff_eq] at h3
    exact h3.1
  refine ⟨w, ?_, hwid.trans hrid⟩
  rw [hsplit, chainTxs_append]
  exact List.mem_append_left _ hw

theorem char_base : ChainChar [] DB.empty := by
  refine ⟨rfl, rfl, rfl, fun a => rfl, ?_, rfl, List.nodup_nil, List.nodup_nil,
    ?_, ?_⟩
  · intro r hr
    cases hr
  · intro pre B suf h
    exact absurd (List.append_eq_nil.mp h.symm).2 (by simp)
  · intro i t ht
    cases ht

/-- One processed block extends the canonical characterization. -/
theorem char_step (bs : List Block) (db : DB) (b : Block) (db2 : DB)
    (hc : ChainChar bs db) (hdf : dupFree b)
    (hok : processBlock db b = .ok db2) : ChainChar (bs ++ [b]) db2 := by
  obtain ⟨hz, hh, hiv, hbi⟩ := processBlock_ok_decomp db b db2 hok
  have hres0 := validateInputsExistGo_valid db (b.transactions.flatMap (·.inputs)) 0 hiv
  have hresCan : ∀ t ∈ b.transactions, ∀ i ∈ t.inputs, ∃ r,
      (canonicalOutputs bs).find? (fun u => u.transaction_id == i.txId &&
        u.output_index == i.index) = some r ∧ r.is_spent = false := by
    intro t ht i hi
    obtain ⟨r, hr, hs⟩ := hres0 i (List.mem_flatMap.mpr ⟨t, ht, hi⟩)
    refine ⟨r, ?_, hs⟩
    rw [← hc.outs_eq]
    exact hr
  have hresB : ∀ t ∈ b.transactions, ∀ i ∈ t.inputs, ∃ r,
      findOutput db i.txId i.index = some r := by
    intro t ht i hi
    obtain ⟨r, hr, _⟩ := hres0 i (List.mem_flatMap.mpr ⟨t, ht, hi⟩)
    exact ⟨r, hr⟩
  have hclosed : ∀ r ∈ db.outputs, ∃ u ∈ db.transactions, u.id = r.transaction_id := by
    intro r hr
    rw [hc.outs_eq] at hr
    obtain ⟨w, hw, hwid⟩ := row_gen_id bs (chainTxs bs) r hr
    obtain ⟨row, hrow, hrowid⟩ := mem_chainTxs_canonicalTxs bs w hw
    refine ⟨row, ?_, hrowid.trans hwid⟩
    rw [hc.txs_eq]
    exact hrow
  obtain ⟨cb, ct, co, cbal, cmono, ccov, cfresh, cnodup, cblocks⟩ :=
    blockInsert_ok db b db2 hbi hclosed hresB
  have hn : getCurrentHeight db = bs.length := by
    apply getCurrentHeight_range
    rw [hc.blocks_eq, canonicalBlocks_heights]
    exact hc.heights
  have hbh : b.height = bs.length + 1 := by rw [hh, hn]
  have htidsNew : ((chainTxs (bs ++ [b])).map (·.id)).Nodup := by
    rw [chainTxs_append, chainTxs_singleton, List.map_append]
    refine List.nodup_append.mpr ⟨hc.tids, cnodup, ?_⟩
    intro x hxold hxnew
    rcases List.mem_map.mp hxold with ⟨u, hu, hux⟩
    rcases List.mem_map.mp hxnew with ⟨t, ht, htx⟩
    obtain ⟨row, hrow, hrowid⟩ := mem_chainTxs_canonicalTxs bs u hu
    exact cfresh t ht row (by rw [hc.txs_eq]; exact hrow)
      (by rw [hrowid, hux, ← htx])
  have hold := refs_ids_of_refs_pos bs hc.refs_pos
  have houts : canonicalOutputs (bs ++ [b]) =
      markAll (refPairs b) (canonicalOutputs bs) ++ blockNewRows b :=
    canonicalOutputs_snoc bs b htidsNew hold hdf hresCan
  refine ⟨?_, ?_, ?_, ?_, ?_, ?_, htidsNew, ?_, ?_, ?_⟩
  · rw [cb, hc.blocks_eq, canonicalBlocks_append, canonicalBlocks_singleton]
  · rw [ct, hc.txs_eq, canonicalTxs_append, canonicalTxs_singleton]
  · rw [co, hc.outs_eq, houts]
  · intro a
    rw [cbal a, hc.bal_eq a]
    rw [show (b.transactions.map (fun t => inDelta db.outputs t.inputs a)) =
      b.transactions.map (fun t => inDelta (canonicalOutputs bs) t.inputs a) from by
      rw [hc.outs_eq]]
    rw [canonicalBal_snoc bs b htidsNew hold hdf hresCan a]
  · intro r hr
    rw [houts] at hr
    rcases List.mem_append.mp hr with hr | hr
    · rw [markAll_map] at hr
      rcases List.mem_map.mp hr with ⟨r0, hr0, hr0r⟩
      have haddr : r.address = r0.address := by
        rw [← hr0r]
        exact (markFn_keys (refPairs b) r0).2.2.1
      rw [haddr]
      exact cmono r0.address (hc.cover r0 hr0)
    · unfold blockNewRows at hr
      rcases List.mem_flatMap.mp hr with ⟨t, ht, hrt⟩
      unfold txRows at hrt
      rcases List.mem_map.mp hrt with ⟨p, hp, hpr⟩
      have haddr : r.address = p.2.address := by rw [← hpr]
      rw [haddr]
      apply ccov t ht
      have hmem : p.2 ∈ t.outputs.enum.map Prod.snd := List.mem_map_of_mem _ hp
      rw [show t.outputs.enum.map Prod.snd = t.outputs from by
        unfold List.enum
        exact enumFrom_map_snd t.outputs 0] at hmem
      exact hmem
  · rw [List.map_append, hc.heights,
      show (bs ++ [b]).length = bs.length + 1 by simp, List.range'_concat]
    simp [hbh, Nat.add_comm]
  · rw [List.map_append]
    refine List.nodup_append.mpr ⟨hc.bids, by simp, ?_⟩
    intro x hxold hxnew
    simp only [List.map_cons, List.map_nil, List.mem_singleton] at hxnew
    subst hxnew
    rcases List.mem_map.mp hxold with ⟨b0, hb0, hb0x⟩
    have hmem : (⟨b0.id, b0.height⟩ : BlockRow) ∈ db.blocks := by
      rw [hc.blocks_eq]
      unfold canonicalBlocks
      exact List.mem_map_of_mem _ hb0
    exact (cblocks _ hmem).1 hb0x
  · intro pre B suf hsplit t ht i hi
    rcases snoc_eq_split bs b pre B suf hsplit with ⟨_, hpre, hB⟩ | ⟨suf2, hbs, _⟩
    · subst hpre
      subst hB
      exact hresCan t ht i hi
    · exact hc.refs_pos pre B suf2 hbs t ht i hi
  · intro i t htm u hum hit hiu
    rw [chainTxs_append, chainTxs_singleton] at htm hum
    have hcase : ∀ v ∈ b.transactions, i ∈ v.inputs →
        ∀ w ∈ chainTxs bs, i ∈ w.inputs → False := by
      intro v hv hvi w hw hwi
      obtain ⟨r, hr, hrs⟩ := hresCan v hv i hvi
      have hrmem : r ∈ canonicalOutputs bs := List.mem_of_find?_eq_some hr
      obtain ⟨b2, hb2, t2, ht2, p2, hp2, hp2r⟩ := outputsMarked_mem_inv bs _ r hrmem
      have hkey : t2.id = i.txId ∧ p2.1 = i.index := by
        have h3 := List.find?_some hr
        simp only [Bool.and_eq_true, beq_iff_eq] at h3
        obtain ⟨f1, f2, _⟩ := markRow_fields (chainTxs bs) b2.height t2 p2
        constructor
        · rw [← f1, ← hp2r]
          exact h3.1
        · rw [← f2, ← hp2r]
          exact h3.2
      have hspent : (spenderIn (chainTxs bs) t2.id p2.1).isSome = false := by
        have f5 := (markRow_fields (chainTxs bs) b2.height t2 p2).2.2.2.2.2.1
        rw [← hp2r] at f5
        rw [← f5, hrs]
      have hnone : spenderIn (chainTxs bs) t2.id p2.1 = none := by
        rcases hsp : spenderIn (chainTxs bs) t2.id p2.1 with _ | s
        · rfl
        · rw [hsp] at hspent
          cases hspent
      have hnomem := spenderIn_eq_none_inv (chainTxs bs) t2.id p2.1 hnone w hw
      apply hnomem
      rw [hkey.1, hkey.2]
      rw [show (⟨i.txId, i.index⟩ : Input) = i from rfl]
      exact hwi
    rcases List.mem_append.mp htm with htm | htm <;>
      rcases List.mem_append.mp hum with hum | hum
    · exact hc.spend_unique i t htm u hum hit hiu
    · exact (hcase u hum hiu t htm hit).elim
    · exact (hcase t htm hit u hum hiu).elim
    · exact dupFree_unique b hdf t htm u hum i hit hiu

theorem processChain_cons (s : DB) (b : Block) (l : List Block) :
    processChain s (b :: l) =
      (processBlock s b).bind (fun d => processChain d l) := rfl

theorem processChain_append (s : DB) (l1 l2 : List Block) :
    processChain s (l1 ++ l2) =
      (processChain s l1).bind (fun d => processChain d l2) := by
  induction l1 generalizing s with
  | nil => rfl
  | cons b rest ih =>
    rw [List.cons_append, processChain_cons, processChain_cons]
    rcases hp : processBlock s b with e | d
    · rfl
    · show processChain d (rest ++ l2) = _
      exact ih d

/-- Any database reached from the empty store by processing a chain of
duplicate-free blocks has the canonical shape. -/
theorem chain_char : ∀ (bs : List Block) (db : DB),
    processChain DB.empty bs = .ok db → (∀ b ∈ bs, dupFree b) →
    ChainChar bs db := by
  intro bs
  induction bs using List.reverseRecOn with
  | nil =>
    intro db hok _
    have h : (Except.ok DB.empty : Except ProcessError DB) = .ok db := hok
    rw [← Except.ok.inj h]
    exact char_base
  | append_singleton bs b ih =>
    intro db hok hdf
    rw [processChain_append] at hok
    rcases hp : processChain DB.empty bs with e | mid
    · rw [hp] at hok
      cases hok
    · rw [hp] at hok
      replace hok : (processBlock mid b).bind
          (fun d => processChain d []) = .ok db := hok
      rcases hq : processBlock mid b with e | d
      · rw [hq] at hok
        cases hok
      · rw [hq] at hok
        replace hok : (Except.ok d : Except ProcessError DB) = .ok db := hok
        have hd : d = db := Except.ok.inj hok
        rw [hd] at hq
        exact char_step bs mid b db
          (ih mid hp (fun x hx => hdf x (List.mem_append_left _ hx)))
          (hdf b (by simp)) hq

/-! ### Unspending: the rollback inverse of marking. -/

theorem unspendByTx_no_match (outs : List OutputRow) (tid : String)
    (h : ∀ r ∈ outs, (r.spent_in_transaction_id == some tid) = false) :
    unspendByTx outs tid = outs := by
  unfold unspendByTx
  apply map_id_of_eq
  intro r hr
  rw [if_neg (by simp [h r hr])]

theorem unspendByTx_idem (outs : List OutputRow) (tid : String) :
    unspendByTx (unspendByTx outs tid) tid = unspendByTx outs tid := by
  unfold unspendByTx
  rw [List.map_map]
  apply List.map_congr_left
  intro r _
  simp only [Function.comp_apply]
  rcases hm : (r.spent_in_transaction_id == some tid)
  · simp [hm]
  · simp [hm]

theorem chainOutput_mono (pre rest : List Block) (tid : String) (idx : Nat)
    (o : Output)
    (htids : ((chainTxs (pre ++ rest)).map (·.id)).Nodup)
    (h : chainOutput pre tid idx = some o) :
    chainOutput (pre ++ rest) tid idx = some o := by
  unfold chainOutput at h ⊢
  rcases hf : (chainTxs pre).find? (fun t => t.id == tid) with _ | t
  · rw [hf] at h
    cases h
  · rw [hf] at h
    have ht : t ∈ chainTxs pre := List.mem_of_find?_eq_some hf
    have htid := List.find?_some hf
    have hmem : t ∈ chainTxs (pre ++ rest) := by
      rw [chainTxs_append]
      exact List.mem_append_left _ ht
    have hfind : (chainTxs (pre ++ rest)).find? (fun u => u.id == tid) = some t := by
      apply find?_eq_some_of_unique _ _ t hmem htid
      intro v hv hpv
      apply map_nodup_mem_inj _ _ htids v hv t hmem
      rw [show v.id = tid from by simpa using hpv,
        show t.id = tid from by simpa using htid]
    rw [hfind]
    exact h

/-- Unspending by one transaction removes exactly its marks: the table for
spender set C ++ t :: l2 becomes the table for C ++ l2. -/
theorem outputsMarked_unspend (bs : List Block) (C l2 : List Transaction)
    (t : Transaction)
    (htids : ((chainTxs bs).map (·.id)).Nodup)
    (huniq : ∀ (i : Input), ∀ v ∈ chainTxs bs, ∀ w ∈ chainTxs bs,
      i ∈ v.inputs → i ∈ w.inputs → v = w)
    (hsub : ∀ v ∈ C ++ t :: l2, v ∈ chainTxs bs)
    (ht : t ∈ chainTxs bs)
    (htC : t ∉ C) (htl : t ∉ l2) :
    unspendByTx (outputsMarked bs (C ++ t :: l2)) t.id =
      outputsMarked bs (C ++ l2) := by
  unfold unspendByTx outputsMarked
  rw [List.map_flatMap]
  apply flatMap_congr_mem
  intro b' hb'
  rw [List.map_flatMap]
  apply flatMap_congr_mem
  intro t' ht'
  rw [List.map_map]
  apply List.map_congr_left
  intro p hp
  show (fun r : OutputRow => if r.spent_in_transaction_id == some t.id then
      { r with is_spent := false, spent_in_transaction_id := none } else r)
    (markRow (C ++ t :: l2) b'.height t' p) = markRow (C ++ l2) b'.height t' p
  rcases hs : spenderIn (C ++ t :: l2) t'.id p.1 with _ | sid
  · have hrow : markRow (C ++ t :: l2) b'.height t' p =
        ⟨t'.id, p.1, p.2.address, p.2.value, false, none, b'.height⟩ := by
      unfold markRow
      rw [hs]
    have hs2 : spenderIn (C ++ l2) t'.id p.1 = none := by
      apply spenderIn_none
      intro v hv hvmem
      refine spenderIn_eq_none_inv _ _ _ hs v ?_ hvmem
      rcases List.mem_append.mp hv with h1 | h1
      · exact List.mem_append_left _ h1
      · exact List.mem_append_right _ (List.mem_cons_of_mem t h1)
    rw [hrow]
    unfold markRow
    rw [hs2]
    simp
  · obtain ⟨u, hu, huid, humem⟩ := spenderIn_eq_some_inv _ _ _ _ hs
    have hrow : markRow (C ++ t :: l2) b'.height t' p =
        ⟨t'.id, p.1, p.2.address, p.2.value, true, some sid, b'.height⟩ := by
      unfold markRow
      rw [hs]
    by_cases hut : u = t
    · subst hut
      have hs2 : spenderIn (C ++ l2) t'.id p.1 = none := by
        apply spenderIn_none
        intro v hv hvmem
        have hvchain : v ∈ chainTxs bs := hsub v (by
          rcases List.mem_append.mp hv with h1 | h1
          · exact List.mem_append_left _ h1
          · exact List.mem_append_right _ (List.mem_cons_of_mem u h1))
        have hvt : v = u := huniq _ v hvchain u ht hvmem humem
        subst hvt
        rcases List.mem_append.mp hv with h1 | h1
        · exact htC h1
        · exact htl h1
      rw [hrow]
      unfold markRow
      rw [hs2]
      simp [huid.symm]
    · have hne : u.id ≠ t.id := fun he =>
        hut (map_nodup_mem_inj _ _ htids u (hsub u hu) t ht he)
      have hu2 : u ∈ C ++ l2 := by
        rcases List.mem_append.mp hu with h1 | h1
        · exact List.mem_append_left _ h1
        · rcases List.mem_cons.mp h1 with h2 | h2
          · exact absurd h2 hut
          · exact List.mem_append_right _ h2
      have hs2 : spenderIn (C ++ l2) t'.id p.1 = some u.id := by
        refine spenderIn_eq_some_of (C ++ l2) u (⟨t'.id, p.1⟩ : Input) hu2 humem ?_
        intro v hv hvmem
        refine huniq _ v (hsub v ?_) u (hsub u hu) hvmem humem
        rcases List.mem_append.mp hv with h1 | h1
        · exact List.mem_append_left _ h1
        · exact List.mem_append_right _ (List.mem_cons_of_mem t h1)
      rw [hrow]
      unfold markRow
      rw [hs2]
      simp [huid.symm, hne]

/-! ### Snapshot sums for the rollback loops. -/

theorem sum_filter_addr (l : List OutputRow) (a : String) :
    ((l.filter (fun r => r.address == a)).map (fun r => (r.value : Int))).sum =
      (l.map (fun r => if r.address == a then (r.value : Int) else 0)).sum := by
  induction l with
  | nil => rfl
  | cons r rest ih =>
    rcases ha : (r.address == a)
    · rw [List.filter_cons_of_neg (by simp [ha]), List.map_cons, List.sum_cons, ih]
      simp [ha]
    · rw [List.filter_cons_of_pos (by simp [ha]), List.map_cons, List.sum_cons,
        List.map_cons, List.sum_cons, ih]
      simp [ha]

theorem neg_sum_map (l : List OutputRow) (f : OutputRow → Int) :
    (l.map (fun r => -(f r))).sum = -((l.map f).sum) := by
  induction l with
  | nil => simp
  | cons r rest ih =>
    rw [List.map_cons, List.sum_cons, List.map_cons, List.sum_cons, ih]
    ring

theorem keysOf_resolvedRows (rows : List OutputRow) (inputs : List Input)
    (hres : ∀ i ∈ inputs, ∃ r, rows.find? (fun u => u.transaction_id == i.txId &&
      u.output_index == i.index) = some r) :
    keysOf (resolvedRows rows inputs) = inputs.map (fun i => (i.txId, i.index)) := by
  induction inputs with
  | nil => rfl
  | cons i rest ih =>
    obtain ⟨r, hr⟩ := hres i (List.mem_cons_self i rest)
    unfold resolvedRows
    rw [List.filterMap_cons, hr]
    show keysOf (r :: resolvedRows rows rest) = _
    have hkey : r.transaction_id = i.txId ∧ r.output_index = i.index := by
      have h3 := List.find?_some hr
      simpa using h3
    show (r.transaction_id, r.output_index) :: keysOf (resolvedRows rows rest) = _
    rw [hkey.1, hkey.2, List.map_cons,
      ih (fun j hj => hres j (List.mem_cons_of_mem i hj))]

theorem resolvedRows_nodup (rows : List OutputRow) (inputs : List Input)
    (hres : ∀ i ∈ inputs, ∃ r, rows.find? (fun u => u.transaction_id == i.txId &&
      u.output_index == i.index) = some r) (hinp : inputs.Nodup) :
    (resolvedRows rows inputs).Nodup := by
  apply List.Nodup.of_map (fun r : OutputRow => (r.transaction_id, r.output_index))
  show (keysOf (resolvedRows rows inputs)).Nodup
  rw [keysOf_resolvedRows rows inputs hres]
  exact hinp.map (fun i j hij => Input_ext i j
    (congrArg Prod.fst hij) (congrArg Prod.snd hij))

theorem filter_perm_resolved (rows : List OutputRow) (inputs : List Input)
    (P : OutputRow → Bool)
    (hkeys : (keysOf rows).Nodup) (hinp : inputs.Nodup)
    (hPiff : ∀ r ∈ rows, (P r = true ↔
      (⟨r.transaction_id, r.output_index⟩ : Input) ∈ inputs))
    (hres : ∀ i ∈ inputs, ∃ r, rows.find? (fun u => u.transaction_id == i.txId &&
      u.output_index == i.index) = some r) :
    (rows.filter P).Perm (resolvedRows rows inputs) := by
  apply (List.perm_ext_iff_of_nodup ((List.Nodup.of_map _ hkeys).filter P)
    (resolvedRows_nodup rows inputs hres hinp)).mpr
  intro r
  constructor
  · intro hr
    obtain ⟨hrr, hP⟩ := List.mem_filter.mp hr
    have hkmem := (hPiff r hrr).mp hP
    exact List.mem_filterMap.mpr ⟨⟨r.transaction_id, r.output_index⟩, hkmem,
      find?_key_of_mem rows hkeys r hrr⟩
  · intro hr
    rcases List.mem_filterMap.mp hr with ⟨i, hi, hfind⟩
    have hrmem : r ∈ rows := List.mem_of_find?_eq_some hfind
    have hkey : r.transaction_id = i.txId ∧ r.output_index = i.index := by
      have h3 := List.find?_some hfind
      simpa using h3
    refine List.mem_filter.mpr ⟨hrmem, (hPiff r hrmem).mpr ?_⟩
    rw [show (⟨r.transaction_id, r.output_index⟩ : Input) = i from
      Input_ext _ _ hkey.1 hkey.2]
    exact hi

theorem sum_over_resolved (rows : List OutputRow) (inputs : List Input)
    (P : OutputRow → Bool) (a : String)
    (hperm : (rows.filter P).Perm (resolvedRows rows inputs)) :
    ((rows.filter P).map (fun r => if r.address == a then (r.value : Int) else 0)).sum
      = inDelta rows inputs a := by
  rw [(hperm.map _).sum_eq]
  unfold inDelta
  rw [sum_filter_addr]

/-! ### Balance folds of the rollback loops. -/

theorem foldl_updRows_hasAddr (L : List OutputRow) (g : OutputRow → Int) (hh : Nat) :
    ∀ (bal : List BalanceRow) (x : String),
    hasAddr (L.foldl (fun b r => updateBalanceRows b r.address (g r) hh) bal) x ↔
      hasAddr bal x := by
  induction L with
  | nil => intro bal x; rfl
  | cons r L ih =>
    intro bal x
    rw [List.foldl_cons, ih, hasAddr_update]

theorem foldl_updRows_balVal (L : List OutputRow) (g : OutputRow → Int) (hh : Nat) :
    ∀ (bal : List BalanceRow), (∀ r ∈ L, hasAddr bal r.address) → ∀ a,
    balVal (L.foldl (fun b r => updateBalanceRows b r.address (g r) hh) bal) a =
      balVal bal a + ((L.filter (fun r => r.address == a)).map g).sum := by
  induction L with
  | nil =>
    intro bal _ a
    simp
  | cons r L ih =>
    intro bal hcov a
    rw [List.foldl_cons]
    rw [ih _ (fun x hx => (hasAddr_update _ _ _ _ _).mpr
      (hcov x (List.mem_cons_of_mem r hx))) a]
    by_cases hra : r.address = a
    · rw [List.filter_cons_of_pos (by simp [hra]), List.map_cons, List.sum_cons]
      rw [show balVal (updateBalanceRows bal r.address (g r) hh) a =
          balVal bal a + g r from by
        rw [← hra]
        exact balVal_update_self bal r.address (g r) hh
          (hcov r (List.mem_cons_self r L))]
      ring
    · rw [List.filter_cons_of_neg (by simp [hra])]
      rw [balVal_update_other bal r.address (g r) hh a
        (fun he => hra he.symm)]

/-! ### Effects of the two per-transaction rollback loops. -/

theorem rollbackTxOutputs_eff (d : DB) (tid : String) (hB : Nat) :
    (rollbackTxOutputs d tid hB).blocks = d.blocks ∧
    (rollbackTxOutputs d tid hB).transactions = d.transactions ∧
    (rollbackTxOutputs d tid hB).outputs = d.outputs ∧
    (∀ x, hasAddr (rollbackTxOutputs d tid hB).address_balances x ↔
      hasAddr d.address_balances x) ∧
    ((∀ r ∈ d.outputs.filter (fun r => r.transaction_id == tid),
        hasAddr d.address_balances r.address) → ∀ a,
      balVal (rollbackTxOutputs d tid hB).address_balances a =
        balVal d.address_balances a -
        (((d.outputs.filter (fun r => r.transaction_id == tid)).filter
          (fun r => r.address == a)).map (fun r => (r.value : Int))).sum) := by
  unfold rollbackTxOutputs
  refine ⟨rfl, rfl, rfl, ?_, ?_⟩
  · intro x
    exact foldl_updRows_hasAddr _ (fun r => -(r.value : Int)) (hB - 1) _ x
  · intro hcov a
    rw [foldl_updRows_balVal _ (fun r => -(r.value : Int)) (hB - 1) _ hcov a,
      neg_sum_map]
    ring

/-- The step of the rollbackBlock inputs loop, named for reasoning. -/
def unspendStep (tid : String) (hh : Nat) (d : DB) (r : OutputRow) : DB :=
  { d with
    outputs := unspendByTx d.outputs tid,
    address_balances :=
      updateBalanceRows d.address_balances r.address (r.value : Int) hh }

theorem rollbackTxInputs_eq_fold (d : DB) (tid : String) (hB : Nat) :
    rollbackTxInputs d tid hB =
      (d.outputs.filter (fun r => r.spent_in_transaction_id == some tid)).foldl
        (unspendStep tid (hB - 1)) d := rfl

theorem fold_unspend_eff (tid : String) (hh : Nat) : ∀ (L : List OutputRow) (d : DB),
    (L.foldl (unspendStep tid hh) d).blocks = d.blocks ∧
    (L.foldl (unspendStep tid hh) d).transactions = d.transactions ∧
    (L = [] → (L.foldl (unspendStep tid hh) d).outputs = d.outputs) ∧
    (L ≠ [] → (L.foldl (unspendStep tid hh) d).outputs = unspendByTx d.outputs tid) ∧
    (∀ x, hasAddr (L.foldl (unspendStep tid hh) d).address_balances x ↔
      hasAddr d.address_balances x) ∧
    ((∀ r ∈ L, hasAddr d.address_balances r.address) → ∀ a,
      balVal (L.foldl (unspendStep tid hh) d).address_balances a =
        balVal d.address_balances a +
        ((L.filter (fun r => r.address == a)).map (fun r => (r.value : Int))).sum) := by
  intro L
  induction L with
  | nil =>
    intro d
    exact ⟨rfl, rfl, fun _ => rfl, fun h => absurd rfl h, fun _ => Iff.rfl,
      fun _ a => by simp⟩
  | cons r L ih =>
    intro d
    rw [List.foldl_cons]
    obtain ⟨ib, it, inil, icons, ih5, ih6⟩ := ih (unspendStep tid hh d r)
    have hstepo : (unspendStep tid hh d r).outputs = unspendByTx d.outputs tid := rfl
    have hstepb : (unspendStep tid hh d r).address_balances =
      updateBalanceRows d.address_balances r.address (r.value : Int) hh := rfl
    refine ⟨ib, it, fun h => absurd h (by simp), ?_, ?_, ?_⟩
    · intro _
      by_cases hL : L = []
      · rw [inil hL, hstepo]
      · rw [icons hL, hstepo]
        exact unspendByTx_idem d.outputs tid
    · intro x
      rw [ih5 x, hstepb]
      exact hasAddr_update _ _ _ _ _
    · intro hcov a
      rw [ih6 (fun x hx => by
        rw [hstepb]
        exact (hasAddr_update _ _ _ _ _).mpr (hcov x (List.mem_cons_of_mem r hx))) a]
      rw [hstepb]
      by_cases hra : r.address = a
      · rw [List.filter_cons_of_pos (by simp [hra]), List.map_cons, List.sum_cons]
        rw [show balVal (updateBalanceRows d.address_balances r.address
            (r.value : Int) hh) a = balVal d.address_balances a + (r.value : Int) from by
          rw [← hra]
          exact balVal_update_self d.address_balances r.address (r.value : Int) hh
            (hcov r (List.mem_cons_self r L))]
        ring
      · rw [List.filter_cons_of_neg (by simp [hra])]
        rw [balVal_update_other d.address_balances r.address (r.value : Int) hh a
          (fun he => hra he.symm)]

theorem rollbackTxInputs_eff (d : DB) (tid : String) (hB : Nat) :
    (rollbackTxInputs d tid hB).blocks = d.blocks ∧
    (rollbackTxInputs d tid hB).transactions = d.transactions ∧
    (rollbackTxInputs d tid hB).outputs = unspendByTx d.outputs tid ∧
    (∀ x, hasAddr (rollbackTxInputs d tid hB).address_balances x ↔
      hasAddr d.address_balances x) ∧
    ((∀ r ∈ d.outputs.filter (fun r => r.spent_in_transaction_id == some tid),
        hasAddr d.address_balances r.address) → ∀ a,
      balVal (rollbackTxInputs d tid hB).address_balances a =
        balVal d.address_balances a +
        (((d.outputs.filter (fun r => r.spent_in_transaction_id == some tid)).filter
          (fun r => r.address == a)).map (fun r => (r.value : Int))).sum) := by
  rw [rollbackTxInputs_eq_fold]
  obtain ⟨ib, it, inil, icons, ih5, ih6⟩ := fold_unspend_eff tid (hB - 1)
    (d.outputs.filter (fun r => r.spent_in_transaction_id == some tid)) d
  refine ⟨ib, it, ?_, ih5, ih6⟩
  rcases hL : d.outputs.filter (fun r => r.spent_in_transaction_id == some tid)
      with _ | ⟨r2, L2⟩
  · rw [hL] at inil
    rw [hL, inil rfl]
    symm
    apply unspendByTx_no_match
    intro r hr
    have h2 := List.filter_eq_nil_iff.mp hL r hr
    simpa using h2
  · rw [hL] at icons
    rw [hL]
    exact icons (by simp)

/-! ### Locating one transaction's rows and marks in the table. -/

theorem chainTxs_cons (B : Block) (suf : List Block) :
    chainTxs (B :: suf) = B.transactions ++ chainTxs suf := rfl

theorem filter_flatMap {α : Type} (l : List α) (f : α → List OutputRow)
    (p : OutputRow → Bool) :
    (l.flatMap f).filter p = l.flatMap (fun x => (f x).filter p) := by
  induction l with
  | nil => rfl
  | cons x xs ih =>
    rw [List.flatMap_cons, List.flatMap_cons, List.filter_append, ih]

theorem not_id_mem_of_split (X Y : List Transaction) (t : Transaction)
    (h : (((X ++ t :: Y)).map (·.id)).Nodup) :
    (∀ u ∈ X, u.id ≠ t.id) ∧ (∀ u ∈ Y, u.id ≠ t.id) := by
  rw [List.map_append, List.map_cons] at h
  obtain ⟨h1, h2, hdisj⟩ := List.nodup_append.mp h
  obtain ⟨h3, _⟩ := List.nodup_cons.mp h2
  constructor
  · intro u hu he
    apply hdisj (List.mem_map_of_mem (·.id) hu)
    rw [he]
    exact List.mem_cons_self _ _
  · intro u hu he
    apply h3
    rw [← he]
    exact List.mem_map_of_mem (·.id) hu

theorem chainTxs_split (pre suf : List Block) (B : Block)
    (l1 l2 : List Transaction) (t : Transaction)
    (hBt : B.transactions = l1 ++ t :: l2) :
    chainTxs (pre ++ B :: suf) =
      (chainTxs pre ++ l1) ++ t :: (l2 ++ chainTxs suf) := by
  rw [chainTxs_append, chainTxs_cons, hBt]
  simp

theorem seg_filter_nil (S : List Transaction) (h : Nat) (u : Transaction)
    (t : Transaction) (hne : u.id ≠ t.id) :
    (u.outputs.enum.map (markRow S h u)).filter
      (fun r => r.transaction_id == t.id) = [] := by
  apply List.filter_eq_nil_iff.mpr
  intro r hr
  rcases List.mem_map.mp hr with ⟨p, _, hpr⟩
  have hf := (markRow_fields S h u p).1
  rw [hpr] at hf
  simp [hf, hne]

theorem part_filter_nil (bs : List Block) (S : List Transaction) (t : Transaction)
    (hne : ∀ u ∈ chainTxs bs, u.id ≠ t.id) :
    (outputsMarked bs S).filter (fun r => r.transaction_id == t.id) = [] := by
  apply List.filter_eq_nil_iff.mpr
  intro r hr
  obtain ⟨w, hw, hwid⟩ := row_gen_id bs S r hr
  simp [← hwid, hne w hw]

/-- The rows whose transaction_id is t's are exactly t's own segment. -/
theorem filter_by_tid (bs : List Block) (S : List Transaction)
    (pre suf : List Block) (B : Block) (l1 l2 : List Transaction) (t : Transaction)
    (hbs : bs = pre ++ B :: suf) (hBt : B.transactions = l1 ++ t :: l2)
    (htids : ((chainTxs bs).map (·.id)).Nodup) :
    (outputsMarked bs S).filter (fun r => r.transaction_id == t.id) =
      t.outputs.enum.map (markRow S B.height t) := by
  have hsplit : chainTxs bs = (chainTxs pre ++ l1) ++ t :: (l2 ++ chainTxs suf) := by
    rw [hbs]
    exact chainTxs_split pre suf B l1 l2 t hBt
  have hids := not_id_mem_of_split _ _ t (by rw [← hsplit]; exact htids)
  have hneL : ∀ u ∈ chainTxs pre ++ l1, u.id ≠ t.id := hids.1
  have hneR : ∀ u ∈ l2 ++ chainTxs suf, u.id ≠ t.id := hids.2
  rw [hbs, show pre ++ B :: suf = pre ++ [B] ++ suf by simp,
    outputsMarked_append, outputsMarked_append, List.filter_append,
    List.filter_append, outputsMarked_singleton, hBt, List.flatMap_append,
    List.flatMap_cons, List.filter_append, List.filter_append]
  rw [part_filter_nil pre S t (fun u hu => hneL u (List.mem_append_left _ hu))]
  rw [part_filter_nil suf S t (fun u hu => hneR u (List.mem_append_right _ hu))]
  rw [show (l1.flatMap (fun t' => t'.outputs.enum.map (markRow S B.height t'))).filter
      (fun r => r.transaction_id == t.id) = [] from by
    rw [filter_flatMap]
    apply List.flatMap_eq_nil_iff.mpr
    intro u hu
    exact seg_filter_nil S B.height u t (hneL u (List.mem_append_right _ hu))]
  rw [show (l2.flatMap (fun t' => t'.outputs.enum.map (markRow S B.height t'))).filter
      (fun r => r.transaction_id == t.id) = [] from by
    rw [filter_flatMap]
    apply List.flatMap_eq_nil_iff.mpr
    intro u hu
    exact seg_filter_nil S B.height u t (hneR u (List.mem_append_left _ hu))]
  rw [List.filter_eq_self.mpr (by
    intro r hr
    rcases List.mem_map.mp hr with ⟨p, _, hpr⟩
    have hf := (markRow_fields S B.height t p).1
    rw [hpr] at hf
    simp [hf])]
  simp

theorem seg_addr_sum (S : List Transaction) (h : Nat) (t : Transaction) (a : String) :
    (((t.outputs.enum.map (markRow S h t)).filter
      (fun r => r.address == a)).map (fun r => (r.value : Int))).sum = outDelta t a := by
  rw [sum_filter_addr, List.map_map, outDelta_eq_mapIf]
  have hco : ((fun r : OutputRow => if r.address == a then (r.value : Int) else 0)
      ∘ markRow S h t) = (fun o : Output =>
        if o.address == a then (o.value : Int) else 0) ∘ Prod.snd := by
    funext p
    obtain ⟨_, _, f3, f4, _⟩ := markRow_fields S h t p
    simp [Function.comp, f3, f4]
  rw [hco, ← List.map_map]
  rw [show t.outputs.enum.map Prod.snd = t.outputs from by
    unfold List.enum
    exact enumFrom_map_snd t.outputs 0]

theorem cov_rows (bs : List Block) (S : List Transaction) (bal : List BalanceRow)
    (hcov : ∀ b' ∈ bs, ∀ t' ∈ b'.transactions, ∀ o ∈ t'.outputs,
      hasAddr bal o.address) :
    ∀ r ∈ outputsMarked bs S, hasAddr bal r.address := by
  intro r hr
  obtain ⟨b', hb', t', ht', p, hp, hpr⟩ := outputsMarked_mem_inv bs S r hr
  have haddr : r.address = p.2.address := by
    rw [hpr]
    exact (markRow_fields S b'.height t' p).2.2.1
  rw [haddr]
  apply hcov b' hb' t' ht'
  have hmem : p.2 ∈ t'.outputs.enum.map Prod.snd := List.mem_map_of_mem _ hp
  rw [show t'.outputs.enum.map Prod.snd = t'.outputs from by
    unfold List.enum
    exact enumFrom_map_snd t'.outputs 0] at hmem
  exact hmem

/-- A reference resolved in the prefix table resolves in any marking of the
full table, to a row with the same address and value. -/
theorem mid_resolution (bs : List Block) (pre suf : List Block) (B : Block)
    (S : List Transaction) (hbs : bs = pre ++ B :: suf)
    (htids : ((chainTxs bs).map (·.id)).Nodup)
    (i : Input) (r0 : OutputRow)
    (hfind : (canonicalOutputs pre).find? (fun u => u.transaction_id == i.txId &&
      u.output_index == i.index) = some r0) :
    ∃ r, (outputsMarked bs S).find? (fun u => u.transaction_id == i.txId &&
      u.output_index == i.index) = some r ∧
      chainOutput pre i.txId i.index = some ⟨r.address, r.value⟩ ∧
      r.address = r0.address ∧ r.value = r0.value ∧
      r.is_spent = (spenderIn S i.txId i.index).isSome ∧
      r.spent_in_transaction_id = spenderIn S i.txId i.index := by
  have hpre_tids : ((chainTxs pre).map (·.id)).Nodup := by
    have h0 := htids
    rw [hbs, chainTxs_append, List.map_append] at h0
    exact (List.nodup_append.mp h0).1
  have hr0mem : r0 ∈ canonicalOutputs pre := List.mem_of_find?_eq_some hfind
  have hkey : r0.transaction_id = i.txId ∧ r0.output_index = i.index := by
    simpa using List.find?_some hfind
  have hco_pre : chainOutput pre i.txId i.index = some ⟨r0.address, r0.value⟩ := by
    rw [← hkey.1, ← hkey.2]
    exact chainOutput_of_row pre (chainTxs pre) hpre_tids r0 hr0mem
  have hco : chainOutput bs i.txId i.index = some ⟨r0.address, r0.value⟩ := by
    rw [hbs]
    apply chainOutput_mono
    · rw [← hbs]
      exact htids
    · exact hco_pre
  obtain ⟨r, hrmem, f1, f2, f3, f4, f5, f6⟩ :=
    row_of_chainOutput bs S i.txId i.index ⟨r0.address, r0.value⟩ hco
  have hkeysS : (keysOf (outputsMarked bs S)).Nodup := keys_nodup_of_tids bs S htids
  have hfindr := find?_key_of_mem (outputsMarked bs S) hkeysS r hrmem
  rw [f1, f2] at hfindr
  refine ⟨r, hfindr, ?_, f3, f4, f5, f6⟩
  rw [f3, f4]
  exact hco_pre

/-- In the mid-state table, the rows marked as spent by t are exactly the
rows whose key t references. -/
theorem spent_by_iff (bs : List Block) (pre suf : List Block) (B : Block)
    (l1 l2 : List Transaction) (t : Transaction)
    (hbs : bs = pre ++ B :: suf) (hBt : B.transactions = l1 ++ t :: l2)
    (htids : ((chainTxs bs).map (·.id)).Nodup)
    (huniq : ∀ (i : Input), ∀ v ∈ chainTxs bs, ∀ w ∈ chainTxs bs,
      i ∈ v.inputs → i ∈ w.inputs → v = w) :
    ∀ r ∈ outputsMarked bs (chainTxs pre ++ t :: l2),
      ((r.spent_in_transaction_id == some t.id) = true ↔
        (⟨r.transaction_id, r.output_index⟩ : Input) ∈ t.inputs) := by
  have hsplit : chainTxs bs = (chainTxs pre ++ l1) ++ t :: (l2 ++ chainTxs suf) := by
    rw [hbs]
    exact chainTxs_split pre suf B l1 l2 t hBt
  have ht : t ∈ chainTxs bs := by
    rw [hsplit]
    exact List.mem_append_right _ (List.mem_cons_self _ _)
  have hsub : ∀ v ∈ chainTxs pre ++ t :: l2, v ∈ chainTxs bs := by
    intro v hv
    rw [hsplit]
    rcases List.mem_append.mp hv with h1 | h1
    · exact List.mem_append_left _ (List.mem_append_left _ h1)
    · rcases List.mem_cons.mp h1 with h2 | h2
      · exact h2 ▸ List.mem_append_right _ (List.mem_cons_self _ _)
      · exact List.mem_append_right _ (List.mem_cons_of_mem _
          (List.mem_append_left _ h2))
  intro r hr
  obtain ⟨b2, hb2, t2, ht2, p2, hp2, hp2r⟩ := outputsMarked_mem_inv bs _ r hr
  obtain ⟨f1, f2, _, _, _, _, f7⟩ :=
    markRow_fields (chainTxs pre ++ t :: l2) b2.height t2 p2
  rw [← hp2r] at f1 f2 f7
  constructor
  · intro hmark
    rw [f7] at hmark
    rcases hsp : spenderIn (chainTxs pre ++ t :: l2) t2.id p2.1 with _ | sid
    · rw [hsp] at hmark
      cases hmark
    · rw [hsp] at hmark
      have hsid : sid = t.id := by simpa using hmark
      obtain ⟨u, hu, huid, humem⟩ := spenderIn_eq_some_inv _ _ _ _ hsp
      have hut : u = t := map_nodup_mem_inj _ _ htids u (hsub u hu) t ht
        (by rw [huid, hsid])
      rw [f1, f2]
      rw [← hut]
      exact humem
  · intro hmem
    have hukey : (⟨t2.id, p2.1⟩ : Input) ∈ t.inputs := by
      rw [f1, f2] at hmem
      exact hmem
    have hsp : spenderIn (chainTxs pre ++ t :: l2) t2.id p2.1 = some t.id := by
      refine spenderIn_eq_some_of _ t (⟨t2.id, p2.1⟩ : Input)
        (List.mem_append_right _ (List.mem_cons_self _ _)) hukey ?_
      intro v hv hvmem
      exact huniq _ v (hsub v hv) t ht hvmem hukey
    rw [f7, hsp]
    simp

/-- Rolling back one transaction of block B in the mid-state: its marks are
removed and its balance effect is reversed. -/
theorem roll_tx_step (bs : List Block) (pre suf : List Block) (B : Block)
    (l1 l2 : List Transaction) (t : Transaction) (d : DB)
    (hbs : bs = pre ++ B :: suf)
    (hBt : B.transactions = l1 ++ t :: l2)
    (htids : ((chainTxs bs).map (·.id)).Nodup)
    (huniq : ∀ (i : Input), ∀ v ∈ chainTxs bs, ∀ w ∈ chainTxs bs,
      i ∈ v.inputs → i ∈ w.inputs → v = w)
    (hinp : t.inputs.Nodup)
    (hrefs : ∀ i ∈ t.inputs, ∃ r0, (canonicalOutputs pre).find? (fun u =>
      u.transaction_id == i.txId && u.output_index == i.index) = some r0)
    (hdout : d.outputs = outputsMarked bs (chainTxs pre ++ t :: l2))
    (hcov : ∀ b' ∈ bs, ∀ t' ∈ b'.transactions, ∀ o ∈ t'.outputs,
      hasAddr d.address_balances o.address) :
    (rollbackTxInputs (rollbackTxOutputs d t.id B.height) t.id B.height).blocks
      = d.blocks ∧
    (rollbackTxInputs (rollbackTxOutputs d t.id B.height) t.id B.height).transactions
      = d.transactions ∧
    (rollbackTxInputs (rollbackTxOutputs d t.id B.height) t.id B.height).outputs
      = outputsMarked bs (chainTxs pre ++ l2) ∧
    (∀ a, balVal (rollbackTxInputs (rollbackTxOutputs d t.id B.height)
        t.id B.height).address_balances a =
      balVal d.address_balances a - outDelta t a + refSum pre t.inputs a) ∧
    (∀ x, hasAddr (rollbackTxInputs (rollbackTxOutputs d t.id B.height)
        t.id B.height).address_balances x ↔ hasAddr d.address_balances x) := by
  obtain ⟨o1, o2, o3, o4, o5⟩ := rollbackTxOutputs_eff d t.id B.height
  obtain ⟨i1, i2, i3, i4, i5⟩ :=
    rollbackTxInputs_eff (rollbackTxOutputs d t.id B.height) t.id B.height
  have hsplit : chainTxs bs = (chainTxs pre ++ l1) ++ t :: (l2 ++ chainTxs suf) := by
    rw [hbs]
    exact chainTxs_split pre suf B l1 l2 t hBt
  have hids := not_id_mem_of_split _ _ t (by rw [← hsplit]; exact htids)
  have ht : t ∈ chainTxs bs := by
    rw [hsplit]
    exact List.mem_append_right _ (List.mem_cons_self _ _)
  have hsub : ∀ v ∈ chainTxs pre ++ t :: l2, v ∈ chainTxs bs := by
    intro v hv
    rw [hsplit]
    rcases List.mem_append.mp hv with h1 | h1
    · exact List.mem_append_left _ (List.mem_append_left _ h1)
    · rcases List.mem_cons.mp h1 with h2 | h2
      · exact h2 ▸ List.mem_append_right _ (List.mem_cons_self _ _)
      · exact List.mem_append_right _ (List.mem_cons_of_mem _
          (List.mem_append_left _ h2))
  have htC : t ∉ chainTxs pre := fun hmem =>
    hids.1 t (List.mem_append_left _ hmem) rfl
  have htl : t ∉ l2 := fun hmem =>
    hids.2 t (List.mem_append_left _ hmem) rfl
  have hunsp : unspendByTx (outputsMarked bs (chainTxs pre ++ t :: l2)) t.id =
      outputsMarked bs (chainTxs pre ++ l2) :=
    outputsMarked_unspend bs (chainTxs pre) l2 t htids huniq hsub ht htC htl
  have hcov1 : ∀ r ∈ d.outputs, hasAddr d.address_balances r.address := by
    rw [hdout]
    exact cov_rows bs _ _ hcov
  refine ⟨i1.trans o1, i2.trans o2, ?_, ?_, fun x => (i4 x).trans (o4 x)⟩
  · rw [i3, o3, hdout]
    exact hunsp
  · intro a
    have hdebit := o5 (fun r hr => hcov1 r (List.mem_of_mem_filter hr)) a
    have hcredit := i5 (fun r hr => by
      rw [o3] at hr
      exact (o4 _).mpr (hcov1 r (List.mem_of_mem_filter hr))) a
    rw [hdout] at hdebit
    rw [filter_by_tid bs _ pre suf B l1 l2 t hbs hBt htids] at hdebit
    rw [seg_addr_sum] at hdebit
    rw [o3, hdout] at hcredit
    have hkeysS : (keysOf (outputsMarked bs (chainTxs pre ++ t :: l2))).Nodup :=
      keys_nodup_of_tids bs _ htids
    have hresMid : ∀ i ∈ t.inputs, ∃ r,
        (outputsMarked bs (chainTxs pre ++ t :: l2)).find?
        (fun u => u.transaction_id == i.txId && u.output_index == i.index)
        = some r := by
      intro i hi
      obtain ⟨r0, hr0⟩ := hrefs i hi
      obtain ⟨r, hr, _⟩ := mid_resolution bs pre suf B _ hbs htids i r0 hr0
      exact ⟨r, hr⟩
    have hperm := filter_perm_resolved (outputsMarked bs (chainTxs pre ++ t :: l2))
      t.inputs (fun r => r.spent_in_transaction_id == some t.id) hkeysS hinp
      (spent_by_iff bs pre suf B l1 l2 t hbs hBt htids huniq) hresMid
    have hsum := sum_over_resolved _ t.inputs _ a hperm
    rw [show ((((outputsMarked bs (chainTxs pre ++ t :: l2)).filter
        (fun r => r.spent_in_transaction_id == some t.id)).filter
        (fun r => r.address == a)).map (fun r => (r.value : Int))).sum =
        inDelta (outputsMarked bs (chainTxs pre ++ t :: l2)) t.inputs a from by
      rw [sum_filter_addr]
      exact hsum] at hcredit
    have hmid_ref : inDelta (outputsMarked bs (chainTxs pre ++ t :: l2)) t.inputs a
        = refSum pre t.inputs a := by
      apply inDelta_eq_refSum pre
      intro i hi
      obtain ⟨r0, hr0⟩ := hrefs i hi
      obtain ⟨r, hr, hcoP, _⟩ := mid_resolution bs pre suf B _ hbs htids i r0 hr0
      exact ⟨r, hr, hcoP⟩
    rw [hmid_ref] at hcredit
    rw [hcredit, hdebit]

theorem canonicalTxs_cons (B : Block) (suf : List Block) :
    canonicalTxs (B :: suf) =
      B.transactions.map (fun t => (⟨t.id, B.id, B.height⟩ : TxRow)) ++
        canonicalTxs suf := rfl

theorem not_bid_mem_of_split (X Y : List Block) (B : Block)
    (h : (((X ++ B :: Y)).map (·.id)).Nodup) :
    (∀ u ∈ X, u.id ≠ B.id) ∧ (∀ u ∈ Y, u.id ≠ B.id) := by
  rw [List.map_append, List.map_cons] at h
  obtain ⟨h1, h2, hdisj⟩ := List.nodup_append.mp h
  obtain ⟨h3, _⟩ := List.nodup_cons.mp h2
  constructor
  · intro u hu he
    apply hdisj (List.mem_map_of_mem (·.id) hu)
    rw [he]
    exact List.mem_cons_self _ _
  · intro u hu he
    apply h3
    rw [← he]
    exact List.mem_map_of_mem (·.id) hu

theorem txpart_filter_nil (bsp : List Block) (B : Block)
    (hne : ∀ u ∈ bsp, u.id ≠ B.id) :
    (canonicalTxs bsp).filter (fun r => r.block_id == B.id) = [] := by
  apply List.filter_eq_nil_iff.mpr
  intro r hr
  unfold canonicalTxs at hr
  rcases List.mem_flatMap.mp hr with ⟨b', hb', hrb⟩
  rcases List.mem_map.mp hrb with ⟨t, _, htr⟩
  have hbid : r.block_id = b'.id := by
    rw [← htr]
  simp [hbid, hne b' hb']

/-- The transaction rows of block B are exactly those whose block_id is B's. -/
theorem canonicalTxs_filter_block (bs : List Block) (pre suf : List Block)
    (B : Block) (hbs : bs = pre ++ B :: suf) (hbids : (bs.map (·.id)).Nodup) :
    (canonicalTxs bs).filter (fun r => r.block_id == B.id) =
      B.transactions.map (fun t => (⟨t.id, B.id, B.height⟩ : TxRow)) := by
  have hids := not_bid_mem_of_split pre suf B (by rw [← hbs]; exact hbids)
  rw [hbs, canonicalTxs_append, canonicalTxs_cons, List.filter_append,
    List.filter_append]
  rw [txpart_filter_nil pre B hids.1, txpart_filter_nil suf B hids.2]
  rw [List.filter_eq_self.mpr (by
    intro r hr
    rcases List.mem_map.mp hr with ⟨t, _, htr⟩
    rw [← htr]
    simp)]
  simp

theorem inDelta_pre_refSum (pre : List Block) (inputs : List Input) (a : String)
    (hpre_tids : ((chainTxs pre).map (·.id)).Nodup)
    (hres : ∀ i ∈ inputs, ∃ r0, (canonicalOutputs pre).find? (fun u =>
      u.transaction_id == i.txId && u.output_index == i.index) = some r0) :
    inDelta (canonicalOutputs pre) inputs a = refSum pre inputs a := by
  apply inDelta_eq_refSum pre
  intro i hi
  obtain ⟨r0, hr0⟩ := hres i hi
  refine ⟨r0, hr0, ?_⟩
  have hkey : r0.transaction_id = i.txId ∧ r0.output_index = i.index := by
    simpa using List.find?_some hr0
  rw [← hkey.1, ← hkey.2]
  exact chainOutput_of_row pre (chainTxs pre) hpre_tids r0
    (List.mem_of_find?_eq_some hr0)

theorem refs_ids_take (bs pr rest : List Block) (hbs : bs = pr ++ rest)
    (hrp : ∀ pre B suf, bs = pre ++ B :: suf → ∀ t ∈ B.transactions,
      ∀ i ∈ t.inputs, ∃ r, (canonicalOutputs pre).find? (fun u =>
        u.transaction_id == i.txId && u.output_index == i.index) = some r ∧
        r.is_spent = false) :
    ∀ u ∈ chainTxs pr, ∀ i ∈ u.inputs, ∃ w ∈ chainTxs pr, w.id = i.txId := by
  intro u hu i hi
  rcases List.mem_flatMap.mp hu with ⟨B, hB, huB⟩
  obtain ⟨pre2, suf2, hpr2⟩ := List.append_of_mem hB
  have hbs2 : bs = pre2 ++ B :: (suf2 ++ rest) := by
    rw [hbs, hpr2]
    simp
  obtain ⟨r, hr, _⟩ := hrp pre2 B (suf2 ++ rest) hbs2 u huB i hi
  obtain ⟨w, hw, hwid⟩ := row_gen_id pre2 (chainTxs pre2) r
    (List.mem_of_find?_eq_some hr)
  have hrid : r.transaction_id = i.txId := by
    have h3 := List.find?_some hr
    simp only [Bool.and_eq_true, beq_iff_eq] at h3
    exact h3.1
  refine ⟨w, ?_, hwid.trans hrid⟩
  rw [hpr2, chainTxs_append]
  exact List.mem_append_left _ hw

/-- Folding the per-transaction rollback over a suffix of B's transactions. -/
theorem roll_txs_fold (bs : List Block) (pre suf : List Block) (B : Block)
    (hbs : bs = pre ++ B :: suf)
    (htids : ((chainTxs bs).map (·.id)).Nodup)
    (huniq : ∀ (i : Input), ∀ v ∈ chainTxs bs, ∀ w ∈ chainTxs bs,
      i ∈ v.inputs → i ∈ w.inputs → v = w)
    (hBdf : dupFree B)
    (hrefs : ∀ t ∈ B.transactions, ∀ i ∈ t.inputs, ∃ r0,
      (canonicalOutputs pre).find? (fun u => u.transaction_id == i.txId &&
        u.output_index == i.index) = some r0) :
    ∀ (l2 l1 : List Transaction) (d : DB),
    B.transactions = l1 ++ l2 →
    d.outputs = outputsMarked bs (chainTxs pre ++ l2) →
    (∀ b' ∈ bs, ∀ t' ∈ b'.transactions, ∀ o ∈ t'.outputs,
      hasAddr d.address_balances o.address) →
    (l2.foldl (fun d t => rollbackTxInputs (rollbackTxOutputs d t.id B.height)
        t.id B.height) d).blocks = d.blocks ∧
    (l2.foldl (fun d t => rollbackTxInputs (rollbackTxOutputs d t.id B.height)
        t.id B.height) d).transactions = d.transactions ∧
    (l2.foldl (fun d t => rollbackTxInputs (rollbackTxOutputs d t.id B.height)
        t.id B.height) d).outputs = outputsMarked bs (chainTxs pre) ∧
    (∀ a, balVal (l2.foldl (fun d t => rollbackTxInputs (rollbackTxOutputs d
        t.id B.height) t.id B.height) d).address_balances a =
      balVal d.address_balances a
      - (l2.map (fun t => outDelta t a)).sum
      + (l2.map (fun t => refSum pre t.inputs a)).sum) ∧
    (∀ x, hasAddr (l2.foldl (fun d t => rollbackTxInputs (rollbackTxOutputs d
        t.id B.height) t.id B.height) d).address_balances x ↔
      hasAddr d.address_balances x) := by
  intro l2
  induction l2 with
  | nil =>
    intro l1 d _ hdout _
    refine ⟨rfl, rfl, ?_, fun a => by simp, fun x => Iff.rfl⟩
    show d.outputs = _
    rw [hdout]
    simp
  | cons t l2 ih =>
    intro l1 d hsplit hdout hcov
    rw [List.foldl_cons]
    obtain ⟨s1, s2, s3, s4, s5⟩ := roll_tx_step bs pre suf B l1 l2 t d hbs hsplit
      htids huniq (nodup_flatMap_each B.transactions (·.inputs) hBdf t
        (by rw [hsplit]; exact List.mem_append_right _ (List.mem_cons_self _ _)))
      (hrefs t (by rw [hsplit]; exact List.mem_append_right _ (List.mem_cons_self _ _)))
      hdout hcov
    obtain ⟨f1, f2, f3, f4, f5⟩ := ih (l1 ++ [t])
      (rollbackTxInputs (rollbackTxOutputs d t.id B.height) t.id B.height)
      (by rw [hsplit]; simp)
      s3
      (fun b' hb' t' ht' o ho => (s5 _).mpr (hcov b' hb' t' ht' o ho))
    refine ⟨f1.trans s1, f2.trans s2, f3, ?_, fun x => (f5 x).trans (s5 x)⟩
    intro a
    rw [f4 a, s4 a, List.map_cons, List.sum_cons, List.map_cons, List.sum_cons]
    ring

/-- Rolling back one block of the chain from its mid-state. -/
theorem rollbackBlock_eff (bs : List Block) (pre suf : List Block) (B : Block)
    (d : DB) (hbs : bs = pre ++ B :: suf)
    (hbids : (bs.map (·.id)).Nodup)
    (htids : ((chainTxs bs).map (·.id)).Nodup)
    (huniq : ∀ (i : Input), ∀ v ∈ chainTxs bs, ∀ w ∈ chainTxs bs,
      i ∈ v.inputs → i ∈ w.inputs → v = w)
    (hBdf : dupFree B)
    (hrefs : ∀ t ∈ B.transactions, ∀ i ∈ t.inputs, ∃ r0,
      (canonicalOutputs pre).find? (fun u => u.transaction_id == i.txId &&
        u.output_index == i.index) = some r0)
    (hdtx : d.transactions = canonicalTxs bs)
    (hdout : d.outputs = outputsMarked bs (chainTxs pre ++ B.transactions))
    (hcov : ∀ b' ∈ bs, ∀ t' ∈ b'.transactions, ∀ o ∈ t'.outputs,
      hasAddr d.address_balances o.address) :
    (rollbackBlock d B.id B.height).blocks = d.blocks ∧
    (rollbackBlock d B.id B.height).transactions = d.transactions ∧
    (rollbackBlock d B.id B.height).outputs = outputsMarked bs (chainTxs pre) ∧
    (∀ a, balVal (rollbackBlock d B.id B.height).address_balances a =
      balVal d.address_balances a
      - (B.transactions.map (fun t => outDelta t a)).sum
      + (B.transactions.map (fun t => refSum pre t.inputs a)).sum) ∧
    (∀ x, hasAddr (rollbackBlock d B.id B.height).address_balances x ↔
      hasAddr d.address_balances x) := by
  have heq : rollbackBlock d B.id B.height =
      (B.transactions.map (fun t => (⟨t.id, B.id, B.height⟩ : TxRow))).foldl
        (fun d r => rollbackTxInputs (rollbackTxOutputs d r.id B.height)
          r.id B.height) d := by
    show (d.transactions.filter (fun r => r.block_id == B.id)).foldl _ d = _
    rw [hdtx, canonicalTxs_filter_block bs pre suf B hbs hbids]
  rw [heq, List.foldl_map]
  exact roll_txs_fold bs pre suf B hbs htids huniq hBdf hrefs
    B.transactions [] d rfl hdout hcov

/-- Rolling back a suffix of blocks in height-descending order walks the
canonical state back to the prefix. -/
theorem roll_blocks_fold (bs : List Block)
    (htids : ((chainTxs bs).map (·.id)).Nodup)
    (hbids : (bs.map (·.id)).Nodup)
    (huniq : ∀ (i : Input), ∀ v ∈ chainTxs bs, ∀ w ∈ chainTxs bs,
      i ∈ v.inputs → i ∈ w.inputs → v = w)
    (hrp : ∀ pre B suf, bs = pre ++ B :: suf → ∀ t ∈ B.transactions,
      ∀ i ∈ t.inputs, ∃ r, (canonicalOutputs pre).find? (fun u =>
        u.transaction_id == i.txId && u.output_index == i.index) = some r ∧
        r.is_spent = false)
    (hdfall : ∀ b ∈ bs, dupFree b) :
    ∀ (dropped : List Block), ∀ (pr rest : List Block) (d : DB),
    bs = pr ++ dropped ++ rest →
    d.blocks = canonicalBlocks bs →
    d.transactions = canonicalTxs bs →
    d.outputs = outputsMarked bs (chainTxs (pr ++ dropped)) →
    (∀ a, balVal d.address_balances a = canonicalBal (pr ++ dropped) a) →
    (∀ b' ∈ bs, ∀ t' ∈ b'.transactions, ∀ o ∈ t'.outputs,
      hasAddr d.address_balances o.address) →
    (((canonicalBlocks dropped).reverse).foldl
      (fun d r => rollbackBlock d r.id r.height) d).blocks = canonicalBlocks bs ∧
    (((canonicalBlocks dropped).reverse).foldl
      (fun d r => rollbackBlock d r.id r.height) d).transactions = canonicalTxs bs ∧
    (((canonicalBlocks dropped).reverse).foldl
      (fun d r => rollbackBlock d r.id r.height) d).outputs =
        outputsMarked bs (chainTxs pr) ∧
    (∀ a, balVal (((canonicalBlocks dropped).reverse).foldl
      (fun d r => rollbackBlock d r.id r.height) d).address_balances a =
        canonicalBal pr a) ∧
    (∀ b' ∈ bs, ∀ t' ∈ b'.transactions, ∀ o ∈ t'.outputs,
      hasAddr (((canonicalBlocks dropped).reverse).foldl
        (fun d r => rollbackBlock d r.id r.height) d).address_balances o.address) := by
  intro dropped
  induction dropped using List.reverseRecOn with
  | nil =>
    intro pr rest d hbs h1 h2 h3 h4 h5
    rw [List.append_nil] at h3 h4
    exact ⟨h1, h2, h3, h4, h5⟩
  | append_singleton dropped B ih =>
    intro pr rest d hbs h1 h2 h3 h4 h5
    have hbs2 : bs = (pr ++ dropped) ++ B :: rest := by
      rw [hbs]
      simp
    have hchain2 : chainTxs (pr ++ (dropped ++ [B])) =
        chainTxs (pr ++ dropped) ++ B.transactions := by
      rw [show pr ++ (dropped ++ [B]) = (pr ++ dropped) ++ [B] by simp,
        chainTxs_append, chainTxs_singleton]
    have hBmem : B ∈ bs := by
      rw [hbs2]
      exact List.mem_append_right _ (List.mem_cons_self _ _)
    have hrefsB : ∀ t ∈ B.transactions, ∀ i ∈ t.inputs, ∃ r0,
        (canonicalOutputs (pr ++ dropped)).find? (fun u =>
          u.transaction_id == i.txId && u.output_index == i.index) = some r0 := by
      intro t ht i hi
      obtain ⟨r, hr, _⟩ := hrp (pr ++ dropped) B rest hbs2 t ht i hi
      exact ⟨r, hr⟩
    obtain ⟨e1, e2, e3, e4, e5⟩ := rollbackBlock_eff bs (pr ++ dropped) rest B d
      hbs2 hbids htids huniq (hdfall B hBmem) hrefsB h2
      (by rw [h3, hchain2]) h5
    have hpretids : ((chainTxs ((pr ++ dropped) ++ [B])).map (·.id)).Nodup := by
      have hsplit : chainTxs bs =
          chainTxs ((pr ++ dropped) ++ [B]) ++ chainTxs rest := by
        rw [show bs = ((pr ++ dropped) ++ [B]) ++ rest by rw [hbs]; simp,
          chainTxs_append]
      have h0 := htids
      rw [hsplit, List.map_append] at h0
      exact (List.nodup_append.mp h0).1
    have hpretids2 : ((chainTxs (pr ++ dropped)).map (·.id)).Nodup := by
      have h0 := hpretids
      rw [chainTxs_append, List.map_append] at h0
      exact (List.nodup_append.mp h0).1
    have hold2 := refs_ids_take bs (pr ++ dropped) (B :: rest) hbs2 hrp
    have hsnoc := canonicalBal_snoc (pr ++ dropped) B hpretids hold2
      (hdfall B hBmem) (hrp (pr ++ dropped) B rest hbs2)
    have hbal1 : ∀ a, balVal (rollbackBlock d B.id B.height).address_balances a =
        canonicalBal (pr ++ dropped) a := by
      intro a
      rw [e4 a, h4 a]
      rw [show pr ++ (dropped ++ [B]) = (pr ++ dropped) ++ [B] by simp]
      rw [hsnoc a]
      rw [show (B.transactions.map (fun t =>
          inDelta (canonicalOutputs (pr ++ dropped)) t.inputs a)) =
          B.transactions.map (fun t => refSum (pr ++ dropped) t.inputs a) from by
        apply List.map_congr_left
        intro t ht
        exact inDelta_pre_refSum (pr ++ dropped) t.inputs a hpretids2
          (fun i hi => hrefsB t ht i hi)]
      ring
    rw [canonicalBlocks_append, canonicalBlocks_singleton, List.reverse_append]
    simp only [List.reverse_singleton, List.singleton_append]
    rw [List.foldl_cons]
    exact ih pr (B :: rest) (rollbackBlock d B.id B.height)
      (by rw [hbs]; simp)
      (e1.trans h1) (e2.trans h2) e3 hbal1
      (fun b' hb' t' ht' o ho => (e5 _).mpr (h5 b' hb' t' ht' o ho))

/-! ### Selecting and ordering the blocks above the rollback target. -/

theorem insertDesc_last (r : BlockRow) (L : List BlockRow)
    (h : ∀ x ∈ L, r.height < x.height) : insertDesc r L = L ++ [r] := by
  induction L with
  | nil => rfl
  | cons x xs ih =>
    unfold insertDesc
    rw [if_neg (by
      have := h x (List.mem_cons_self x xs)
      omega)]
    rw [ih (fun y hy => h y (List.mem_cons_of_mem x hy))]
    rfl

theorem sortByHeightDesc_ascending : ∀ (rows : List BlockRow) (s m : Nat),
    rows.map (·.height) = List.range' s m →
    sortByHeightDesc rows = rows.reverse := by
  intro rows
  induction rows with
  | nil => intro s m _; rfl
  | cons r rest ih =>
    intro s m hmap
    rw [List.map_cons] at hmap
    cases m with
    | zero => cases hmap
    | succ m2 =>
      rw [List.range'_succ] at hmap
      have hr : r.height = s := (List.cons.inj hmap).1
      have hrest : rest.map (·.height) = List.range' (s + 1) m2 :=
        (List.cons.inj hmap).2
      show insertDesc r (sortByHeightDesc rest) = _
      rw [ih (s + 1) m2 hrest]
      rw [insertDesc_last r rest.reverse (by
        intro x hx
        rw [List.mem_reverse] at hx
        have hxh : x.height ∈ rest.map (·.height) := List.mem_map_of_mem _ hx
        rw [hrest] at hxh
        have := (List.mem_range'_1.mp hxh).1
        omega)]
      rw [List.reverse_cons]

theorem mem_canonicalBlocks_inv (l : List Block) (r : BlockRow)
    (hr : r ∈ canonicalBlocks l) : ∃ b ∈ l, r.id = b.id ∧ r.height = b.height := by
  unfold canonicalBlocks at hr
  rcases List.mem_map.mp hr with ⟨b, hb, hbr⟩
  exact ⟨b, hb, by rw [← hbr], by rw [← hbr]⟩

theorem take_drop_heights (bs : List Block) (k n : Nat)
    (hh : bs.map (·.height) = List.range' 1 n) (hk : k ≤ n) :
    (bs.take k).map (·.height) = List.range' 1 k ∧
    (bs.drop k).map (·.height) = List.range' (1 + k) (n - k) := by
  have hlen : bs.length = n := by
    have := congrArg List.length hh
    simpa using this
  have hsplit : List.range' 1 k ++ List.range' (1 + k) (n - k) =
      List.range' 1 n := by
    have := List.range'_append 1 k (n - k) 1
    simp only [Nat.mul_one, Nat.one_mul] at this
    rw [show n - k + k = n by omega] at this
    simpa using this
  have hdecomp : (bs.take k).map (·.height) ++ (bs.drop k).map (·.height) =
      List.range' 1 k ++ List.range' (1 + k) (n - k) := by
    rw [← List.map_append, List.take_append_drop, hh, hsplit]
  have hlen2 : ((bs.take k).map (·.height)).length = (List.range' 1 k).length := by
    simp [hlen, hk]
  obtain ⟨h1, h2⟩ := List.append_inj hdecomp (by simpa using hlen2)
  exact ⟨h1, h2⟩

theorem blocks_filter_split (bs : List Block) (k n : Nat)
    (hh : bs.map (·.height) = List.range' 1 n) (hk : k ≤ n) :
    (canonicalBlocks bs).filter (fun r => decide ((k : Int) < (r.height : Int))) =
      canonicalBlocks (bs.drop k) ∧
    (canonicalBlocks bs).filter (fun r => !decide ((k : Int) < (r.height : Int))) =
      canonicalBlocks (bs.take k) := by
  obtain ⟨htake, hdrop⟩ := take_drop_heights bs k n hh hk
  have hbs0 : canonicalBlocks bs =
      canonicalBlocks (bs.take k) ++ canonicalBlocks (bs.drop k) := by
    rw [← canonicalBlocks_append, List.take_append_drop]
  have hlow : ∀ r ∈ canonicalBlocks (bs.take k), r.height ≤ k := by
    intro r hr
    obtain ⟨b, hb, _, hrh⟩ := mem_canonicalBlocks_inv _ r hr
    have hmem : r.height ∈ (bs.take k).map (·.height) := by
      rw [hrh]
      exact List.mem_map_of_mem _ hb
    rw [htake] at hmem
    have := (List.mem_range'_1.mp hmem).2
    omega
  have hhigh : ∀ r ∈ canonicalBlocks (bs.drop k), k < r.height := by
    intro r hr
    obtain ⟨b, hb, _, hrh⟩ := mem_canonicalBlocks_inv _ r hr
    have hmem : r.height ∈ (bs.drop k).map (·.height) := by
      rw [hrh]
      exact List.mem_map_of_mem _ hb
    rw [hdrop] at hmem
    have := (List.mem_range'_1.mp hmem).1
    omega
  constructor
  · rw [hbs0, List.filter_append]
    rw [List.filter_eq_nil_iff.mpr (by
      intro r hr
      have := hlow r hr
      simp
      omega)]
    rw [List.filter_eq_self.mpr (by
      intro r hr
      have := hhigh r hr
      simp
      omega)]
    rfl
  · rw [hbs0, List.filter_append]
    rw [List.filter_eq_self.mpr (by
      intro r hr
      have := hlow r hr
      simp
      omega)]
    rw [show (canonicalBlocks (bs.drop k)).filter
        (fun r => !decide ((k : Int) < (r.height : Int))) = [] from
      List.filter_eq_nil_iff.mpr (by
        intro r hr
        have := hhigh r hr
        simp
        omega)]
    simp

/-! ### The cascade delete at the rollback target. -/

def deletedBlockIdsD (d : DB) (target : Int) : List String :=
  (d.blocks.filter (fun r => target < (r.height : Int))).map (·.id)

def deletedTxIdsD (d : DB) (target : Int) : List String :=
  (d.transactions.filter (fun t =>
    (deletedBlockIdsD d target).contains t.block_id)).map (·.id)

theorem cascade_blocks_eq (d : DB) (target : Int) :
    (cascadeDeleteAbove d target).blocks =
      d.blocks.filter (fun r => !(decide (target < (r.height : Int)))) := rfl

theorem cascade_txs_eq (d : DB) (target : Int) :
    (cascadeDeleteAbove d target).transactions =
      d.transactions.filter (fun t =>
        !(deletedBlockIdsD d target).contains t.block_id) := rfl

theorem cascade_outputs_eq (d : DB) (target : Int) :
    (cascadeDeleteAbove d target).outputs =
      (d.outputs.filter (fun o =>
        !(deletedTxIdsD d target).contains o.transaction_id)).map
        (fun o => match o.spent_in_transaction_id with
          | some t => if (deletedTxIdsD d target).contains t then
              { o with spent_in_transaction_id := none } else o
          | none => o) := rfl

theorem cascade_bal_eq (d : DB) (target : Int) :
    (cascadeDeleteAbove d target).address_balances = d.address_balances := rfl

theorem mem_canonicalTxs_inv (l : List Block) (r : TxRow)
    (hr : r ∈ canonicalTxs l) :
    ∃ b ∈ l, ∃ t ∈ b.transactions, r = ⟨t.id, b.id, b.height⟩ := by
  unfold canonicalTxs at hr
  rcases List.mem_flatMap.mp hr with ⟨b, hb, hrb⟩
  rcases List.mem_map.mp hrb with ⟨t, ht, htr⟩
  exact ⟨b, hb, t, ht, htr.symm⟩

theorem txs_filter_split (bs : List Block) (k : Nat)
    (hbids : (bs.map (·.id)).Nodup) :
    (canonicalTxs bs).filter (fun t =>
      ((bs.drop k).map (·.id)).contains t.block_id) = canonicalTxs (bs.drop k) ∧
    (canonicalTxs bs).filter (fun t =>
      !((bs.drop k).map (·.id)).contains t.block_id) = canonicalTxs (bs.take k) := by
  have hbno : ((bs.take k).map (·.id) ++ (bs.drop k).map (·.id)).Nodup := by
    rw [← List.map_append, List.take_append_drop]
    exact hbids
  have hbdisj := (List.nodup_append.mp hbno).2.2
  have hsplit : canonicalTxs bs =
      canonicalTxs (bs.take k) ++ canonicalTxs (bs.drop k) := by
    rw [← canonicalTxs_append, List.take_append_drop]
  have htakeF : ∀ r ∈ canonicalTxs (bs.take k),
      (((bs.drop k).map (·.id)).contains r.block_id) = false := by
    intro r hr
    obtain ⟨b, hb, t, _, hrt⟩ := mem_canonicalTxs_inv _ r hr
    have hbid : r.block_id = b.id := by rw [hrt]
    rcases hc : (((bs.drop k).map (·.id)).contains r.block_id)
    · exact hc
    · exfalso
      rw [hbid] at hc
      have hmem : b.id ∈ (bs.drop k).map (·.id) := by
        simpa [List.elem_iff] using hc
      exact hbdisj (List.mem_map_of_mem _ hb) hmem
  have hdropT : ∀ r ∈ canonicalTxs (bs.drop k),
      (((bs.drop k).map (·.id)).contains r.block_id) = true := by
    intro r hr
    obtain ⟨b, hb, t, _, hrt⟩ := mem_canonicalTxs_inv _ r hr
    have hbid : r.block_id = b.id := by rw [hrt]
    rw [hbid]
    simp only [List.elem_iff]
    exact List.mem_map_of_mem _ hb
  constructor
  · rw [hsplit, List.filter_append]
    rw [List.filter_eq_nil_iff.mpr (by
      intro r hr hcontra
      rw [htakeF r hr] at hcontra
      exact Bool.false_ne_true hcontra)]
    rw [List.filter_eq_self.mpr (fun r hr => hdropT r hr)]
    simp
  · rw [hsplit, List.filter_append]
    rw [List.filter_eq_self.mpr (by
      intro r hr
      rw [htakeF r hr]
      rfl)]
    rw [show (canonicalTxs (bs.drop k)).filter (fun t =>
        !((bs.drop k).map (·.id)).contains t.block_id) = [] from
      List.filter_eq_nil_iff.mpr (by
        intro r hr hcontra
        rw [hdropT r hr] at hcontra
        exact Bool.noConfusion hcontra)]
    simp

/-- The DELETE with its schema cascades, run at the rollback target, leaves
exactly the prefix tables. -/
theorem cascade_eff (bs : List Block) (k n : Nat) (d : DB)
    (htids : ((chainTxs bs).map (·.id)).Nodup)
    (hbids : (bs.map (·.id)).Nodup)
    (hh : bs.map (·.height) = List.range' 1 n) (hk : k ≤ n)
    (h1 : d.blocks = canonicalBlocks bs)
    (h2 : d.transactions = canonicalTxs bs)
    (h3 : d.outputs = outputsMarked bs (chainTxs (bs.take k))) :
    (cascadeDeleteAbove d (k : Int)).blocks = canonicalBlocks (bs.take k) ∧
    (cascadeDeleteAbove d (k : Int)).transactions = canonicalTxs (bs.take k) ∧
    (cascadeDeleteAbove d (k : Int)).outputs = canonicalOutputs (bs.take k) ∧
    (cascadeDeleteAbove d (k : Int)).address_balances = d.address_balances := by
  obtain ⟨hfpos, hfneg⟩ := blocks_filter_split bs k n hh hk
  obtain ⟨htpos, htneg⟩ := txs_filter_split bs k hbids
  have hcno : ((chainTxs (bs.take k)).map (·.id) ++
      (chainTxs (bs.drop k)).map (·.id)).Nodup := by
    rw [← List.map_append, ← chainTxs_append, List.take_append_drop]
    exact htids
  have htdisj := (List.nodup_append.mp hcno).2.2
  have hdelB : deletedBlockIdsD d (k : Int) = (bs.drop k).map (·.id) := by
    unfold deletedBlockIdsD
    rw [h1, hfpos, canonicalBlocks_ids]
  have hdelT : deletedTxIdsD d (k : Int) = (chainTxs (bs.drop k)).map (·.id) := by
    unfold deletedTxIdsD
    rw [hdelB, h2, htpos, canonicalTxs_ids]
  have houtsplit : outputsMarked bs (chainTxs (bs.take k)) =
      outputsMarked (bs.take k) (chainTxs (bs.take k)) ++
      outputsMarked (bs.drop k) (chainTxs (bs.take k)) := by
    rw [← outputsMarked_append, List.take_append_drop]
  have htakeO : ∀ r ∈ outputsMarked (bs.take k) (chainTxs (bs.take k)),
      (((chainTxs (bs.drop k)).map (·.id)).contains r.transaction_id) = false := by
    intro r hr
    obtain ⟨w, hw, hwid⟩ := row_gen_id _ _ r hr
    rcases hc : (((chainTxs (bs.drop k)).map (·.id)).contains r.transaction_id)
    · exact hc
    · exfalso
      have hmem : r.transaction_id ∈ (chainTxs (bs.drop k)).map (·.id) := by
        simpa [List.elem_iff] using hc
      exact htdisj (hwid ▸ List.mem_map_of_mem (·.id) hw) hmem
  have hdropO : ∀ r ∈ outputsMarked (bs.drop k) (chainTxs (bs.take k)),
      (((chainTxs (bs.drop k)).map (·.id)).contains r.transaction_id) = true := by
    intro r hr
    obtain ⟨w, hw, hwid⟩ := row_gen_id _ _ r hr
    rw [← hwid]
    simp only [List.elem_iff]
    exact List.mem_map_of_mem _ hw
  refine ⟨?_, ?_, ?_, cascade_bal_eq d _⟩
  · rw [cascade_blocks_eq, h1]
    exact hfneg
  · rw [cascade_txs_eq, hdelB, h2]
    exact htneg
  · rw [cascade_outputs_eq, hdelT, h3, houtsplit, List.filter_append]
    rw [List.filter_eq_self.mpr (by
      intro r hr
      rw [htakeO r hr]
      rfl)]
    rw [show (outputsMarked (bs.drop k) (chainTxs (bs.take k))).filter (fun o =>
        !((chainTxs (bs.drop k)).map (·.id)).contains o.transaction_id) = [] from
      List.filter_eq_nil_iff.mpr (by
        intro r hr hcontra
        rw [hdropO r hr] at hcontra
        exact Bool.noConfusion hcontra)]
    rw [List.append_nil]
    apply map_id_of_eq
    intro r hr
    rcases hs : r.spent_in_transaction_id with _ | sid
    · simp only [hs]
    · simp only [hs]
      obtain ⟨b2, hb2, t2, ht2, p2, hp2, hp2r⟩ := outputsMarked_mem_inv _ _ r hr
      have f7 := (markRow_fields (chainTxs (bs.take k)) b2.height t2 p2).2.2.2.2.2.2
      rw [← hp2r] at f7
      rw [hs] at f7
      obtain ⟨u, hu, huid, _⟩ := spenderIn_eq_some_inv _ _ _ _ f7.symm
      have hnc : (((chainTxs (bs.drop k)).map (·.id)).contains sid) = false := by
        rcases hc : (((chainTxs (bs.drop k)).map (·.id)).contains sid)
        · exact hc
        · exfalso
          have hmem : sid ∈ (chainTxs (bs.drop k)).map (·.id) := by
            simpa [List.elem_iff] using hc
          exact htdisj (huid ▸ List.mem_map_of_mem (·.id) hu) hmem
      rw [hnc]
      simp

theorem cover_gen_of_rows (bs : List Block) (bal : List BalanceRow)
    (hcov : ∀ r ∈ canonicalOutputs bs, hasAddr bal r.address) :
    ∀ b' ∈ bs, ∀ t' ∈ b'.transactions, ∀ o ∈ t'.outputs, hasAddr bal o.address := by
  intro b' hb' t' ht' o ho
  have hmem : o ∈ t'.outputs.enum.map Prod.snd := by
    rw [show t'.outputs.enum.map Prod.snd = t'.outputs from by
      unfold List.enum
      exact enumFrom_map_snd t'.outputs 0]
    exact ho
  rcases List.mem_map.mp hmem with ⟨p, hp, hpo⟩
  have hrow : markRow (chainTxs bs) b'.height t' p ∈ canonicalOutputs bs := by
    unfold canonicalOutputs outputsMarked
    exact List.mem_flatMap.mpr ⟨b', hb', List.mem_flatMap.mpr
      ⟨t', ht', List.mem_map_of_mem _ hp⟩⟩
  have haddr := (markRow_fields (chainTxs bs) b'.height t' p).2.2.1
  have := hcov _ hrow
  rw [haddr, hpo] at this
  exact this

/-- BlockModel.rollbackToHeight from the full canonical state lands exactly
on the prefix tables, with prefix balances. -/
theorem blockRollbackToHeight_eff (bs : List Block) (db : DB) (k : Nat)
    (hc : ChainChar bs db) (hdfall : ∀ b ∈ bs, dupFree b) (hk : k ≤ bs.length) :
    (blockRollbackToHeight db (k : Int)).blocks = canonicalBlocks (bs.take k) ∧
    (blockRollbackToHeight db (k : Int)).transactions = canonicalTxs (bs.take k) ∧
    (blockRollbackToHeight db (k : Int)).outputs = canonicalOutputs (bs.take k) ∧
    (∀ a, balVal (blockRollbackToHeight db (k : Int)).address_balances a =
      canonicalBal (bs.take k) a) := by
  have huniq := hc.spend_unique
  obtain ⟨hfpos, _⟩ := blocks_filter_split bs k bs.length hc.heights hk
  obtain ⟨_, hdrop⟩ := take_drop_heights bs k bs.length hc.heights hk
  have hsort : sortByHeightDesc (canonicalBlocks (bs.drop k)) =
      (canonicalBlocks (bs.drop k)).reverse := by
    apply sortByHeightDesc_ascending _ (1 + k) (bs.length - k)
    rw [canonicalBlocks_heights]
    exact hdrop
  have heq : blockRollbackToHeight db (k : Int) =
      cascadeDeleteAbove (((canonicalBlocks (bs.drop k)).reverse).foldl
        (fun d b => rollbackBlock d b.id b.height) db) (k : Int) := by
    show cascadeDeleteAbove ((sortByHeightDesc (db.blocks.filter (fun r =>
      (k : Int) < (r.height : Int)))).foldl
        (fun d b => rollbackBlock d b.id b.height) db) (k : Int) = _
    rw [hc.blocks_eq, hfpos, hsort]
  obtain ⟨f1, f2, f3, f4, f5⟩ := roll_blocks_fold bs hc.tids hc.bids huniq
    hc.refs_pos hdfall (bs.drop k) (bs.take k) [] db
    (by rw [List.append_nil, List.take_append_drop])
    hc.blocks_eq hc.txs_eq
    (by rw [List.take_append_drop, hc.outs_eq]; rfl)
    (by rw [List.take_append_drop]; exact hc.bal_eq)
    (cover_gen_of_rows bs db.address_balances hc.cover)
  obtain ⟨c1, c2, c3, c4⟩ := cascade_eff bs k bs.length _ hc.tids hc.bids
    hc.heights hk f1 f2 f3
  rw [heq]
  refine ⟨c1, c2, c3, ?_⟩
  intro a
  rw [show (cascadeDeleteAbove (((canonicalBlocks (bs.drop k)).reverse).foldl
      (fun d b => rollbackBlock d b.id b.height) db) (k : Int)).address_balances =
      (((canonicalBlocks (bs.drop k)).reverse).foldl
        (fun d b => rollbackBlock d b.id b.height) db).address_balances from c4]
  exact f4 a

/-! ### processBlock success depends only on the three row tables. -/

/-- Result relation: same error, or same blocks/transactions/outputs. -/
def sameResD : Except DbError DB → Except DbError DB → Prop
  | .error e, .error e2 => e = e2
  | .ok d, .ok d2 => d.blocks = d2.blocks ∧ d.transactions = d2.transactions ∧
      d.outputs = d2.outputs
  | _, _ => False

theorem applyInput_tables (d : DB) (txid : String) (hh : Nat) (i : Input) :
    (applyInput d txid hh i).blocks = d.blocks ∧
    (applyInput d txid hh i).transactions = d.transactions ∧
    (applyInput d txid hh i).outputs = d.outputs.map (fun r =>
      if r.transaction_id == i.txId && r.output_index == i.index then
        { r with is_spent := true, spent_in_transaction_id := some txid }
      else r) := by
  unfold applyInput
  rcases hf : findOutput { d with outputs := d.outputs.map (fun r =>
      if r.transaction_id == i.txId && r.output_index == i.index then
        { r with is_spent := true, spent_in_transaction_id := some txid }
      else r) } i.txId i.index with _ | row
  · simp only [hf]
    simp
  · simp only [hf]
    simp

def markInputs (txid : String) (L : List Input) (outs : List OutputRow) :
    List OutputRow :=
  L.foldl (fun o i => o.map (fun r =>
    if r.transaction_id == i.txId && r.output_index == i.index then
      { r with is_spent := true, spent_in_transaction_id := some txid }
    else r)) outs

theorem foldl_applyInput_tables (txid : String) (hh : Nat) :
    ∀ (L : List Input) (d : DB),
    (L.foldl (fun d i => applyInput d txid hh i) d).blocks = d.blocks ∧
    (L.foldl (fun d i => applyInput d txid hh i) d).transactions = d.transactions ∧
    (L.foldl (fun d i => applyInput d txid hh i) d).outputs =
      markInputs txid L d.outputs := by
  intro L
  induction L with
  | nil => exact fun d => ⟨rfl, rfl, rfl⟩
  | cons i L ih =>
    intro d
    rw [List.foldl_cons]
    obtain ⟨h1, h2, h3⟩ := ih (applyInput d txid hh i)
    obtain ⟨a1, a2, a3⟩ := applyInput_tables d txid hh i
    refine ⟨h1.trans a1, h2.trans a2, ?_⟩
    rw [h3, a3]
    rfl

theorem validateInputsExistGo_outputs (d d' : DB) (ho : d.outputs = d'.outputs) :
    ∀ (L : List Input) (acc : Nat),
    validateInputsExistGo d L acc = validateInputsExistGo d' L acc := by
  intro L
  induction L with
  | nil => exact fun acc => rfl
  | cons i L ih =>
    intro acc
    unfold validateInputsExistGo
    rw [show findOutput d i.txId i.index = findOutput d' i.txId i.index from by
      unfold findOutput
      rw [ho]]
    rcases hf : findOutput d' i.txId i.index with _ | row
    · rfl
    · rcases hs : row.is_spent
      · simp only [hs, Bool.false_eq_true, if_false]
        exact ih (acc + row.value)
      · simp only [hs, if_true]

theorem applyOutputsGo_same (txid : String) (hgt : Nat) :
    ∀ (outs : List Output) (idx : Nat) (d d' : DB),
    d.blocks = d'.blocks → d.transactions = d'.transactions →
    d.outputs = d'.outputs →
    sameResD (applyOutputsGo txid hgt outs idx d)
      (applyOutputsGo txid hgt outs idx d') := by
  intro outs
  induction outs with
  | nil =>
    intro idx d d' hb ht ho
    exact ⟨hb, ht, ho⟩
  | cons o rest ih =>
    intro idx d d' hb ht ho
    rcases hc : d.outputs.any (fun r =>
        r.transaction_id == txid && r.output_index == idx)
    · have hio : insertOutputRow d ⟨txid, idx, o.address, o.value, false, none, hgt⟩
          = .ok { d with outputs := d.outputs ++
            [⟨txid, idx, o.address, o.value, false, none, hgt⟩] } := by
        unfold insertOutputRow
        rw [hc]
        rfl
      have hio' : insertOutputRow d' ⟨txid, idx, o.address, o.value, false, none, hgt⟩
          = .ok { d' with outputs := d'.outputs ++
            [⟨txid, idx, o.address, o.value, false, none, hgt⟩] } := by
        unfold insertOutputRow
        rw [← ho, hc]
        rfl
      have he : applyOutputsGo txid hgt (o :: rest) idx d =
          applyOutputsGo txid hgt rest (idx + 1)
            { d with
              outputs := d.outputs ++
                [⟨txid, idx, o.address, o.value, false, none, hgt⟩],
              address_balances := upsertBalance d.address_balances o.address
                (o.value : Int) hgt } := by
        show (insertOutputRow d _).bind _ = _
        rw [hio]
        rfl
      have he' : applyOutputsGo txid hgt (o :: rest) idx d' =
          applyOutputsGo txid hgt rest (idx + 1)
            { d' with
              outputs := d'.outputs ++
                [⟨txid, idx, o.address, o.value, false, none, hgt⟩],
              address_balances := upsertBalance d'.address_balances o.address
                (o.value : Int) hgt } := by
        show (insertOutputRow d' _).bind _ = _
        rw [hio']
        rfl
      rw [he, he']
      exact ih (idx + 1) _ _ hb ht (by
        show d.outputs ++ _ = d'.outputs ++ _
        rw [ho])
    · have hio : insertOutputRow d ⟨txid, idx, o.address, o.value, false, none, hgt⟩
          = .error .uniqueViolation := by
        unfold insertOutputRow
        rw [hc]
        rfl
      have hio' : insertOutputRow d' ⟨txid, idx, o.address, o.value, false, none, hgt⟩
          = .error .uniqueViolation := by
        unfold insertOutputRow
        rw [← ho, hc]
        rfl
      have he : applyOutputsGo txid hgt (o :: rest) idx d =
          .error .uniqueViolation := by
        show (insertOutputRow d _).bind _ = _
        rw [hio]
        rfl
      have he' : applyOutputsGo txid hgt (o :: rest) idx d' =
          .error .uniqueViolation := by
        show (insertOutputRow d' _).bind _ = _
        rw [hio']
        rfl
      rw [he, he']
      exact rfl

theorem insertWithClient_same (tx : Transaction) (b : Block) (d d' : DB)
    (hb : d.blocks = d'.blocks) (ht : d.transactions = d'.transactions)
    (ho : d.outputs = d'.outputs) :
    sameResD (insertWithClient d tx b) (insertWithClient d' tx b) := by
  rcases hc : d.transactions.any (fun r => r.id == tx.id)
  · have he : insertWithClient d tx b = applyOutputsGo tx.id b.height tx.outputs 0
        (tx.inputs.foldl (fun dd i => applyInput dd tx.id b.height i)
          { d with transactions := d.transactions ++ [⟨tx.id, b.id, b.height⟩] }) := by
      unfold insertWithClient
      rw [hc]
      rfl
    have he' : insertWithClient d' tx b = applyOutputsGo tx.id b.height tx.outputs 0
        (tx.inputs.foldl (fun dd i => applyInput dd tx.id b.height i)
          { d' with transactions := d'.transactions ++ [⟨tx.id, b.id, b.height⟩] }) := by
      unfold insertWithClient
      rw [← ht, hc]
      rfl
    rw [he, he']
    obtain ⟨f1, f2, f3⟩ := foldl_applyInput_tables tx.id b.height tx.inputs
      { d with transactions := d.transactions ++ [⟨tx.id, b.id, b.height⟩] }
    obtain ⟨g1, g2, g3⟩ := foldl_applyInput_tables tx.id b.height tx.inputs
      { d' with transactions := d'.transactions ++ [⟨tx.id, b.id, b.height⟩] }
    apply applyOutputsGo_same
    · rw [f1, g1]
      exact hb
    · rw [f2, g2]
      show d.transactions ++ _ = d'.transactions ++ _
      rw [ht]
    · rw [f3, g3]
      show markInputs tx.id tx.inputs d.outputs = markInputs tx.id tx.inputs d'.outputs
      rw [ho]
  · have he : insertWithClient d tx b = .error .txExists := by
      unfold insertWithClient
      rw [hc]
      rfl
    have he' : insertWithClient d' tx b = .error .txExists := by
      unfold insertWithClient
      rw [← ht, hc]
      rfl
    rw [he, he']
    exact rfl

theorem insertTxsGo_same (b : Block) : ∀ (txs : List Transaction) (d d' : DB),
    d.blocks = d'.blocks → d.transactions = d'.transactions →
    d.outputs = d'.outputs →
    sameResD (insertTxsGo b txs d) (insertTxsGo b txs d') := by
  intro txs
  induction txs with
  | nil =>
    intro d d' hb ht ho
    exact ⟨hb, ht, ho⟩
  | cons t rest ih =>
    intro d d' hb ht ho
    have hstep := insertWithClient_same t b d d' hb ht ho
    rcases hw : insertWithClient d t b with e | m <;>
      rcases hw' : insertWithClient d' t b with e' | m'
    · rw [hw, hw'] at hstep
      have he : insertTxsGo b (t :: rest) d = .error e := by
        show (insertWithClient d t b).bind _ = _
        rw [hw]
        rfl
      have he' : insertTxsGo b (t :: rest) d' = .error e' := by
        show (insertWithClient d' t b).bind _ = _
        rw [hw']
        rfl
      rw [he, he']
      exact hstep
    · rw [hw, hw'] at hstep
      exact hstep.elim
    · rw [hw, hw'] at hstep
      exact hstep.elim
    · rw [hw, hw'] at hstep
      obtain ⟨hb2, ht2, ho2⟩ := hstep
      have he : insertTxsGo b (t :: rest) d = insertTxsGo b rest m := by
        show (insertWithClient d t b).bind _ = _
        rw [hw]
        rfl
      have he' : insertTxsGo b (t :: rest) d' = insertTxsGo b rest m' := by
        show (insertWithClient d' t b).bind _ = _
        rw [hw']
        rfl
      rw [he, he']
      exact ih m m' hb2 ht2 ho2

theorem blockInsert_same (b : Block) (d d' : DB)
    (hb : d.blocks = d'.blocks) (ht : d.transactions = d'.transactions)
    (ho : d.outputs = d'.outputs) :
    sameResD (blockInsert d b) (blockInsert d' b) := by
  rcases hc : d.blocks.any (fun r => r.id == b.id || r.height == b.height)
  · have he : blockInsert d b = insertTxsGo b b.transactions
        { d with blocks := d.blocks ++ [⟨b.id, b.height⟩] } := by
      unfold blockInsert
      rw [hc]
      rfl
    have he' : blockInsert d' b = insertTxsGo b b.transactions
        { d' with blocks := d'.blocks ++ [⟨b.id, b.height⟩] } := by
      unfold blockInsert
      rw [← hb, hc]
      rfl
    rw [he, he']
    apply insertTxsGo_same
    · show d.blocks ++ _ = d'.blocks ++ _
      rw [hb]
    · exact ht
    · exact ho
  · have he : blockInsert d b = .error .blockExists := by
      unfold blockInsert
      rw [hc]
      rfl
    have he' : blockInsert d' b = .error .blockExists := by
      unfold blockInsert
      rw [← hb, hc]
      rfl
    rw [he, he']
    exact rfl

/-- processBlock acceptance transfers between states with equal blocks,
transactions and outputs tables. -/
theorem processBlock_tables_transfer (d d' : DB) (b : Block) (e : DB)
    (hb : d.blocks = d'.blocks) (ht : d.transactions = d'.transactions)
    (ho : d.outputs = d'.outputs)
    (hok : processBlock d b = .ok e) :
    ∃ e', processBlock d' b = .ok e' ∧ e.blocks = e'.blocks ∧
      e.transactions = e'.transactions ∧ e.outputs = e'.outputs := by
  obtain ⟨hz, _, _, hbi⟩ := processBlock_ok_decomp d b e hok
  have hcur : getCurrentHeight d' = getCurrentHeight d := by
    unfold getCurrentHeight
    rw [hb]
  have hval : validateInputsExist d' (b.transactions.flatMap (·.inputs)) =
      validateInputsExist d (b.transactions.flatMap (·.inputs)) := by
    unfold validateInputsExist
    exact (validateInputsExistGo_outputs d d' ho _ 0).symm
  have hvb : validateBlock b (getCurrentHeight d)
      (validateInputsExist d (b.transactions.flatMap (·.inputs))) = none := by
    rcases hv : validateBlock b (getCurrentHeight d)
        (validateInputsExist d (b.transactions.flatMap (·.inputs))) with _ | c
    · rfl
    · exfalso
      unfold processBlock at hok
      rw [hz] at hok
      simp only [Bool.not_true, Bool.false_eq_true, if_false] at hok
      rw [hv] at hok
      cases hok
  have hstep := blockInsert_same b d d' hb ht ho
  rw [hbi] at hstep
  rcases hw' : blockInsert d' b with e2 | m'
  · rw [hw'] at hstep
    exact hstep.elim
  · rw [hw'] at hstep
    obtain ⟨b2, t2, o2⟩ := hstep
    refine ⟨m', ?_, b2, t2, o2⟩
    unfold processBlock
    rw [hz]
    simp only [Bool.not_true, Bool.false_eq_true, if_false]
    rw [hcur, hval, hvb, hw']

theorem chain_prefix_runs (bs : List Block) (db : DB) (k : Nat)
    (hchain : processChain DB.empty bs = .ok db) (hk : k < bs.length) :
    ∃ dbk dbk1, processChain DB.empty (bs.take k) = .ok dbk ∧
      processBlock dbk (bs.get ⟨k, hk⟩) = .ok dbk1 := by
  have h1 : processChain DB.empty (bs.take k ++ bs.drop k) = .ok db := by
    rw [List.take_append_drop]
    exact hchain
  rw [processChain_append] at h1
  rcases hp : processChain DB.empty (bs.take k) with e | dbk
  · rw [hp] at h1
    cases h1
  · rw [hp] at h1
    replace h1 : processChain dbk (bs.drop k) = .ok db := h1
    rw [List.drop_eq_getElem_cons hk, processChain_cons] at h1
    have hbk : (bs[k] : Block) = bs.get ⟨k, hk⟩ := rfl
    rw [hbk] at h1
    rcases hq : processBlock dbk (bs.get ⟨k, hk⟩) with e | d1
    · rw [hq] at h1
      cases h1
    · exact ⟨dbk, d1, hp.symm ▸ rfl, hq⟩

theorem rollbackToHeight_guard (db : DB) (k n : Nat)
    (hn : getCurrentHeight db = n) (hk : k < n)
    (hdepth : n - k ≤ MAX_ROLLBACK_BLOCKS) :
    rollbackToHeight db (k : Int) =
      .ok (blockRollbackToHeight db (k : Int), (k : Int), n) := by
  have h2000 : MAX_ROLLBACK_BLOCKS = 2000 := rfl
  rw [h2000] at hdepth
  show (if ((k : Nat) : Int) > ((getCurrentHeight db : Nat) : Int) then
      (Except.error RollbackErr.higherThanCurrent :
        Except RollbackErr (DB × Int × Nat))
    else if ((getCurrentHeight db : Nat) : Int) - ((k : Nat) : Int) >
        (MAX_ROLLBACK_BLOCKS : Int) then .error .tooManyBlocks
    else .ok (blockRollbackToHeight db (k : Int), (k : Int),
      getCurrentHeight db)) = _
  rw [hn, h2000]
  rw [if_neg (by omega), if_neg (by
    show ¬((n : Int) - (k : Int) > ((2000 : Nat) : Int))
    omega)]

end Models

/-! ## C3: rollback as the exact inverse of block application. -/

/-- C3: for a valid chain B1..Bn applied from the empty state (each block
accepted by processBlock and conforming to the data model's at-most-once
reference rule) and any k < n within the configured rollback depth,
RollbackTo(k) is accepted and returns exactly the state of applying only
B1..Bk: identical blocks, transactions and outputs tables, currentHeight k,
identical per-address balances, the balance-derivation invariant
re-established, and reprocessing the old block k+1 (same transaction and
output identifiers) succeeds. -/
theorem C3_rollback_inverse (bs : List Block) (db : Models.DB) (k : Nat)
    (hchain : Models.processChain Models.DB.empty bs = .ok db)
    (hdf : ∀ b ∈ bs, Models.dupFree b)
    (hk : k < bs.length)
    (hdepth : bs.length - k ≤ Models.MAX_ROLLBACK_BLOCKS) :
    ∃ dbk : Models.DB,
      Models.processChain Models.DB.empty (bs.take k) = .ok dbk ∧
      Models.rollbackToHeight db (k : Int) =
        .ok (Models.blockRollbackToHeight db (k : Int), (k : Int), bs.length) ∧
      (Models.blockRollbackToHeight db (k : Int)).blocks = dbk.blocks ∧
      (Models.blockRollbackToHeight db (k : Int)).transactions = dbk.transactions ∧
      (Models.blockRollbackToHeight db (k : Int)).outputs = dbk.outputs ∧
      Models.getCurrentHeight (Models.blockRollbackToHeight db (k : Int)) = k ∧
      (∀ a, Models.getAddressBalance (Models.blockRollbackToHeight db (k : Int)) a =
        Models.getAddressBalance dbk a) ∧
      (∀ a, Models.getAddressBalance (Models.blockRollbackToHeight db (k : Int)) a =
        Models.unspentSum (Models.blockRollbackToHeight db (k : Int)) a) ∧
      ∃ d2, Models.processBlock (Models.blockRollbackToHeight db (k : Int))
        (bs.get ⟨k, hk⟩) = .ok d2 := by
  have hc := Models.chain_char bs db hchain hdf
  have hn : Models.getCurrentHeight db = bs.length := by
    apply Models.getCurrentHeight_range
    rw [hc.blocks_eq, Models.canonicalBlocks_heights]
    exact hc.heights
  obtain ⟨dbk, dbk1, hpre, hstep⟩ := Models.chain_prefix_runs bs db k hchain hk
  have hck := Models.chain_char (bs.take k) dbk hpre
    (fun b hb => hdf b (List.mem_of_mem_take hb))
  obtain ⟨e1, e2, e3, e4⟩ := Models.blockRollbackToHeight_eff bs db k hc hdf
    (Nat.le_of_lt hk)
  obtain ⟨htake, _⟩ := Models.take_drop_heights bs k bs.length hc.heights
    (Nat.le_of_lt hk)
  have hresheight : Models.getCurrentHeight
      (Models.blockRollbackToHeight db (k : Int)) = k := by
    apply Models.getCurrentHeight_range
    rw [e1, Models.canonicalBlocks_heights]
    exact htake
  have hb' : (Models.blockRollbackToHeight db (k : Int)).blocks = dbk.blocks := by
    rw [e1, hck.blocks_eq]
  have ht' : (Models.blockRollbackToHeight db (k : Int)).transactions =
      dbk.transactions := by
    rw [e2, hck.txs_eq]
  have ho' : (Models.blockRollbackToHeight db (k : Int)).outputs = dbk.outputs := by
    rw [e3, hck.outs_eq]
  refine ⟨dbk, hpre, Models.rollbackToHeight_guard db k bs.length hn hk hdepth,
    hb', ht', ho', hresheight, ?_, ?_, ?_⟩
  · intro a
    rw [Models.getAddressBalance_eq_balVal, Models.getAddressBalance_eq_balVal,
      e4 a, hck.bal_eq a]
  · intro a
    rw [Models.getAddressBalance_eq_balVal, e4 a, Models.unspentSum_eq_sumI, e3,
      ← Models.canonicalBal_eq_sumI]
  · obtain ⟨d2, hd2, _⟩ := Models.processBlock_tables_transfer dbk
      (Models.blockRollbackToHeight db (k : Int)) (bs.get ⟨k, hk⟩) dbk1
      hb'.symm ht'.symm ho'.symm hstep
    exact ⟨d2, hd2⟩

set_option maxRecDepth 200000 in
-- Witness: the two-block chain c6b1, c6b2 rolled back to height 1.
theorem C3_rollback_inverse_witness :
    ∃ db, Models.processChain Models.DB.empty [c6b1, c6b2] = .ok db ∧
      (∃ dbk : Models.DB,
        Models.processChain Models.DB.empty ([c6b1, c6b2].take 1) = .ok dbk ∧
        Models.rollbackToHeight db ((1 : Nat) : Int) =
          .ok (Models.blockRollbackToHeight db ((1 : Nat) : Int), ((1 : Nat) : Int),
            [c6b1, c6b2].length) ∧
        (Models.blockRollbackToHeight db ((1 : Nat) : Int)).blocks = dbk.blocks ∧
        (Models.blockRollbackToHeight db ((1 : Nat) : Int)).transactions =
          dbk.transactions ∧
        (Models.blockRollbackToHeight db ((1 : Nat) : Int)).outputs = dbk.outputs ∧
        Models.getCurrentHeight
          (Models.blockRollbackToHeight db ((1 : Nat) : Int)) = 1 ∧
        (∀ a, Models.getAddressBalance
            (Models.blockRollbackToHeight db ((1 : Nat) : Int)) a =
          Models.getAddressBalance dbk a) ∧
        (∀ a, Models.getAddressBalance
            (Models.blockRollbackToHeight db ((1 : Nat) : Int)) a =
          Models.unspentSum (Models.blockRollbackToHeight db ((1 : Nat) : Int)) a) ∧
        ∃ d2, Models.processBlock (Models.blockRollbackToHeight db ((1 : Nat) : Int))
          ([c6b1, c6b2].get ⟨1, by decide⟩) = .ok d2) := by
  have hsome : (Models.processChain Models.DB.empty [c6b1, c6b2]).isOk = true := by
    decide
  rcases hch : Models.processChain Models.DB.empty [c6b1, c6b2] with e | db
  · rw [hch] at hsome
    cases hsome
  · exact ⟨db, rfl, C3_rollback_inverse [c6b1, c6b2] db 1 hch
      (by exact (by decide :
        ∀ b ∈ [c6b1, c6b2], (b.transactions.flatMap (fun t => t.inputs)).Nodup))
      (by decide) (by decide)⟩
